import Mathlib

/-!
# The witness solver of the bn254 R1CS backend

A shallow embedding of `internal/backend/bn254/cs/r1cs.go`: the per-constraint
resolution (`solveConstraint`, `solveLazyConstraint`, `divByCoeff`), the level
scheduler (`parallelSolve`) and the entry point `Solve`.

* Field elements (`fr.Element`) are the elements of an arbitrary field `F` with
  decidable equality; `fr.Element.Div` by zero yields zero, as `/` does in `F`.
* Go slices are lists; an index out of range is a panic.
* A Go function that may return an error or panic returns a `Res`: `ok` is a nil
  error, `err` a non-nil error (with the state mutated so far), `abort` a panic.
* Pointers (`*solution`, `*fr.Element`) become explicit state passing.
* A level that `parallelSolve` cuts into tasks is run by `Solve` task after
  task, in the order the tasks are pushed. `SolveScheduled` runs the tasks under
  a schedule of the workers, one step being the resolution of one constraint;
  `Solve` is the case of the empty schedule.
* Logging and the debug text of an error are left out.

The file also embeds `R1CS.Lazify` of the same source file, and, by the values
they compute, the Miller loops of `std/algebra/sw_bls12377/pairing.go` and the
hash of `std/hash/poseidon/poseidon.go`.
-/

set_option linter.unusedSectionVars false

namespace R1CSSolver

/-- The panics the solver can raise. -/
inductive Panic where
  /-- A slice index out of range (Go runtime panic). -/
  | indexOutOfRange
  /-- The panic "found more than one wire to instantiate". -/
  | moreThanOneWire
  /-- The panic "division by 0" of `divByCoeff`. -/
  | divisionByZero
  /-- The fatal failure of `set` on a wire that is already solved. -/
  | wireAlreadySolved
  /-- A hint whose declared input wire is not solved. -/
  | hintInputUnsolved
  /-- The panic "solver didn't instantiate all wires". -/
  | notAllWiresInstantiated
  /-- An integer division by zero (Go runtime panic). -/
  | integerDivideByZero
  deriving DecidableEq, Repr

/-- The values of Go's `error` interface that the solver produces. -/
inductive Error (F : Type) where
  /-- The error value `e` returned by an external hint function. -/
  | hintFailed (e : String)
  /-- The error `fmt.Errorf("%s ⋅ %s != %s", a, b, c)`. -/
  | notEqual (a b c : F)
  /-- The structured error `&UnsatisfiedConstraintError{CID: CID, Err: Err}`. -/
  | unsatisfiedConstraint (CID : Nat) (Err : Error F)
  /-- The error "invalid witness size, got %d, expected %d". -/
  | invalidWitnessSize (got : Nat) (expected : Int)
  /-- The error "invalid input size: len(a, b, c) == len(Constraints)". -/
  | invalidInputSize
  deriving DecidableEq, Repr

/-- Outcome of a Go function that mutates a state `σ`: a nil error, a non-nil
error, or a panic. -/
inductive Res (ε σ : Type) where
  | ok (s : σ)
  | err (e : ε) (s : σ)
  | abort (p : Panic)
  deriving DecidableEq, Repr

deriving instance DecidableEq for Except

/-- Type `compiled.Term`: a coefficient id and a wire id. -/
structure Term where
  CoeffID : Nat
  WireID : Nat
  deriving DecidableEq, Repr, Inhabited

/-- Type `compiled.LinearExpression`. -/
abbrev LinearExpression := List Term

/-- Type `compiled.R1C`. -/
structure R1C where
  L : LinearExpression
  R : LinearExpression
  O : LinearExpression
  deriving DecidableEq, Repr, Inhabited

/-- Modelled from the spec: the reserved coefficient id of the literal 0 (the
package `compiled` that declares it is not part of the sources). -/
def CoeffIdZero : Nat := 0

/-- Modelled from the spec: the reserved coefficient id of the literal 1. -/
def CoeffIdOne : Nat := 1

/-- Modelled from the spec: the reserved coefficient id of the literal -1. -/
def CoeffIdMinusOne : Nat := 2

/-- Modelled from the spec: a hint entry (type `compiled.Hint`, not part of the
sources): the function reference, the declared input wire ids, and the other
wires of the hint group, solved together with the wire the hint is invoked for. -/
structure Hint (F : Type) where
  fn : List F → Except String (List F)
  Inputs : List Nat
  Others : List Nat

/-- The interface `compiled.LazyInputs` of a lazy constraint template, whose
implementations are not part of the sources: each method is a field. -/
structure LazyInputs where
  FetchLazy : Nat → R1C
  IsInput : Nat → Nat → Bool
  GetShift : Int
  GetLoc : Nat
  GetConstraintsNum : Nat

/-- Type `compiled.LazyIndexedInputs`. -/
structure LazyIndexedInputs where
  Index : Nat
  LazyIndex : Nat
  deriving DecidableEq, Repr, Inhabited

/-- The constraint system: `compiled.R1CS` together with the coefficient table. -/
structure R1CS (F : Type) where
  Constraints : List R1C
  Coefficients : List F
  Levels : List (List Nat)
  MHints : Nat → Option (Hint F)
  LazyCons : List LazyInputs
  LazyConsMap : Nat → Option LazyIndexedInputs
  NbPublicVariables : Nat
  NbSecretVariables : Nat
  NbInternalVariables : Nat

/-- Modelled from the spec: the solution state (type `solution`, not part of
the sources): the wire values, the solved bitmap and the counter of solved
wires. -/
structure Solution (F : Type) where
  values : List F
  solved : List Bool
  nbSolved : Nat
  deriving DecidableEq, Repr

variable {F : Type} [Field F] [DecidableEq F]

/-- Modelled from the spec: `newSolution` (not part of the sources) creates the
value array and the solved bitmap, both of size `nbWires`; the spec names no way
for the creation to fail, so the error is always nil. -/
def newSolution (nbWires : Nat) : Solution F × Option (Error F) :=
  (⟨List.replicate nbWires 0, List.replicate nbWires false, 0⟩, none)

/-- Modelled from the spec: `solution.set` (not part of the sources) writes the
value and marks the wire solved; it is fatal if the wire is already solved. -/
def Solution.set (s : Solution F) (id : Nat) (value : F) : Except Panic (Solution F) :=
  match s.solved[id]? with
  | none => .error .indexOutOfRange
  | some true => .error .wireAlreadySolved
  | some false =>
    if id < s.values.length then
      .ok ⟨s.values.set id value, s.solved.set id true, s.nbSolved + 1⟩
    else .error .indexOutOfRange

/-- Modelled from the spec: `solution.isValid` (not part of the sources), the
terminal sanity check made with the counter of solved wires. -/
def Solution.isValid (s : Solution F) : Bool :=
  s.nbSolved == s.values.length

/-- Modelled from the spec: `coeff(term)`: the reserved ids stand for the
literals 0, 1 and -1, every other id indexes the coefficient table. -/
def coeff (coefficients : List F) (t : Term) : Option F :=
  if t.CoeffID = CoeffIdZero then some 0
  else if t.CoeffID = CoeffIdOne then some 1
  else if t.CoeffID = CoeffIdMinusOne then some (-1)
  else coefficients[t.CoeffID]?

/-- Modelled from the spec: `solution.accumulateInto` (not part of the sources)
adds `coeff(term) * value(wire)` into the accumulator. -/
def accumulateInto (coefficients : List F) (s : Solution F) (t : Term) (r : F) :
    Except Panic F :=
  match coeff coefficients t, s.values[t.WireID]? with
  | some k, some v => .ok (r + k * v)
  | _, _ => .error .indexOutOfRange

/-- The values of the declared input wires of a hint, all of which must be solved. -/
def gatherInputs (s : Solution F) : List Nat → Except Panic (List F)
  | [] => .ok []
  | w :: ws =>
    match s.solved[w]?, s.values[w]? with
    | some true, some v =>
      match gatherInputs s ws with
      | .ok vs => .ok (v :: vs)
      | .error p => .error p
    | some false, _ => .error .hintInputUnsolved
    | _, _ => .error .indexOutOfRange

/-- Writes the results of a hint, in order, to the wires of its group. -/
def setAll (s : Solution F) : List Nat → List F → Except Panic (Solution F)
  | [], _ => .ok s
  | w :: ws, outs =>
    match s.set w (outs.headD 0) with
    | .error p => .error p
    | .ok s' => setAll s' ws outs.tail

/-- Modelled from the spec: `solution.solveWithHint` (not part of the sources)
gathers the hint's declared input wires, invokes the hint function, writes the
results and marks the wires solved; a failure of the hint function is signalled
as an error. -/
def solveWithHint (s : Solution F) (vID : Nat) (h : Hint F) : Res (Error F) (Solution F) :=
  match gatherInputs s h.Inputs with
  | .error p => .abort p
  | .ok ins =>
    match h.fn ins with
    | .error e => .err (.hintFailed e) s
    | .ok outs =>
      match setAll s (vID :: h.Others) outs with
      | .error p => .abort p
      | .ok s' => .ok s'

/-- Function `divByCoeff`: sets `res = res / t.Coeff`. -/
def divByCoeff (cs : R1CS F) (res : F) (t : Term) : Except Panic F :=
  if t.CoeffID = CoeffIdOne then .ok res
  else if t.CoeffID = CoeffIdMinusOne then .ok (-res)
  else if t.CoeffID = CoeffIdZero then .error .divisionByZero
  else
    match cs.Coefficients[t.CoeffID]? with
    | none => .error .indexOutOfRange
    | some k => .ok (res / k)

/-- The variables captured by the closure `processLExp`: the solution, the
accumulator `val` of the side being walked, `loc` and `termToCompute`. -/
structure Walk (F : Type) where
  solution : Solution F
  val : F
  loc : Nat
  termToCompute : Term
  deriving DecidableEq, Repr

/-- The body of the loop of `processLExp` for one term `t`. -/
def processTerm (cs : R1CS F) (locValue : Nat) (t : Term) (w : Walk F) :
    Res (Error F) (Walk F) :=
  let vID := t.WireID
  match w.solution.solved[vID]? with
  | none => .abort .indexOutOfRange
  | some true =>
    match accumulateInto cs.Coefficients w.solution t w.val with
    | .error p => .abort p
    | .ok v => .ok { w with val := v }
  | some false =>
    match cs.MHints vID with
    | some hint =>
      match solveWithHint w.solution vID hint with
      | .abort p => .abort p
      | .err e s => .err e { w with solution := s }
      | .ok s =>
        match accumulateInto cs.Coefficients s t w.val with
        | .error p => .abort p
        | .ok v => .ok { w with solution := s, val := v }
    | none =>
      if w.loc ≠ 0 then .abort .moreThanOneWire
      else .ok { w with termToCompute := t, loc := locValue }

/-- The closure `processLExp` of `solveConstraint`. -/
def processLExp (cs : R1CS F) (locValue : Nat) : LinearExpression → Walk F →
    Res (Error F) (Walk F)
  | [], w => .ok w
  | t :: l, w =>
    match processTerm cs locValue t w with
    | .ok w' => processLExp cs locValue l w'
    | .err e w' => .err e w'
    | .abort p => .abort p

/-- The state `solveConstraint` works on: the solution and the three field
elements `a`, `b`, `c` it is given pointers to. -/
structure Frame (F : Type) where
  solution : Solution F
  a : F
  b : F
  c : F
  deriving DecidableEq, Repr

/-- The three walks of `solveConstraint` over `L`, `R` and `O`; the result holds
the frame with the three accumulators, `loc` and `termToCompute`. -/
def walkR1C (cs : R1CS F) (r : R1C) (st : Frame F) :
    Res (Error F) (Frame F × Nat × Term) :=
  match processLExp cs 1 r.L ⟨st.solution, st.a, 0, default⟩ with
  | .abort p => .abort p
  | .err e w => .err e (⟨w.solution, w.val, st.b, st.c⟩, w.loc, w.termToCompute)
  | .ok w1 =>
    match processLExp cs 2 r.R ⟨w1.solution, st.b, w1.loc, w1.termToCompute⟩ with
    | .abort p => .abort p
    | .err e w => .err e (⟨w.solution, w1.val, w.val, st.c⟩, w.loc, w.termToCompute)
    | .ok w2 =>
      match processLExp cs 3 r.O ⟨w2.solution, st.c, w2.loc, w2.termToCompute⟩ with
      | .abort p => .abort p
      | .err e w => .err e (⟨w.solution, w1.val, w2.val, w.val⟩, w.loc, w.termToCompute)
      | .ok w3 => .ok (⟨w3.solution, w1.val, w2.val, w3.val⟩, w3.loc, w3.termToCompute)

/-- The `switch loc` of `solveConstraint`: the value `wire` of the term to
compute (the coefficient times the wire value), added to the accumulator of its
side; when the other factor is zero the product is checked instead and `wire`
keeps its zero value. -/
def computeWire (loc : Nat) (st : Frame F) : Res (Error F) (Frame F × F) :=
  if loc = 1 then
    if st.b ≠ 0 then
      let wire := st.c / st.b - st.a
      .ok ({ st with a := st.a + wire }, wire)
    else if st.a * st.b = st.c then .ok (st, 0)
    else .err (.notEqual st.a st.b st.c) (st, 0)
  else if loc = 2 then
    if st.a ≠ 0 then
      let wire := st.c / st.a - st.b
      .ok ({ st with b := st.b + wire }, wire)
    else if st.a * st.b = st.c then .ok (st, 0)
    else .err (.notEqual st.a st.b st.c) (st, 0)
  else if loc = 3 then
    let wire := st.a * st.b - st.c
    .ok ({ st with c := st.c + wire }, wire)
  else .ok (st, 0)

/-- The part of `solveConstraint` after the three walks (the same text ends
`solveLazyConstraint`): the check when nothing is left to compute, otherwise
the computation of the wire and its instantiation. -/
def instantiate (cs : R1CS F) (loc : Nat) (termToCompute : Term) (st : Frame F) :
    Res (Error F) (Frame F) :=
  if loc = 0 then
    if st.a * st.b = st.c then .ok st else .err (.notEqual st.a st.b st.c) st
  else
    let wID := termToCompute.WireID
    match computeWire loc st with
    | .abort p => .abort p
    | .err e (st', _) => .err e st'
    | .ok (st', wire) =>
      match divByCoeff cs wire termToCompute with
      | .error p => .abort p
      | .ok wire' =>
        match st'.solution.set wID wire' with
        | .error p => .abort p
        | .ok s => .ok { st' with solution := s }

/-- Function `solveConstraint` on the materialized constraint `r`. -/
def solveR1C (cs : R1CS F) (r : R1C) (st : Frame F) : Res (Error F) (Frame F) :=
  match walkR1C cs r st with
  | .abort p => .abort p
  | .err e (st', _, _) => .err e st'
  | .ok (st', loc, termToCompute) => instantiate cs loc termToCompute st'

/-- Function `solveConstraint`: computes the unsolved wire of constraint `i`, if
any, and sets the solution accordingly. -/
def solveConstraint (cs : R1CS F) (i : Nat) (st : Frame F) : Res (Error F) (Frame F) :=
  match cs.Constraints[i]? with
  | none => .abort .indexOutOfRange
  | some r => solveR1C cs r st

/-- The wire id `vID` that the closure `processLExp` of `solveLazyConstraint`
gives a term: moved by `shiftI`, except for the constant wire 0. -/
def shiftedWireID (shiftI : Int) (t : Term) : Int :=
  if t.WireID ≠ 0 then (t.WireID : Int) + shiftI else (t.WireID : Int)

/-- The loop of the closure `processLExp` of `solveLazyConstraint`: the wire id
of every term but the constant is moved by `shiftI`, and the term is then
processed as in `solveConstraint`. -/
def lazyLoop (cs : R1CS F) (shiftI : Int) (locValue : Nat) :
    LinearExpression → Walk F → Res (Error F) (Walk F)
  | [], w => .ok w
  | t :: l, w =>
    if shiftedWireID shiftI t < 0 then .abort .indexOutOfRange
    else
      match processTerm cs locValue { t with WireID := (shiftedWireID shiftI t).toNat } w with
      | .ok w' => lazyLoop cs shiftI locValue l w'
      | .err e w' => .err e w'
      | .abort p => .abort p

/-- The closure `processLExp` of `solveLazyConstraint`: `shiftI` is `shift`, or 0
on a side that `IsInput` reports. -/
def processLExpLazy (cs : R1CS F) (li : LazyInputs) (j : Nat) (shift : Int)
    (locValue : Nat) (l : LinearExpression) (w : Walk F) : Res (Error F) (Walk F) :=
  lazyLoop cs (if li.IsInput j locValue then 0 else shift) locValue l w

/-- The three walks of `solveLazyConstraint` over the sides of the fetched
constraint. -/
def walkLazy (cs : R1CS F) (li : LazyInputs) (j : Nat) (shift : Int) (r : R1C)
    (st : Frame F) : Res (Error F) (Frame F × Nat × Term) :=
  match processLExpLazy cs li j shift 1 r.L ⟨st.solution, st.a, 0, default⟩ with
  | .abort p => .abort p
  | .err e w => .err e (⟨w.solution, w.val, st.b, st.c⟩, w.loc, w.termToCompute)
  | .ok w1 =>
    match processLExpLazy cs li j shift 2 r.R ⟨w1.solution, st.b, w1.loc, w1.termToCompute⟩ with
    | .abort p => .abort p
    | .err e w => .err e (⟨w.solution, w1.val, w.val, st.c⟩, w.loc, w.termToCompute)
    | .ok w2 =>
      match processLExpLazy cs li j shift 3 r.O
          ⟨w2.solution, st.c, w2.loc, w2.termToCompute⟩ with
      | .abort p => .abort p
      | .err e w => .err e (⟨w.solution, w1.val, w2.val, w.val⟩, w.loc, w.termToCompute)
      | .ok w3 => .ok (⟨w3.solution, w1.val, w2.val, w3.val⟩, w3.loc, w3.termToCompute)

/-- Function `solveLazyConstraint`: resolves instance `j` of the template `li`. -/
def solveLazyConstraint (cs : R1CS F) (li : LazyInputs) (j : Nat) (shift : Int)
    (st : Frame F) : Res (Error F) (Frame F) :=
  match walkLazy cs li j shift (li.FetchLazy j) st with
  | .abort p => .abort p
  | .err e (st', _, _) => .err e st'
  | .ok (st', loc, termToCompute) => instantiate cs loc termToCompute st'

/-- Function `solveGeneralConstraint`: a logical index below the number of
materialized constraints takes the plain path, any other is looked up in
`LazyConsMap` (a missing key reads as the zero value). -/
def solveGeneralConstraint (cs : R1CS F) (idx : Nat) (st : Frame F) :
    Res (Error F) (Frame F) :=
  let nbCons := cs.Constraints.length
  if idx < nbCons then solveConstraint cs idx st
  else
    let i := ((cs.LazyConsMap idx).getD default).LazyIndex
    let j := ((cs.LazyConsMap idx).getD default).Index
    match cs.LazyCons[i]? with
    | none => .abort .indexOutOfRange
    | some cons => solveLazyConstraint cs cons j cons.GetShift st

/-- The state of `parallelSolve`: the solution and the vectors `a`, `b`, `c`. -/
structure Run (F : Type) where
  solution : Solution F
  a : List F
  b : List F
  c : List F
  deriving DecidableEq, Repr

/-- The call `cs.solveGeneralConstraint(i, solution, &a[i], &b[i], &c[i])`. -/
def solveAt (cs : R1CS F) (i : Nat) (st : Run F) : Res (Error F) (Run F) :=
  match st.a[i]?, st.b[i]?, st.c[i]? with
  | some ai, some bi, some ci =>
    match solveGeneralConstraint cs i ⟨st.solution, ai, bi, ci⟩ with
    | .ok f => .ok ⟨f.solution, st.a.set i f.a, st.b.set i f.b, st.c.set i f.c⟩
    | .err e f => .err e ⟨f.solution, st.a.set i f.a, st.b.set i f.b, st.c.set i f.c⟩
    | .abort p => .abort p
  | _, _, _ => .abort .indexOutOfRange

/-- The loop over the constraints of a level run sequentially, which is also the
loop a worker runs over the constraints of a task: it stops at the first
constraint whose resolution returns an error, which it wraps in an
`UnsatisfiedConstraintError` carrying the index (the debug text is left out). -/
def solveTask (cs : R1CS F) : List Nat → Run F → Res (Error F) (Run F)
  | [], st => .ok st
  | i :: l, st =>
    match solveAt cs i st with
    | .ok st' => solveTask cs l st'
    | .err e st' => .err (.unsatisfiedConstraint i e) st'
    | .abort p => .abort p

/-- The loop of `parallelSolve` that pushes the tasks of a level: `k` iterations
are left, `i` is the loop counter; the result lists the slices
`level[_start:_end]` in the order they are pushed. -/
def pushTasks (level : List Nat) (nbIterationsPerCpus : Nat) :
    Nat → Nat → Nat → Nat → Except Panic (List (List Nat))
  | 0, _, _, _ => .ok []
  | k + 1, i, extraTasks, extraTasksOffset =>
    let _start := i * nbIterationsPerCpus + extraTasksOffset
    let _end := _start + nbIterationsPerCpus
    let _end' := if extraTasks > 0 then _end + 1 else _end
    let extraTasks' := if extraTasks > 0 then extraTasks - 1 else extraTasks
    let extraTasksOffset' := if extraTasks > 0 then extraTasksOffset + 1 else extraTasksOffset
    if _end' ≤ level.length then
      match pushTasks level nbIterationsPerCpus k (i + 1) extraTasks' extraTasksOffset' with
      | .ok ts => .ok (((level.drop _start).take (_end' - _start)) :: ts)
      | .error p => .error p
    else .error .indexOutOfRange

/-- The tasks `parallelSolve` pushes for a level that it does not run
sequentially, with `numCPU` the value of `runtime.NumCPU()`. -/
def levelTasks (numCPU : Nat) (level : List Nat) : Except Panic (List (List Nat)) :=
  let maxTasks := (level.length + 49) / 50
  let nbTasks := if numCPU > maxTasks then maxTasks else numCPU
  if nbTasks = 0 then .error .integerDivideByZero
  else
    let nbIterationsPerCpus := level.length / nbTasks
    let nbTasks' := if nbIterationsPerCpus < 1 then level.length else nbTasks
    let nbIterationsPerCpus' := if nbIterationsPerCpus < 1 then 1 else nbIterationsPerCpus
    let extraTasks := level.length - nbTasks' * nbIterationsPerCpus'
    pushTasks level nbIterationsPerCpus' nbTasks' 0 extraTasks 0

/-- The tasks of a level run by the workers, here one task after the other in
the order they were pushed (`runScheduled` gives the other interleavings): a
task stops at its first error, the other tasks still run, and after the level
the first reported error is returned. -/
def runTasks (cs : R1CS F) : List (List Nat) → Run F → Res (Error F) (Run F)
  | [], st => .ok st
  | t :: ts, st =>
    match solveTask cs t st with
    | .abort p => .abort p
    | .ok st' => runTasks cs ts st'
    | .err e st' =>
      match runTasks cs ts st' with
      | .abort p => .abort p
      | .ok st'' => .err e st''
      | .err _ st'' => .err e st''

/-- One iteration of the loop of `parallelSolve` over the levels: a level of at
most 50 constraints (`maxCPU <= 1.0`) is solved sequentially, any other is cut
into tasks. -/
def solveLevel (cs : R1CS F) (numCPU : Nat) (level : List Nat) (st : Run F) :
    Res (Error F) (Run F) :=
  if level.length ≤ 50 then solveTask cs level st
  else
    match levelTasks numCPU level with
    | .error p => .abort p
    | .ok tasks => runTasks cs tasks st

/-- The loop of `parallelSolve` over a list of levels. -/
def solveLevels (cs : R1CS F) (numCPU : Nat) : List (List Nat) → Run F →
    Res (Error F) (Run F)
  | [], st => .ok st
  | level :: ls, st =>
    match solveLevel cs numCPU level st with
    | .ok st' => solveLevels cs numCPU ls st'
    | .err e st' => .err e st'
    | .abort p => .abort p

/-- Function `parallelSolve`, with `numCPU` the value of `runtime.NumCPU()`. -/
def parallelSolve (cs : R1CS F) (numCPU : Nat) (st : Run F) : Res (Error F) (Run F) :=
  solveLevels cs numCPU cs.Levels st

/-- Modelled from the spec: `LazyCons.GetConstraintsAll` (not part of the
sources), the number of constraints that the lazy templates stand for. -/
def GetConstraintsAll (lazyCons : List LazyInputs) : Nat :=
  (lazyCons.map (fun con => con.GetConstraintsNum)).sum

/-- Go's `copy(dst, src)`: overwrites the first `min(len(dst), len(src))`
elements of `dst`. -/
def copy (dst src : List F) : List F :=
  src.take dst.length ++ dst.drop src.length

/-- Marks the wires `1 .. n` solved, as the loop `solution.solved[i+1] = true`
for `i < n` does. -/
def markSolved (solved : List Bool) : Nat → Except Panic (List Bool)
  | 0 => .ok solved
  | n + 1 =>
    match markSolved solved n with
    | .error p => .error p
    | .ok sv => if n + 1 < sv.length then .ok (sv.set (n + 1) true)
      else .error .indexOutOfRange

/-- What `Solve` returns: the wire values and the error, together with the
vectors `a`, `b`, `c` it was given, as it leaves them. -/
structure Output (F : Type) where
  values : List F
  err : Option (Error F)
  a : List F
  b : List F
  c : List F
  deriving DecidableEq, Repr

/-- Function `Solve`: sets all the wires and fills the vectors `a`, `b`, `c`;
`numCPU` is the value of `runtime.NumCPU()`. The result is a panic or what is
returned. -/
def Solve (cs : R1CS F) (numCPU : Nat) (witness a b c : List F) :
    Except Panic (Output F) :=
  let nbWires := cs.NbPublicVariables + cs.NbSecretVariables + cs.NbInternalVariables
  match newSolution nbWires with
  | (_, some err) => .ok ⟨List.replicate nbWires 0, some err, a, b, c⟩
  | (solution, none) =>
    let expected : Int :=
      (cs.NbPublicVariables : Int) - 1 + (cs.NbSecretVariables : Int)
    if (witness.length : Int) ≠ expected then
      .ok ⟨solution.values, some (.invalidWitnessSize witness.length expected), a, b, c⟩
    else
      let nbCons := cs.Constraints.length + GetConstraintsAll cs.LazyCons
      if a.length ≠ nbCons ∨ b.length ≠ nbCons ∨ c.length ≠ nbCons then
        .ok ⟨solution.values, some .invalidInputSize, a, b, c⟩
      else
        match solution.values, solution.solved with
        | _ :: vs, _ :: sv =>
          match markSolved (true :: sv) witness.length with
          | .error p => .error p
          | .ok solved =>
            let seeded : Solution F :=
              ⟨(1 : F) :: copy vs witness, solved, solution.nbSolved + (witness.length + 1)⟩
            match parallelSolve cs numCPU ⟨seeded, a, b, c⟩ with
            | .abort p => .error p
            | .err err st => .ok ⟨st.solution.values, some err, st.a, st.b, st.c⟩
            | .ok st =>
              if !st.solution.isValid then .error .notAllWiresInstantiated
              else .ok ⟨st.solution.values, none, st.a, st.b, st.c⟩
        | _, _ => .error .indexOutOfRange

/-- The entries of `a`, `b`, `c` at index `i` exist and satisfy `a[i] * b[i] = c[i]`. -/
def Run.SatAt (st : Run F) (i : Nat) : Prop :=
  ∃ x y z, st.a[i]? = some x ∧ st.b[i]? = some y ∧ st.c[i]? = some z ∧ x * y = z

/-! ## Concrete inputs

The field with 13 elements serves to run the definitions. -/

instance fact_prime_thirteen : Fact (Nat.Prime 13) := ⟨by norm_num⟩

/-- A system of two constraints over the wires `1, x, y, u, v`:
`x * y = u` and `u * x = v`, one per level. -/
def exampleCS : R1CS (ZMod 13) where
  Constraints := [⟨[⟨1, 1⟩], [⟨1, 2⟩], [⟨1, 3⟩]⟩, ⟨[⟨1, 3⟩], [⟨1, 1⟩], [⟨1, 4⟩]⟩]
  Coefficients := []
  Levels := [[0], [1]]
  MHints := fun _ => none
  LazyCons := []
  LazyConsMap := fun _ => none
  NbPublicVariables := 3
  NbSecretVariables := 0
  NbInternalVariables := 2

/-- What `Solve` returns for `exampleCS` on the witness `x = 3`, `y = 4`. -/
def exampleOutput : Output (ZMod 13) :=
  ⟨[1, 3, 4, 12, 10], none, [3, 12], [4, 3], [12, 10]⟩

/-! ## Notions used to state the properties -/

/-- The value of a term as the spec words it: `coeff(term) * value(wire(term))`. -/
def termValue (coefficients : List F) (s : Solution F) (t : Term) : F :=
  (coeff coefficients t).getD 0 * s.values.getD t.WireID 0

/-- The value of a linear expression as the spec words it: the field sum of
`coeff(term) * value(wire(term))`. -/
def eval (coefficients : List F) (s : Solution F) (l : LinearExpression) : F :=
  (l.map (termValue coefficients s)).sum

/-- The term refers to a wire that is unsolved and has no registered hint. -/
def unknownAt (cs : R1CS F) (s : Solution F) (t : Term) : Bool :=
  s.solved[t.WireID]? == some false && (cs.MHints t.WireID).isNone

/-- Every term of the expression refers to a solved wire. -/
def AllSolved (s : Solution F) (l : LinearExpression) : Prop :=
  ∀ t ∈ l, s.solved[t.WireID]? = some true

/-- The solution `s'` extends `s`: the wires solved in `s` are solved in `s'`
with the same value, and the bitmap keeps its length. -/
structure Solution.Extends (s s' : Solution F) : Prop where
  length_eq : s'.solved.length = s.solved.length
  keeps : ∀ w : Nat, s.solved[w]? = some true →
    s'.solved[w]? = some true ∧ s'.values[w]? = s.values[w]?

/-- The solution of `exampleCS` once seeded with the witness `x = 3`, `y = 4`. -/
def exampleSeed : Solution (ZMod 13) :=
  ⟨[1, 3, 4, 0, 0], [true, true, true, false, false], 3⟩

/-- Example scenario 1 of the spec: the constraint `1*pub0 * 1*pub1 = 1*internal0`
over the wires `1, pub0, pub1, internal0`. -/
def scenario1CS : R1CS (ZMod 13) where
  Constraints := [⟨[⟨1, 1⟩], [⟨1, 2⟩], [⟨1, 3⟩]⟩]
  Coefficients := []
  Levels := [[0]]
  MHints := fun _ => none
  LazyCons := []
  LazyConsMap := fun _ => none
  NbPublicVariables := 3
  NbSecretVariables := 0
  NbInternalVariables := 1

/-- A system with the coefficient table `0, 1, -1, 0`: the constraint
`(0 * w) * 1 = x` over the wires `1, x, w`. -/
def zeroCoeffCS : R1CS (ZMod 13) where
  Constraints := [⟨[⟨3, 2⟩], [⟨1, 0⟩], [⟨1, 1⟩]⟩]
  Coefficients := [0, 1, 12, 0]
  Levels := [[0]]
  MHints := fun _ => none
  LazyCons := []
  LazyConsMap := fun _ => none
  NbPublicVariables := 2
  NbSecretVariables := 0
  NbInternalVariables := 1

/-- A system whose coefficient table holds the literals 0, 1, 2, -1 and then a
zero at the id 4, which is not reserved: the constraint `(0 * w) * 1 = x` over
the wires `1, x, w`, the term of `w` carrying the id 4. -/
def zeroEntryCS : R1CS (ZMod 13) where
  Constraints := [⟨[⟨4, 2⟩], [⟨1, 0⟩], [⟨1, 1⟩]⟩]
  Coefficients := [0, 1, 2, 12, 0]
  Levels := [[0]]
  MHints := fun _ => none
  LazyCons := []
  LazyConsMap := fun _ => none
  NbPublicVariables := 2
  NbSecretVariables := 0
  NbInternalVariables := 1

/-- The errors that the resolution of one constraint returns: the failed check
`a ⋅ b != c`, or the error value returned by the function of a registered hint. -/
def Error.IsCause (cs : R1CS F) (x : Error F) : Prop :=
  (∃ a b c, x = .notEqual a b c) ∨
  (∃ v hint ins e, cs.MHints v = some hint ∧ hint.fn ins = .error e ∧ x = .hintFailed e)

/-- Example scenario 4 of the spec: `x * 1 = u` followed by the assertion
`x * y = z` over the wires `1, x, y, z, u`, one constraint per level. -/
def assertCS : R1CS (ZMod 13) where
  Constraints := [⟨[⟨1, 1⟩], [⟨1, 0⟩], [⟨1, 4⟩]⟩, ⟨[⟨1, 1⟩], [⟨1, 2⟩], [⟨1, 3⟩]⟩]
  Coefficients := []
  Levels := [[0], [1]]
  MHints := fun _ => none
  LazyCons := []
  LazyConsMap := fun _ => none
  NbPublicVariables := 4
  NbSecretVariables := 0
  NbInternalVariables := 1

/-- The solution of `assertCS` once seeded with the witness `x = 3`, `y = 4`,
`z = 11`, which does not satisfy the assertion. -/
def assertSeed : Solution (ZMod 13) :=
  ⟨[1, 3, 4, 11, 0], [true, true, true, true, false], 4⟩

/-- A hint whose function fails. -/
def failingHint : Hint (ZMod 13) where
  fn := fun _ => .error "hint failed"
  Inputs := [1]
  Others := []

/-- A system whose only constraint `h * 1 = x`, over the wires `1, x, h`, refers
to the wire `h` of the failing hint. -/
def hintFailCS : R1CS (ZMod 13) where
  Constraints := [⟨[⟨1, 2⟩], [⟨1, 0⟩], [⟨1, 1⟩]⟩]
  Coefficients := []
  Levels := [[0]]
  MHints := fun v => if v = 2 then some failingHint else none
  LazyCons := []
  LazyConsMap := fun _ => none
  NbPublicVariables := 2
  NbSecretVariables := 0
  NbInternalVariables := 1

/-- The walk of `processLExp` over `l` from `w0` meets a second term to compute:
after the terms `l1`, with a term to compute already recorded (`loc` is not 0),
it meets the term `t`, whose wire is at that moment unsolved and without a
registered hint. -/
def MeetsSecondUnknown (cs : R1CS F) (locValue : Nat) (l : LinearExpression)
    (w0 : Walk F) : Prop :=
  ∃ l1 t l2 w, l = l1 ++ t :: l2 ∧ processLExp cs locValue l1 w0 = .ok w ∧
    w.loc ≠ 0 ∧ unknownAt cs w.solution t = true

/-- A constraint `w * w = x` over the wires `1, x, w`, in which the unsolved
wire `w` occurs twice. -/
def twiceCS : R1CS (ZMod 13) where
  Constraints := [⟨[⟨1, 2⟩], [⟨1, 2⟩], [⟨1, 1⟩]⟩]
  Coefficients := []
  Levels := [[0]]
  MHints := fun _ => none
  LazyCons := []
  LazyConsMap := fun _ => none
  NbPublicVariables := 2
  NbSecretVariables := 0
  NbInternalVariables := 1

/-- The property `P` holds of the state that a Go function leaves, whether it
returns a nil error or an error. -/
def Res.Holds {ε σ : Type} (P : σ → Prop) : Res ε σ → Prop
  | .ok s => P s
  | .err _ s => P s
  | .abort _ => True

/-- One or more writes lead from the solution `s` to `s'`: `s'` extends `s`, the
value array keeps its length, and the counter of solved wires has grown by the
number of flags that were raised. -/
structure Solution.Step (s s' : Solution F) : Prop where
  extends_ : s.Extends s'
  values_length : s'.values.length = s.values.length
  counter : s'.nbSolved + s.solved.count true = s.nbSolved + s'.solved.count true

/-- The seeding of the solution in `Solve`: the constant wire is marked solved
and set to one, the witness is copied behind it and its wires are marked solved,
and the counter of solved wires grows by `len(witness) + 1`. -/
def seed (solution : Solution F) (witness : List F) : Except Panic (Solution F) :=
  match solution.values, solution.solved with
  | _ :: vs, _ :: sv =>
    match markSolved (true :: sv) witness.length with
    | .error p => .error p
    | .ok solved =>
      .ok ⟨(1 : F) :: copy vs witness, solved, solution.nbSolved + (witness.length + 1)⟩
  | _, _ => .error .indexOutOfRange

/-- Example scenario 3 of the spec: a hint that doubles its input. -/
def doublingHint : Hint (ZMod 13) where
  fn := fun ins => .ok [2 * ins.headD 0]
  Inputs := [1]
  Others := []

/-- Example scenario 3 of the spec: over the wires `1, w, h`, the wire `h` has
the doubling hint with input `w`, and the constraint `h * 1 = w + w` refers
to it. -/
def doublingCS : R1CS (ZMod 13) where
  Constraints := [⟨[⟨1, 2⟩], [⟨1, 0⟩], [⟨1, 1⟩, ⟨1, 1⟩]⟩]
  Coefficients := []
  Levels := [[0]]
  MHints := fun v => if v = 2 then some doublingHint else none
  LazyCons := []
  LazyConsMap := fun _ => none
  NbPublicVariables := 2
  NbSecretVariables := 0
  NbInternalVariables := 1

/-- The wire id that the expansion of instance `j` of a template gives the term
`t` of the side `side`: on an input side the id is kept, on a state side it is
moved by `shift`, the constant wire 0 apart. -/
def expandedWireID (li : LazyInputs) (j : Nat) (shift : Int) (side : Nat) (t : Term) : Int :=
  if li.IsInput j side then (t.WireID : Int)
  else if t.WireID = 0 then 0
  else (t.WireID : Int) + shift

/-- One side of the materialized constraint of instance `j`. -/
def unrollSide (li : LazyInputs) (j : Nat) (shift : Int) (side : Nat)
    (l : LinearExpression) : LinearExpression :=
  l.map (fun t => { t with WireID := (expandedWireID li j shift side t).toNat })

/-- The materialized constraint of instance `j` of a template, in the words of
the spec: the constraint that `FetchLazy(j)` returns, with `shift` added to the
wire id of every term with a non-zero wire id on each side that is not an input
side. -/
def unroll (li : LazyInputs) (j : Nat) (shift : Int) : R1C :=
  ⟨unrollSide li j shift 1 (li.FetchLazy j).L, unrollSide li j shift 2 (li.FetchLazy j).R,
    unrollSide li j shift 3 (li.FetchLazy j).O⟩

/-- A template whose three sides are state sides and whose only constraint is
`1 * 1 = 1`, every term referring to the constant wire 0. -/
def constantLazy : LazyInputs where
  FetchLazy := fun _ => ⟨[⟨1, 0⟩], [⟨1, 0⟩], [⟨1, 0⟩]⟩
  IsInput := fun _ _ => false
  GetShift := 1
  GetLoc := 0
  GetConstraintsNum := 1

/-- A system over the wires `1, x` with the template `constantLazy` and no
materialized constraint. -/
def constantLazyCS : R1CS (ZMod 13) where
  Constraints := []
  Coefficients := []
  Levels := [[0]]
  MHints := fun _ => none
  LazyCons := [constantLazy]
  LazyConsMap := fun idx => if idx = 0 then some ⟨0, 0⟩ else none
  NbPublicVariables := 2
  NbSecretVariables := 0
  NbInternalVariables := 0

/-- A template over the wires of `exampleCS`: the constraint `x * y = u` with `x`
on an input side and `y`, `u` on state sides. -/
def exampleLazy : LazyInputs where
  FetchLazy := fun _ => ⟨[⟨1, 1⟩], [⟨1, 1⟩], [⟨1, 2⟩]⟩
  IsInput := fun _ side => side == 1
  GetShift := 1
  GetLoc := 0
  GetConstraintsNum := 1

/-- A system of 60 constraints over the constant wire alone, all in one level:
the first, `1 * 1 = 0`, is not satisfied, the others are `1 * 1 = 1`. -/
def sixtyCS : R1CS (ZMod 13) where
  Constraints := ⟨[⟨1, 0⟩], [⟨1, 0⟩], []⟩ :: List.replicate 59 ⟨[⟨1, 0⟩], [⟨1, 0⟩], [⟨1, 0⟩]⟩
  Coefficients := []
  Levels := [List.range 60]
  MHints := fun _ => none
  LazyCons := []
  LazyConsMap := fun _ => none
  NbPublicVariables := 1
  NbSecretVariables := 0
  NbInternalVariables := 0

/-- The state in which `parallelSolve` starts on `sixtyCS`. -/
def sixtyRun : Run (ZMod 13) :=
  ⟨⟨[1], [true], 1⟩, List.replicate 60 0, List.replicate 60 0, List.replicate 60 0⟩

/-- The bounds `(_start, _end)` of the slices that the loop of `parallelSolve`
pushes, in order: `k` iterations are left, `i` is the loop counter. -/
def taskBounds (nbIterationsPerCpus : Nat) : Nat → Nat → Nat → Nat → List (Nat × Nat)
  | 0, _, _, _ => []
  | k + 1, i, extraTasks, extraTasksOffset =>
    let _start := i * nbIterationsPerCpus + extraTasksOffset
    let _end := _start + nbIterationsPerCpus
    let _end' := if extraTasks > 0 then _end + 1 else _end
    let extraTasks' := if extraTasks > 0 then extraTasks - 1 else extraTasks
    let extraTasksOffset' := if extraTasks > 0 then extraTasksOffset + 1 else extraTasksOffset
    (_start, _end') :: taskBounds nbIterationsPerCpus k (i + 1) extraTasks' extraTasksOffset'

/-- The bounds of the slices that `parallelSolve` pushes for a level of `n`
constraints, with `numCPU` the value of `runtime.NumCPU()`. -/
def levelBounds (numCPU n : Nat) : List (Nat × Nat) :=
  let maxTasks := (n + 49) / 50
  let nbTasks := if numCPU > maxTasks then maxTasks else numCPU
  let nbIterationsPerCpus := n / nbTasks
  let nbTasks' := if nbIterationsPerCpus < 1 then n else nbTasks
  let nbIterationsPerCpus' := if nbIterationsPerCpus < 1 then 1 else nbIterationsPerCpus
  let extraTasks := n - nbTasks' * nbIterationsPerCpus'
  taskBounds nbIterationsPerCpus' nbTasks' 0 extraTasks 0

/-- The slice `level[p.1:p.2]`. -/
def slice (level : List Nat) (p : Nat × Nat) : List Nat :=
  (level.drop p.1).take (p.2 - p.1)

/-- The bounds are contiguous from `s` to `e`: the first slice starts at `s`,
each slice starts where the one before ends, and the last ends at `e`. -/
def Contiguous : Nat → List (Nat × Nat) → Nat → Prop
  | s, [], e => s = e
  | s, p :: rest, e => p.1 = s ∧ p.1 ≤ p.2 ∧ Contiguous p.2 rest e

/-- A system whose constraint `(0 * w) * x = 0`, over the wires `1, x, w`,
carries the reserved zero coefficient id on the term of the unsolved wire `w`. -/
def zeroIdCS : R1CS (ZMod 13) where
  Constraints := [⟨[⟨0, 2⟩], [⟨1, 1⟩], []⟩]
  Coefficients := []
  Levels := [[0]]
  MHints := fun _ => none
  LazyCons := []
  LazyConsMap := fun _ => none
  NbPublicVariables := 2
  NbSecretVariables := 0
  NbInternalVariables := 1

/-- The constraint `w * x = z` over the wires `1, x, z, w`, with `w` to solve. -/
def factorCS : R1CS (ZMod 13) where
  Constraints := [⟨[⟨1, 3⟩], [⟨1, 1⟩], [⟨1, 2⟩]⟩]
  Coefficients := []
  Levels := [[0]]
  MHints := fun _ => none
  LazyCons := []
  LazyConsMap := fun _ => none
  NbPublicVariables := 3
  NbSecretVariables := 0
  NbInternalVariables := 1

/-! ## The pairing gadget (`std/algebra/sw_bls12377/pairing.go`)

The gadget is embedded by the values it computes: a circuit variable is the
field element it stands for. -/

/-- The loop count of the ate pairing. -/
def ateLoop : Nat := 9586122913090633729

/-- The bit `ateLoopBigInt.Bit(i)`. -/
def ateLoopBin (i : Nat) : Nat := ateLoop / 2 ^ i % 2

/-- A point of the first group, in affine coordinates over the base field. -/
structure G1Affine (Fp : Type) where
  X : Fp
  Y : Fp
deriving DecidableEq

/-- A point of the second group, in affine coordinates over the quadratic
extension. -/
structure G2Affine (E2 : Type) where
  X : E2
  Y : E2
deriving DecidableEq

/-- A sparse element of the degree 12 extension, the result of a line
evaluation. -/
structure LineEvaluation (E2 : Type) where
  R0 : E2
  R1 : E2
deriving DecidableEq

/-- Modelled from the spec: `api.DivUnchecked(a, b)` of package `frontend`
stands for the quotient `a / b` in the base field. -/
def DivUnchecked {Fp : Type} [Field Fp] (a b : Fp) : Fp := a / b

/-- Modelled from the spec: `E2.MulByFp` of package `fields_bls12377`
multiplies an element of the quadratic extension by a base field element; the
other operations of `E2` (`Add`, `Sub`, `Neg`, `Double`, `Mul`, `Square`,
`Inverse`) are written with the field operations of `E2`. -/
def MulByFp {Fp E2 : Type} [Field Fp] [Field E2] [Algebra Fp E2] (x : E2) (c : Fp) : E2 :=
  c • x

/-- Modelled from the spec: the operations of `fields_bls12377.E12` that the
Miller loops call. -/
structure E12Ops (E2 E12 : Type) where
  SetOne : E12
  Square : E12 → E12
  MulBy034 : E12 → E2 → E2 → E12

/-- The operations on `E12` are those of a commutative ring: `SetOne` is 1,
`Square` multiplies an element by itself and `MulBy034` multiplies its receiver
by the sparse element that its two arguments describe. -/
structure E12Ops.IsRing {E2 E12 : Type} [CommRing E12] (ops : E12Ops E2 E12) : Prop where
  one : ops.SetOne = 1
  square : ∀ z, ops.Square z = z * z
  mulBy034 : ∀ z c3 c4, ops.MulBy034 z c3 c4 = z * ops.MulBy034 1 c3 c4

/-- The point `2 * p1 + p2` by two chord steps, without the intermediate
ordinate, and the two lines of the steps. -/
def DoubleAndAddStep {E2 : Type} [Field E2] (p1 p2 : G2Affine E2) :
    G2Affine E2 × LineEvaluation E2 × LineEvaluation E2 :=
  let n := p1.Y - p2.Y
  let d := p1.X - p2.X
  let l1 := d⁻¹ * n
  let x3 := l1 * l1 - p1.X - p2.X
  let line1 : LineEvaluation E2 := ⟨-l1, l1 * p1.X - p1.Y⟩
  let n := p1.Y + p1.Y
  let d := x3 - p1.X
  let l2 := d⁻¹ * n
  let l2 := -(l2 + l1)
  let x4 := l2 * l2 - p1.X - x3
  let y4 := l2 * (p1.X - x4) - p1.Y
  let line2 : LineEvaluation E2 := ⟨-l2, l2 * p1.X - p1.Y⟩
  (⟨x4, y4⟩, line1, line2)

/-- The point `2 * p1` and the tangent line at `p1`. -/
def DoubleStep (Fp : Type) {E2 : Type} [Field Fp] [Field E2] [Algebra Fp E2]
    (p1 : G2Affine E2) : G2Affine E2 × LineEvaluation E2 :=
  let n := MulByFp (p1.X * p1.X) (3 : Fp)
  let d := MulByFp p1.Y (2 : Fp)
  let l := d⁻¹ * n
  let xr := l * l - p1.X - p1.X
  let yr := l * (p1.X - xr) - p1.Y
  let line : LineEvaluation E2 := ⟨-l, l * p1.X - p1.Y⟩
  (⟨xr, yr⟩, line)

/-- One round `i` of the loop of `MillerLoop`, on `res` and `Qacc`. -/
def millerRound {Fp E2 E12 : Type} [Field Fp] [Field E2] [Algebra Fp E2]
    (ops : E12Ops E2 E12) (xOverY yInv : Fp) (Q : G2Affine E2)
    (st : E12 × G2Affine E2) (i : Nat) : E12 × G2Affine E2 :=
  let res := ops.Square st.1
  if ateLoopBin i = 0 then
    let step := DoubleStep Fp st.2
    let l1 := step.2
    (ops.MulBy034 res (MulByFp l1.R0 xOverY) (MulByFp l1.R1 yInv), step.1)
  else
    let step := DoubleAndAddStep st.2 Q
    let l1 := step.2.1
    let l2 := step.2.2
    let res := ops.MulBy034 res (MulByFp l1.R0 xOverY) (MulByFp l1.R1 yInv)
    (ops.MulBy034 res (MulByFp l2.R0 xOverY) (MulByFp l2.R1 yInv), step.1)

/-- The Miller loop of `P` and `Q`: the rounds `i = 62, ..., 0`, from
`res = 1` and `Qacc = Q`. -/
def MillerLoop {Fp E2 E12 : Type} [Field Fp] [Field E2] [Algebra Fp E2]
    (ops : E12Ops E2 E12) (P : G1Affine Fp) (Q : G2Affine E2) : E12 :=
  let yInv := DivUnchecked 1 P.Y
  let xOverY := DivUnchecked P.X P.Y
  ((List.range 63).reverse.foldl (millerRound ops xOverY yInv Q) (ops.SetOne, Q)).1

/-- The body of the inner loops of `TripleMillerLoop` for the pair `k`, on
`res` and the three `Qacc[k]`. -/
def tripleBody {Fp E2 E12 : Type} [Field Fp] [Field E2] [Algebra Fp E2]
    (ops : E12Ops E2 E12) (xOverY yInv : Fin 3 → Fp) (Q : Fin 3 → G2Affine E2) (i : Nat)
    (st : E12 × (Fin 3 → G2Affine E2)) (k : Fin 3) : E12 × (Fin 3 → G2Affine E2) :=
  if ateLoopBin i = 0 then
    let step := DoubleStep Fp (st.2 k)
    let l1 := step.2
    (ops.MulBy034 st.1 (MulByFp l1.R0 (xOverY k)) (MulByFp l1.R1 (yInv k)),
      Function.update st.2 k step.1)
  else
    let step := DoubleAndAddStep (st.2 k) (Q k)
    let l1 := step.2.1
    let l2 := step.2.2
    let res := ops.MulBy034 st.1 (MulByFp l1.R0 (xOverY k)) (MulByFp l1.R1 (yInv k))
    (ops.MulBy034 res (MulByFp l2.R0 (xOverY k)) (MulByFp l2.R1 (yInv k)),
      Function.update st.2 k step.1)

/-- One round `i` of the outer loop of `TripleMillerLoop`: `res` is squared
once, then the inner loop runs for `k = 0, 1, 2`. -/
def tripleRound {Fp E2 E12 : Type} [Field Fp] [Field E2] [Algebra Fp E2]
    (ops : E12Ops E2 E12) (xOverY yInv : Fin 3 → Fp) (Q : Fin 3 → G2Affine E2)
    (st : E12 × (Fin 3 → G2Affine E2)) (i : Nat) : E12 × (Fin 3 → G2Affine E2) :=
  ([0, 1, 2] : List (Fin 3)).foldl (tripleBody ops xOverY yInv Q i) (ops.Square st.1, st.2)

/-- The Miller loop of three pairs `(P[k], Q[k])` with a shared accumulator. -/
def TripleMillerLoop {Fp E2 E12 : Type} [Field Fp] [Field E2] [Algebra Fp E2]
    (ops : E12Ops E2 E12) (P : Fin 3 → G1Affine Fp) (Q : Fin 3 → G2Affine E2) : E12 :=
  let yInv : Fin 3 → Fp := fun k => DivUnchecked 1 (P k).Y
  let xOverY : Fin 3 → Fp := fun k => DivUnchecked (P k).X (P k).Y
  ((List.range 63).reverse.foldl (tripleRound ops xOverY yInv Q) (ops.SetOne, Q)).1

/-- Operations on `ZMod 13` taken as its own degree 12 extension, the sparse
element of `c3` and `c4` being `(c3 + 2 * c4) ^ 2 + 2`, which is never 0. -/
def exampleOps : E12Ops (ZMod 13) (ZMod 13) where
  SetOne := 1
  Square := fun z => z * z
  MulBy034 := fun z c3 c4 => z * ((c3 + 2 * c4) * (c3 + 2 * c4) + 2)

/-- Three points of the first group for the example. -/
def exampleP : Fin 3 → G1Affine (ZMod 13) := fun k => ⟨k.val + 1, 2 * k.val + 3⟩

/-- Three points of the second group for the example. -/
def exampleQ : Fin 3 → G2Affine (ZMod 13) := fun k => ⟨3 * k.val + 2, k.val + 5⟩

/-! ## The Poseidon gadget (`std/hash/poseidon/poseidon.go`)

The gadget is embedded by the values it computes. The tables of package
`constants` are a parameter; a table access out of range is the Go runtime
panic, written `none`. -/

/-- The tables of package `constants`: the number of full rounds, and for each
width `w` at index `w - 3` the number of partial rounds, the round constants
and the MDS matrix. -/
structure Constants (F : Type) where
  RF : Nat
  RP : List Nat
  RC : List (List F)
  MDS : List (List (List F))

/-- The panics of `Poseidon`. -/
inductive PoseidonPanic where
  /-- The panic "Not supported input size". -/
  | notSupportedInputSize
  /-- An index out of range (Go runtime panic). -/
  | indexOutOfRange
  /-- A panic raised inside `compiled.GetConstraintsNum`. -/
  | constraintsNum
deriving DecidableEq, Repr

/-- The element `table[i]` for a signed index `i`; `none` when the index is
negative or not below the length. -/
def tableAt {α : Type} (table : List α) (i : Int) : Option α :=
  if i < 0 then none else table[i.toNat]?

/-- The fifth power, as three multiplications. -/
def sbox (x : F) : F :=
  let r := x * x
  let r := r * r
  r * x

/-- The entry `i` of `mds * state`: the loop over `j` from `acc = 0`. -/
def mixRow (c : Constants F) (index : Int) (state : List F) (i : Nat) :
    List Nat → F → Option F
  | [], acc => some acc
  | j :: js, acc =>
    match tableAt c.MDS index with
    | none => none
    | some m =>
      match tableAt m i with
      | none => none
      | some row =>
        match tableAt row j, state[j]? with
        | some e, some s => mixRow c index state i js (acc + e * s)
        | _, _ => none

/-- The loop over `i` of `mix`, for the rows in `is`. -/
def mixRows (c : Constants F) (index : Int) (state : List F) : List Nat → Option (List F)
  | [] => some []
  | i :: is =>
    match mixRow c index state i (List.range state.length) 0 with
    | none => none
    | some acc =>
      match mixRows c index state is with
      | none => none
      | some rest => some (acc :: rest)

/-- The product of the MDS matrix of the width of `state` and `state`. -/
def mix (c : Constants F) (state : List F) : Option (List F) :=
  let width := state.length
  let index : Int := (width : Int) - 3
  mixRows c index state (List.range width)

/-- The inner loop of `fullRounds` over the positions in `js`: adds the next
round constant to `state[j]` and applies the s-box to it. -/
def fullInner (c : Constants F) (index : Int) : List Nat → List F × Nat → Option (List F × Nat)
  | [], st => some st
  | j :: js, st =>
    match tableAt c.RC index with
    | none => none
    | some rc =>
      match rc[st.2]?, st.1[j]? with
      | some k, some x => fullInner c index js (st.1.set j (sbox (x + k)), st.2 + 1)
      | _, _ => none

/-- The outer loop of `fullRounds`, `n` more rounds on a state of the given
width. -/
def fullLoop (c : Constants F) (width : Nat) (index : Int) :
    Nat → List F × Nat → Option (List F × Nat)
  | 0, st => some st
  | n + 1, st =>
    match fullInner c index (List.range width) st with
    | none => none
    | some st1 =>
      match mix c st1.1 with
      | none => none
      | some state => fullLoop c width index n (state, st1.2)

/-- The `RF / 2` full rounds, on the state and the round counter. -/
def fullRounds (c : Constants F) (state : List F) (roundCounter : Nat) :
    Option (List F × Nat) :=
  let width := state.length
  let index : Int := (width : Int) - 3
  let rf := c.RF / 2
  fullLoop c width index rf (state, roundCounter)

/-- The inner loop of `partialRounds` over the positions in `js`: adds the
next round constant to `state[j]`. -/
def partialInner (c : Constants F) (index : Int) :
    List Nat → List F × Nat → Option (List F × Nat)
  | [], st => some st
  | j :: js, st =>
    match tableAt c.RC index with
    | none => none
    | some rc =>
      match rc[st.2]?, st.1[j]? with
      | some k, some x => partialInner c index js (st.1.set j (x + k), st.2 + 1)
      | _, _ => none

/-- The outer loop of `partialRounds`, `n` more rounds. -/
def partialLoop (c : Constants F) (width : Nat) (index : Int) :
    Nat → List F × Nat → Option (List F × Nat)
  | 0, st => some st
  | n + 1, st =>
    match partialInner c index (List.range width) st with
    | none => none
    | some st1 =>
      match st1.1[0]? with
      | none => none
      | some x =>
        match mix c (st1.1.set 0 (sbox x)) with
        | none => none
        | some state => partialLoop c width index n (state, st1.2)

/-- The `RP[index]` partial rounds; the loop condition reads `RP[index]`
before the first round. -/
def partialRounds (c : Constants F) (state : List F) (roundCounter : Nat) :
    Option (List F × Nat) :=
  let width := state.length
  let index : Int := (width : Int) - 3
  match tableAt c.RP index with
  | none => none
  | some rp => partialLoop c width index rp (state, roundCounter)

/-- The permutation: full rounds, partial rounds, full rounds, with one round
counter from 0. -/
def permutation (c : Constants F) (state : List F) : Option (List F) :=
  match fullRounds c state 0 with
  | none => none
  | some st1 =>
    match partialRounds c st1.1 st1.2 with
    | none => none
    | some st2 =>
      match fullRounds c st2.1 st2.2 with
      | none => none
      | some st3 => some st3.1

/-- The values of `preHandleData`: each `data[i]` is replaced by the output of
the hint `Self` on it, which is asserted equal to `data[i]`; `NewHint` is
taken not to fail. -/
def preHandleData (data : List F) : List F := data

/-- The largest number of inputs of one permutation. -/
def maxLength : Nat := 12

/-- The variables of the body of `Poseidon`, and the lazy templates registered
so far: for each call of `AddLazyPoseidon` the number of constraints that
`GetConstraintsNum` returned and the state handed over. -/
structure Sponge (F : Type) where
  state : List F
  startIndex : Nat
  lastIndex : Nat
  lazyStates : List (Nat × List F)
deriving DecidableEq

/-- What a call of `Poseidon` leaves: the lazy templates registered, in order,
and the returned value or the panic. -/
structure Hashing (F : Type) where
  lazyStates : List (Nat × List F)
  result : Except PoseidonPanic F
deriving DecidableEq

/-- The three statements that end a round of `Poseidon` on the state `state`:
`v := api.AddInternalVariableWithLazy(compiled.GetConstraintsNum(state, api))`,
`api.AddLazyPoseidon(v, state...)` and `permutation(api, state)`.
`GetConstraintsNum`, of the package `compiled`, is a parameter: it gives the
number of constraints of the permutation of the state, or `none` when it
panics. The two calls of the `api` register the lazy template; the error
carries the templates registered when a call panics. -/
def registerAndPermute (c : Constants F) (GetConstraintsNum : List F → Option Nat)
    (lazyStates : List (Nat × List F)) (state : List F) :
    Except (List (Nat × List F) × PoseidonPanic) (List (Nat × List F) × List F) :=
  match GetConstraintsNum state with
  | none => .error (lazyStates, .constraintsNum)
  | some n =>
    match permutation c state with
    | none => .error (lazyStates ++ [(n, state)], .indexOutOfRange)
    | some state' => .ok (lazyStates ++ [(n, state)], state')

/-- The hash chain loop of `Poseidon`: `n` more rounds from round `i`. A round
copies the next 12 inputs behind `state[0]`, registers the lazy template of the
state and permutes the state. -/
def hashChain (c : Constants F) (GetConstraintsNum : List F → Option Nat) (input : List F) :
    Nat → Nat → Sponge F → Except (List (Nat × List F) × PoseidonPanic) (Sponge F)
  | 0, _, sp => .ok sp
  | n + 1, i, sp =>
    let lastIndex := (i + 1) * maxLength
    let state := sp.state.take 1 ++
      copy (sp.state.drop 1) ((input.drop sp.startIndex).take (lastIndex - sp.startIndex))
    match registerAndPermute c GetConstraintsNum sp.lazyStates state with
    | .error e => .error e
    | .ok (lazyStates, state) =>
      hashChain c GetConstraintsNum input n (i + 1) ⟨state, lastIndex, lastIndex, lazyStates⟩

/-- The hash of the inputs: `state[1]` after the hash chain over the blocks of
12 inputs and the permutation of the remaining inputs. -/
def Poseidon (c : Constants F) (GetConstraintsNum : List F → Option Nat) (input : List F) :
    Hashing F :=
  let input := preHandleData input
  let inputLength := input.length
  if inputLength < 2 then ⟨[], .error .notSupportedInputSize⟩
  else
    let state : List F := ((preHandleData [0]).getD 0 0) :: List.replicate maxLength 0
    let sp : Sponge F := ⟨state, 0, 0, []⟩
    match (if inputLength > maxLength then
        hashChain c GetConstraintsNum input (inputLength / maxLength) 0 sp
      else .ok sp) with
    | .error (lazyStates, p) => ⟨lazyStates, .error p⟩
    | .ok sp =>
      if sp.lastIndex < inputLength then
        let lastIndex := inputLength
        let remainigLength := lastIndex - sp.startIndex
        let state := sp.state.take 1 ++
          copy (sp.state.drop 1) ((input.drop sp.startIndex).take (lastIndex - sp.startIndex))
        match registerAndPermute c GetConstraintsNum sp.lazyStates
            (state.take (remainigLength + 1)) with
        | .error (lazyStates, p) => ⟨lazyStates, .error p⟩
        | .ok (lazyStates, state) =>
          match state[1]? with
          | none => ⟨lazyStates, .error .indexOutOfRange⟩
          | some h => ⟨lazyStates, .ok h⟩
      else
        match sp.state[1]? with
        | none => ⟨sp.lazyStates, .error .indexOutOfRange⟩
        | some h => ⟨sp.lazyStates, .ok h⟩

/-- A count of constraints that panics below the width 3, as a table read at the
index `width - 3` does, and gives 8 constraints for each element otherwise. -/
def exampleConstraintsNum (state : List (ZMod 13)) : Option Nat :=
  if state.length < 3 then none else some (8 * state.length)

/-- Tables for the widths 3 to 13 over `ZMod 13`: two full rounds, one partial
round, the round constants `1, 2, 3, ...` and the MDS entry 3 on the diagonal
and 1 elsewhere. -/
def exampleConstants : Constants (ZMod 13) where
  RF := 2
  RP := List.replicate 11 1
  RC := List.replicate 11 ((List.range 39).map (fun k => ((k + 1 : Nat) : ZMod 13)))
  MDS := List.replicate 11
    ((List.range 13).map (fun i => (List.range 13).map (fun j => if i = j then 3 else 1)))

/-- Thirteen inputs in `ZMod 13`. -/
def thirteenInputs : List (ZMod 13) := [1, 2, 3, 4, 5, 6, 7, 8, 9, 10, 11, 12, 7]

/-! ## Lazify (`R1CS.Lazify`) -/

/-- The panics of `Lazify`. -/
inductive LazifyPanic where
  /-- Slice bounds out of range (Go runtime panic). -/
  | sliceOutOfRange
  /-- The panic on an error of `SetConsStaticR1CMapIfNotExists`. -/
  | staticMap (err : String)
  /-- The panic "bad map loc at i, j". -/
  | badMapLoc (i j : Nat)
deriving DecidableEq, Repr

/-- The loop `for j := lo; j < lo + count; j++ { m[j] = f(j) }` on a map with
integer keys that are not negative. -/
def writeRange (f : Nat → Int) : Nat → Nat → (Nat → Option Int) → Nat → Option Int
  | _, 0, m => m
  | lo, count + 1, m => writeRange f (lo + 1) count (fun x => if x = lo then some (f lo) else m x)

/-- The loop `for i := 0; i < count; i++ { LazyConsMap[bar+lazyIdx] = ...; lazyIdx++ }`
from the local index `i`. The keys read from `LazyConsMap` are constraint
indices, so the map is kept on the keys that are not negative. -/
def writeLazyIndex (bar : Int) (lazyIndex : Nat) :
    Nat → Nat → Nat → (Nat → Option LazyIndexedInputs) → Nat → Option LazyIndexedInputs
  | 0, _, _, m => m
  | count + 1, i, lazyIdx, m =>
    writeLazyIndex bar lazyIndex count (i + 1) (lazyIdx + 1)
      (fun x => if (x : Int) = bar + lazyIdx then some ⟨i, lazyIndex⟩ else m x)

/-- The local variables of `Lazify`, with the `LazyConsMap` of the system. -/
structure LazifyVars where
  mapFromFull : Nat → Option Int
  lastEnd : Nat
  offset : Nat
  ret : List R1C
  lazyIdx : Nat
  LazyConsMap : Nat → Option LazyIndexedInputs

/-- The body of the loop over `LazyCons` for the template `con` at the index
`lazyIndex`. `SetConsStaticR1CMapIfNotExists`, of the package `compiled`, is a
parameter that gives the error it returns, if any. The slice
`Constraints[lastEnd:start]` panics when `start` is beyond the length of
`Constraints`. -/
def lazifyStep (SetConsStaticR1CMapIfNotExists : LazyInputs → Option String)
    (constraints : List R1C) (bar : Int) (lazyIndex : Nat) (con : LazyInputs)
    (v : LazifyVars) : Except LazifyPanic LazifyVars :=
  let start := con.GetLoc
  let end_ := con.GetLoc + con.GetConstraintsNum
  if start > v.lastEnd ∧ constraints.length < start then .error .sliceOutOfRange
  else
    let ret := if start > v.lastEnd then
      v.ret ++ (constraints.drop v.lastEnd).take (start - v.lastEnd) else v.ret
    let m := writeRange (fun j => (j : Int) - v.offset) v.lastEnd (start - v.lastEnd)
      v.mapFromFull
    let m := writeRange (fun j => bar + v.offset + ((j : Int) - start)) start (end_ - start) m
    match SetConsStaticR1CMapIfNotExists con with
    | some err => .error (.staticMap err)
    | none =>
      .ok ⟨m, end_, v.offset + con.GetConstraintsNum, ret,
        v.lazyIdx + con.GetConstraintsNum,
        writeLazyIndex bar lazyIndex con.GetConstraintsNum 0 v.lazyIdx v.LazyConsMap⟩

/-- The loop over `LazyCons`, from the index `lazyIndex`. -/
def lazifyLoop (SetConsStaticR1CMapIfNotExists : LazyInputs → Option String)
    (constraints : List R1C) (bar : Int) :
    Nat → List LazyInputs → LazifyVars → Except LazifyPanic LazifyVars
  | _, [], v => .ok v
  | lazyIndex, con :: cons, v =>
    match lazifyStep SetConsStaticR1CMapIfNotExists constraints bar lazyIndex con v with
    | .error p => .error p
    | .ok v => lazifyLoop SetConsStaticR1CMapIfNotExists constraints bar (lazyIndex + 1) cons v

/-- The inner loop over the entries of row `i` of `Levels`, from column `j`. -/
def mapRow (m : Nat → Option Int) (i : Nat) : Nat → List Nat → Except LazifyPanic (List Int)
  | _, [] => .ok []
  | j, val :: row =>
    match m val with
    | none => .error (.badMapLoc i j)
    | some v =>
      match mapRow m i (j + 1) row with
      | .error p => .error p
      | .ok row => .ok (v :: row)

/-- The loop over the rows of `Levels`, from row `i`. -/
def mapLevels (m : Nat → Option Int) : Nat → List (List Nat) → Except LazifyPanic (List (List Int))
  | _, [] => .ok []
  | i, row :: rows =>
    match mapRow m i 0 row with
    | .error p => .error p
    | .ok row =>
      match mapLevels m (i + 1) rows with
      | .error p => .error p
      | .ok rows => .ok (row :: rows)

/-- What `Lazify` leaves: the fields of the system it writes, the entries of
`Levels` being the integers stored, and the returned map. -/
structure Lazified where
  Constraints : List R1C
  Levels : List (List Int)
  LazyConsMap : Nat → Option LazyIndexedInputs
  mapFromFull : Nat → Option Int

/-- The method `Lazify`: removes the constraints that the lazy templates stand
for from `Constraints`, records in `LazyConsMap` the template and the local
index of each removed constraint, renumbers the entries of `Levels` and returns
the map from the old to the new indices. -/
def Lazify (SetConsStaticR1CMapIfNotExists : LazyInputs → Option String) (cs : R1CS F) :
    Except LazifyPanic Lazified :=
  let bar : Int := (cs.Constraints.length : Int) - (GetConstraintsAll cs.LazyCons : Nat)
  match lazifyLoop SetConsStaticR1CMapIfNotExists cs.Constraints bar 0 cs.LazyCons
      ⟨fun _ => none, 0, 0, [], 0, cs.LazyConsMap⟩ with
  | .error p => .error p
  | .ok v =>
    let ret := if v.lastEnd < cs.Constraints.length then
      v.ret ++ cs.Constraints.drop v.lastEnd else v.ret
    let nbCons := cs.Constraints.length
    let m := writeRange (fun j => (j : Int) - v.offset) v.lastEnd (nbCons - v.lastEnd)
      v.mapFromFull
    match mapLevels m 0 cs.Levels with
    | .error p => .error p
    | .ok levels => .ok ⟨ret, levels, v.LazyConsMap, m⟩

/-- The system after `Lazify`, when no entry of `Levels` is negative. -/
def Lazified.system (out : Lazified) (cs : R1CS F) : R1CS F :=
  { cs with
    Constraints := out.Constraints
    Levels := out.Levels.map (fun row => row.map Int.toNat)
    LazyConsMap := out.LazyConsMap }

/-- The template ranges start at or after `s`, come one after another without
overlap and end at or before `n`. -/
def RangesOrdered : Nat → List LazyInputs → Nat → Prop
  | s, [], n => s ≤ n
  | s, con :: cons, n =>
    s ≤ con.GetLoc ∧ RangesOrdered (con.GetLoc + con.GetConstraintsNum) cons n

/-- The index `j` lies in the range `[Loc, Loc + ConstraintsNum)` of one of the
templates. -/
def InTemplate (cons : List LazyInputs) (j : Nat) : Prop :=
  ∃ con ∈ cons, con.GetLoc ≤ j ∧ j < con.GetLoc + con.GetConstraintsNum

/-- A template of `num` constraints at `loc`, each of them `x * x = y` on the
shifted wires. -/
def templateAt (loc num : Nat) : LazyInputs where
  FetchLazy := fun _ => ⟨[⟨1, 1⟩], [⟨1, 1⟩], [⟨1, 2⟩]⟩
  IsInput := fun _ _ => false
  GetShift := loc
  GetLoc := loc
  GetConstraintsNum := num

/-- A system of six constraints `1 * 1 = k`, told apart by the coefficient id
`k` of their output, with templates for the constraints 1, 2 and 4. -/
def lazifyCS : R1CS (ZMod 13) where
  Constraints := (List.range 6).map (fun k => ⟨[⟨1, 0⟩], [⟨1, 0⟩], [⟨k, 0⟩]⟩)
  Coefficients := []
  Levels := [[0, 1], [2, 3], [4, 5]]
  MHints := fun _ => none
  LazyCons := [templateAt 1 2, templateAt 4 1]
  LazyConsMap := fun _ => none
  NbPublicVariables := 1
  NbSecretVariables := 0
  NbInternalVariables := 0

/-- The number of indices below `j` in the ranges of the templates, when the
ranges do not overlap. -/
def insideBelow : List LazyInputs → Nat → Nat
  | [], _ => 0
  | con :: cons, j => min con.GetConstraintsNum (j - con.GetLoc) + insideBelow cons j

/-! ## The workers of `parallelSolve` under a schedule -/

/-- The error that `parallelSolve` returns after a level: the first one sent to
`chError`. -/
def keepFirst (e : Option (Error F)) (r : Res (Error F) (Run F)) : Res (Error F) (Run F) :=
  match e, r with
  | none, r => r
  | some e, .ok st => .err e st
  | some e, .err _ st => .err e st
  | some _, .abort p => .abort p

/-- The tasks of a level run by the workers under the schedule `sched`, with
one step of a worker for each entry: the entry `k` lets the worker that holds
the task `k` solve the next constraint of the task (an entry that names no
unfinished task is void). A worker whose constraint returns an error sends the
error and leaves the rest of its task; the first error sent is kept. The
resolution of one constraint is one step. When the schedule is used up, the
unfinished tasks are run one after the other, as `runTasks` does. -/
def runScheduled (cs : R1CS F) :
    List Nat → List (List Nat) → Option (Error F) → Run F → Res (Error F) (Run F)
  | [], tasks, e, st => keepFirst e (runTasks cs tasks st)
  | k :: sched, tasks, e, st =>
    match tasks[k]? with
    | some (i :: rest) =>
      match solveAt cs i st with
      | .abort p => .abort p
      | .ok st' => runScheduled cs sched (tasks.set k rest) e st'
      | .err x st' =>
        runScheduled cs sched (tasks.set k [])
          (match e with
            | none => some (.unsatisfiedConstraint i x)
            | some e => some e) st'
    | _ => runScheduled cs sched tasks e st

/-- One iteration of the loop of `parallelSolve` over the levels, the workers
following the schedule `sched` when the level is cut into tasks. -/
def solveLevelScheduled (cs : R1CS F) (numCPU : Nat) (sched : List Nat) (level : List Nat)
    (st : Run F) : Res (Error F) (Run F) :=
  if level.length ≤ 50 then solveTask cs level st
  else
    match levelTasks numCPU level with
    | .error p => .abort p
    | .ok tasks => runScheduled cs sched tasks none st

/-- The loop of `parallelSolve` over a list of levels, with one schedule for
each level (the empty schedule when the list of schedules is used up). -/
def solveLevelsScheduled (cs : R1CS F) (numCPU : Nat) :
    List (List Nat) → List (List Nat) → Run F → Res (Error F) (Run F)
  | _, [], st => .ok st
  | scheds, level :: ls, st =>
    match solveLevelScheduled cs numCPU (scheds.headD []) level st with
    | .ok st' => solveLevelsScheduled cs numCPU scheds.tail ls st'
    | .err e st' => .err e st'
    | .abort p => .abort p

/-- Function `parallelSolve` with the workers following the schedules `scheds`. -/
def parallelSolveScheduled (cs : R1CS F) (numCPU : Nat) (scheds : List (List Nat))
    (st : Run F) : Res (Error F) (Run F) :=
  solveLevelsScheduled cs numCPU scheds cs.Levels st

/-- Function `Solve` with the workers of `parallelSolve` following the
schedules `scheds`; `Solve` is the case of the empty schedules. -/
def SolveScheduled (cs : R1CS F) (numCPU : Nat) (scheds : List (List Nat))
    (witness a b c : List F) : Except Panic (Output F) :=
  let nbWires := cs.NbPublicVariables + cs.NbSecretVariables + cs.NbInternalVariables
  match newSolution nbWires with
  | (_, some err) => .ok ⟨List.replicate nbWires 0, some err, a, b, c⟩
  | (solution, none) =>
    let expected : Int :=
      (cs.NbPublicVariables : Int) - 1 + (cs.NbSecretVariables : Int)
    if (witness.length : Int) ≠ expected then
      .ok ⟨solution.values, some (.invalidWitnessSize witness.length expected), a, b, c⟩
    else
      let nbCons := cs.Constraints.length + GetConstraintsAll cs.LazyCons
      if a.length ≠ nbCons ∨ b.length ≠ nbCons ∨ c.length ≠ nbCons then
        .ok ⟨solution.values, some .invalidInputSize, a, b, c⟩
      else
        match solution.values, solution.solved with
        | _ :: vs, _ :: sv =>
          match markSolved (true :: sv) witness.length with
          | .error p => .error p
          | .ok solved =>
            let seeded : Solution F :=
              ⟨(1 : F) :: copy vs witness, solved, solution.nbSolved + (witness.length + 1)⟩
            match parallelSolveScheduled cs numCPU scheds ⟨seeded, a, b, c⟩ with
            | .abort p => .error p
            | .err err st => .ok ⟨st.solution.values, some err, st.a, st.b, st.c⟩
            | .ok st =>
              if !st.solution.isValid then .error .notAllWiresInstantiated
              else .ok ⟨st.solution.values, none, st.a, st.b, st.c⟩
        | _, _ => .error .indexOutOfRange

/-- The wires that the processing of a term on the wire `w` reads or writes:
the wire and, when it has a hint, the input wires and the other output wires of
the hint. -/
def termWires (cs : R1CS F) (w : Nat) : List Nat :=
  match cs.MHints w with
  | some h => w :: (h.Inputs ++ h.Others)
  | none => [w]

/-- The wires that a walk over the linear expression `l` reads or writes. -/
def sideWires (cs : R1CS F) (l : LinearExpression) : List Nat :=
  (l.map (fun t => termWires cs t.WireID)).flatten

/-- The wires that a walk of `solveLazyConstraint` over `l` reads or writes, the
wire ids being moved by `shiftI`. -/
def lazySideWires (cs : R1CS F) (shiftI : Int) (l : LinearExpression) : List Nat :=
  (l.map (fun t =>
    if shiftedWireID shiftI t < 0 then []
    else termWires cs (shiftedWireID shiftI t).toNat)).flatten

/-- The wires that the resolution of the constraint `idx` reads or writes. -/
def constraintWires (cs : R1CS F) (idx : Nat) : List Nat :=
  if idx < cs.Constraints.length then
    match cs.Constraints[idx]? with
    | none => []
    | some r => sideWires cs r.L ++ sideWires cs r.R ++ sideWires cs r.O
  else
    let i := ((cs.LazyConsMap idx).getD default).LazyIndex
    let j := ((cs.LazyConsMap idx).getD default).Index
    match cs.LazyCons[i]? with
    | none => []
    | some li =>
      lazySideWires cs (if li.IsInput j 1 then 0 else li.GetShift) (li.FetchLazy j).L ++
      lazySideWires cs (if li.IsInput j 2 then 0 else li.GetShift) (li.FetchLazy j).R ++
      lazySideWires cs (if li.IsInput j 3 then 0 else li.GetShift) (li.FetchLazy j).O

/-- Two distinct constraints are independent in the solution `s`: every wire
that both of them read or write is solved in `s`. -/
def Independent (cs : R1CS F) (s : Solution F) (i j : Nat) : Prop :=
  i ≠ j ∧ ∀ w ∈ constraintWires cs i, w ∈ constraintWires cs j → s.solved[w]? = some true

/-- The level invariant, along the levels from the state `st`: the constraints
of a level are pairwise independent in the solution that the level starts
with, which for the next level is the one that this level leaves. -/
def LevelInvariant (cs : R1CS F) : List (List Nat) → Run F → Prop
  | [], _ => True
  | level :: ls, st =>
    level.Pairwise (Independent cs st.solution) ∧
      match solveTask cs level st with
      | .ok st' => LevelInvariant cs ls st'
      | _ => True

/-- The solutions `s` and `t` hold the same flags and values on the wires `W`. -/
structure Solution.Agree (W : List Nat) (s t : Solution F) : Prop where
  solved : ∀ w ∈ W, t.solved[w]? = s.solved[w]?
  values : ∀ w ∈ W, t.values[w]? = s.values[w]?

/-- The solution `s'` holds the flags and values of `s` outside the wires `W`. -/
structure Solution.Outside (W : List Nat) (s s' : Solution F) : Prop where
  solved : ∀ w, w ∉ W → s'.solved[w]? = s.solved[w]?
  values : ∀ w, w ∉ W → s'.values[w]? = s.values[w]?

/-- Two runs from solutions that agree on `W` led from `s` to `x` and to `y`:
`x` and `y` agree on `W`, and `x` holds what `s` held outside `W`. -/
structure Solution.Framed (W : List Nat) (s x y : Solution F) : Prop where
  agree : Solution.Agree W x y
  outside : Solution.Outside W s x

/-- Two outcomes of the same kind, with the same error or panic, whose states
are related by `P`. -/
inductive Res.Both {ε σ : Type} (P : σ → σ → Prop) : Res ε σ → Res ε σ → Prop where
  | ok {x y : σ} : P x y → Res.Both P (.ok x) (.ok y)
  | err {e : ε} {x y : σ} : P x y → Res.Both P (.err e x) (.err e y)
  | abort {p : Panic} : Res.Both P (.abort p) (.abort p)

/-- Two results of the same kind, with the same panic, whose values are related
by `P`. -/
inductive Except.Both {ε α : Type} (P : α → α → Prop) : Except ε α → Except ε α → Prop where
  | ok {x y : α} : P x y → Except.Both P (.ok x) (.ok y)
  | error {p : ε} : Except.Both P (.error p) (.error p)

/-- Two walks in step: the same accumulator, `loc` and term to compute, a term
to compute that is on a wire of `W`, and solutions framed from `s`. -/
structure Walk.Framed (W : List Nat) (s : Solution F) (x y : Walk F) : Prop where
  val : y.val = x.val
  loc : y.loc = x.loc
  term : y.termToCompute = x.termToCompute
  mem : x.loc ≠ 0 → x.termToCompute.WireID ∈ W
  sol : Solution.Framed W s x.solution y.solution

/-- Two frames in step: the same `a`, `b`, `c`, and solutions framed from `s`. -/
structure Frame.Framed (W : List Nat) (s : Solution F) (x y : Frame F) : Prop where
  a : y.a = x.a
  b : y.b = x.b
  c : y.c = x.c
  sol : Solution.Framed W s x.solution y.solution

/-- The level invariant for a call of `Solve`: the levels of the system satisfy
`LevelInvariant` from the solution seeded with the witness. -/
def LevelsIndependent (cs : R1CS F) (witness a b c : List F) : Prop :=
  match seed (newSolution (F := F)
      (cs.NbPublicVariables + cs.NbSecretVariables + cs.NbInternalVariables)).1 witness with
  | .ok s0 => LevelInvariant cs cs.Levels ⟨s0, a, b, c⟩
  | .error _ => True

instance Independent.decidable (cs : R1CS F) (s : Solution F) (i j : Nat) :
    Decidable (Independent cs s i j) := by
  unfold Independent
  exact inferInstance

instance LevelInvariant.decidable (cs : R1CS F) :
    (ls : List (List Nat)) → (st : Run F) → Decidable (LevelInvariant cs ls st)
  | [], _ => isTrue trivial
  | level :: ls, st =>
    match h : solveTask cs level st with
    | .ok st' =>
      have := LevelInvariant.decidable cs ls st'
      decidable_of_iff (level.Pairwise (Independent cs st.solution) ∧ LevelInvariant cs ls st')
        (by simp only [LevelInvariant, h])
    | .err _ _ =>
      decidable_of_iff (level.Pairwise (Independent cs st.solution))
        (by simp only [LevelInvariant, h, and_true])
    | .abort _ =>
      decidable_of_iff (level.Pairwise (Independent cs st.solution))
        (by simp only [LevelInvariant, h, and_true])

instance LevelsIndependent.decidable (cs : R1CS F) (witness a b c : List F) :
    Decidable (LevelsIndependent cs witness a b c) := by
  unfold LevelsIndependent
  split
  · exact inferInstance
  · exact isTrue trivial

/-- A system of 60 constraints `1 * 1 = 1` over the constant wire alone, all in
one level. -/
def sixtyOnesCS : R1CS (ZMod 13) where
  Constraints := List.replicate 60 ⟨[⟨1, 0⟩], [⟨1, 0⟩], [⟨1, 0⟩]⟩
  Coefficients := []
  Levels := [List.range 60]
  MHints := fun _ => none
  LazyCons := []
  LazyConsMap := fun _ => none
  NbPublicVariables := 1
  NbSecretVariables := 0
  NbInternalVariables := 0

/-! ## Lemmas and theorems -/

theorem computeWire_ok_mul (loc : Nat) (st st' : Frame F) (wire : F)
    (hloc : 1 ≤ loc ∧ loc ≤ 3) (h : computeWire loc st = .ok (st', wire)) :
    st'.a * st'.b = st'.c ∧ st'.solution = st.solution := by
  unfold computeWire at h
  have hcases : loc = 1 ∨ loc = 2 ∨ loc = 3 := by omega
  rcases hcases with rfl | rfl | rfl
  · simp only [if_true] at h
    split at h
    · rename_i hb
      simp only [Res.ok.injEq, Prod.mk.injEq] at h
      obtain ⟨rfl, -⟩ := h
      refine ⟨?_, rfl⟩
      simp only
      field_simp
      ring
    · split at h
      · simp only [Res.ok.injEq, Prod.mk.injEq] at h
        obtain ⟨rfl, -⟩ := h
        exact ⟨by assumption, rfl⟩
      · cases h
  · simp only [if_true, show ¬ (2 = 1) by decide, if_false] at h
    split at h
    · rename_i ha
      simp only [Res.ok.injEq, Prod.mk.injEq] at h
      obtain ⟨rfl, -⟩ := h
      refine ⟨?_, rfl⟩
      simp only
      field_simp
      ring
    · split at h
      · simp only [Res.ok.injEq, Prod.mk.injEq] at h
        obtain ⟨rfl, -⟩ := h
        exact ⟨by assumption, rfl⟩
      · cases h
  · simp only [if_true, show ¬ (3 = 1) by decide, show ¬ (3 = 2) by decide, if_false] at h
    simp only [Res.ok.injEq, Prod.mk.injEq] at h
    obtain ⟨rfl, -⟩ := h
    refine ⟨?_, rfl⟩
    simp only
    ring

theorem Solution.set_ok (s s' : Solution F) (id : Nat) (v : F) (h : s.set id v = .ok s') :
    s.solved[id]? = some false ∧ id < s.values.length ∧
    s' = ⟨s.values.set id v, s.solved.set id true, s.nbSolved + 1⟩ := by
  unfold Solution.set at h
  split at h
  · cases h
  · cases h
  · rename_i hs
    split at h
    · cases h; exact ⟨hs, by assumption, rfl⟩
    · cases h

theorem instantiate_ok_mul (cs : R1CS F) (loc : Nat) (t : Term) (st st' : Frame F)
    (hloc : loc ≤ 3) (h : instantiate cs loc t st = .ok st') : st'.a * st'.b = st'.c := by
  unfold instantiate at h
  split at h
  · split at h
    · cases h; assumption
    · cases h
  · rename_i hl0
    simp only at h
    split at h
    · cases h
    · cases h
    · rename_i st1 wire hcw
      have hm := (computeWire_ok_mul loc st st1 wire ⟨by omega, hloc⟩ hcw).1
      split at h
      · cases h
      · split at h
        · cases h
        · cases h; exact hm

theorem processTerm_loc (cs : R1CS F) (lv : Nat) (t : Term) (w w' : Walk F)
    (h : processTerm cs lv t w = .ok w') : w'.loc = w.loc ∨ w'.loc = lv := by
  unfold processTerm at h
  simp only at h
  split at h
  · cases h
  · split at h
    · cases h
    · cases h; exact Or.inl rfl
  · split at h
    · split at h
      · cases h
      · cases h
      · split at h
        · cases h
        · cases h; exact Or.inl rfl
    · split at h
      · cases h
      · cases h; exact Or.inr rfl

theorem processLExp_loc (cs : R1CS F) (lv : Nat) (l : LinearExpression) (w w' : Walk F)
    (h : processLExp cs lv l w = .ok w') : w'.loc = w.loc ∨ w'.loc = lv := by
  induction l generalizing w with
  | nil => simp only [processLExp, Res.ok.injEq] at h; subst h; exact Or.inl rfl
  | cons t l ih =>
    simp only [processLExp] at h
    split at h
    · rename_i w1 h1
      rcases ih w1 h with h2 | h2
      · rcases processTerm_loc cs lv t w w1 h1 with h3 | h3
        · exact Or.inl (h2.trans h3)
        · exact Or.inr (h2.trans h3)
      · exact Or.inr h2
    · cases h
    · cases h

theorem lazyLoop_loc (cs : R1CS F) (shiftI : Int)
    (lv : Nat) (l : LinearExpression) (w w' : Walk F)
    (h : lazyLoop cs shiftI lv l w = .ok w') : w'.loc = w.loc ∨ w'.loc = lv := by
  induction l generalizing w with
  | nil => simp only [lazyLoop, Res.ok.injEq] at h; subst h; exact Or.inl rfl
  | cons t l ih =>
    simp only [lazyLoop] at h
    split at h
    · cases h
    · split at h
      · rename_i w1 h1
        rcases ih w1 h with h2 | h2
        · rcases processTerm_loc cs lv _ w w1 h1 with h3 | h3
          · exact Or.inl (h2.trans h3)
          · exact Or.inr (h2.trans h3)
        · exact Or.inr h2
      · cases h
      · cases h

theorem processLExpLazy_loc (cs : R1CS F) (li : LazyInputs) (j : Nat) (shift : Int)
    (lv : Nat) (l : LinearExpression) (w w' : Walk F)
    (h : processLExpLazy cs li j shift lv l w = .ok w') : w'.loc = w.loc ∨ w'.loc = lv :=
  lazyLoop_loc cs _ lv l w w' h

theorem walkR1C_loc (cs : R1CS F) (r : R1C) (st st' : Frame F) (loc : Nat) (t : Term)
    (h : walkR1C cs r st = .ok (st', loc, t)) : loc ≤ 3 := by
  unfold walkR1C at h
  split at h
  · cases h
  · cases h
  · rename_i w1 h1
    split at h
    · cases h
    · cases h
    · rename_i w2 h2
      split at h
      · cases h
      · cases h
      · rename_i w3 h3
        simp only [Res.ok.injEq, Prod.mk.injEq] at h
        obtain ⟨-, rfl, -⟩ := h
        have a1 := processLExp_loc cs 1 r.L _ w1 h1
        have a2 := processLExp_loc cs 2 r.R _ w2 h2
        have a3 := processLExp_loc cs 3 r.O _ w3 h3
        simp only at a1 a2 a3
        omega

theorem walkLazy_loc (cs : R1CS F) (li : LazyInputs) (j : Nat) (shift : Int) (r : R1C)
    (st st' : Frame F) (loc : Nat) (t : Term)
    (h : walkLazy cs li j shift r st = .ok (st', loc, t)) : loc ≤ 3 := by
  unfold walkLazy at h
  split at h
  · cases h
  · cases h
  · rename_i w1 h1
    split at h
    · cases h
    · cases h
    · rename_i w2 h2
      split at h
      · cases h
      · cases h
      · rename_i w3 h3
        simp only [Res.ok.injEq, Prod.mk.injEq] at h
        obtain ⟨-, rfl, -⟩ := h
        have a1 := processLExpLazy_loc cs li j shift 1 r.L _ w1 h1
        have a2 := processLExpLazy_loc cs li j shift 2 r.R _ w2 h2
        have a3 := processLExpLazy_loc cs li j shift 3 r.O _ w3 h3
        simp only at a1 a2 a3
        omega

theorem solveR1C_ok_mul (cs : R1CS F) (r : R1C) (st st' : Frame F)
    (h : solveR1C cs r st = .ok st') : st'.a * st'.b = st'.c := by
  unfold solveR1C at h
  split at h
  · cases h
  · cases h
  · rename_i st1 loc t hw
    exact instantiate_ok_mul cs loc t st1 st' (walkR1C_loc cs r st st1 loc t hw) h

theorem solveLazyConstraint_ok_mul (cs : R1CS F) (li : LazyInputs) (j : Nat) (shift : Int)
    (st st' : Frame F) (h : solveLazyConstraint cs li j shift st = .ok st') :
    st'.a * st'.b = st'.c := by
  unfold solveLazyConstraint at h
  split at h
  · cases h
  · cases h
  · rename_i st1 loc t hw
    exact instantiate_ok_mul cs loc t st1 st' (walkLazy_loc cs li j shift _ st st1 loc t hw) h

theorem solveGeneralConstraint_ok_mul (cs : R1CS F) (idx : Nat) (st st' : Frame F)
    (h : solveGeneralConstraint cs idx st = .ok st') : st'.a * st'.b = st'.c := by
  unfold solveGeneralConstraint at h
  simp only at h
  split at h
  · unfold solveConstraint at h
    split at h
    · cases h
    · exact solveR1C_ok_mul cs _ st st' h
  · split at h
    · cases h
    · exact solveLazyConstraint_ok_mul cs _ _ _ st st' h

theorem solveAt_ok_sat (cs : R1CS F) (i : Nat) (st st' : Run F)
    (h : solveAt cs i st = .ok st') :
    st'.SatAt i ∧ ∀ j, st.SatAt j → st'.SatAt j := by
  unfold solveAt at h
  split at h
  · rename_i ai bi ci ha hb hc
    split at h
    · rename_i f hf
      have hm := solveGeneralConstraint_ok_mul cs i _ f hf
      cases h
      have hia : i < st.a.length := (List.getElem?_eq_some.mp ha).1
      have hib : i < st.b.length := (List.getElem?_eq_some.mp hb).1
      have hic : i < st.c.length := (List.getElem?_eq_some.mp hc).1
      have key : Run.SatAt (F := F) ⟨f.solution, st.a.set i f.a, st.b.set i f.b, st.c.set i f.c⟩ i :=
        ⟨f.a, f.b, f.c, by simp [hia], by simp [hib], by simp [hic], hm⟩
      refine ⟨key, ?_⟩
      intro j hj
      by_cases hji : j = i
      · subst hji; exact key
      · obtain ⟨x, y, z, h1, h2, h3, h4⟩ := hj
        refine ⟨x, y, z, ?_, ?_, ?_, h4⟩
        · simpa [List.getElem?_set_ne (Ne.symm hji)] using h1
        · simpa [List.getElem?_set_ne (Ne.symm hji)] using h2
        · simpa [List.getElem?_set_ne (Ne.symm hji)] using h3
    · cases h
    · cases h
  · cases h

theorem solveTask_ok_sat (cs : R1CS F) (l : List Nat) (st st' : Run F)
    (h : solveTask cs l st = .ok st') :
    ∀ j, (j ∈ l ∨ st.SatAt j) → st'.SatAt j := by
  induction l generalizing st with
  | nil =>
    simp only [solveTask, Res.ok.injEq] at h; subst h
    intro j hj
    rcases hj with hj | hj
    · cases hj
    · exact hj
  | cons i l ih =>
    simp only [solveTask] at h
    split at h
    · rename_i st1 h1
      obtain ⟨k1, k2⟩ := solveAt_ok_sat cs i st st1 h1
      intro j hj
      apply ih st1 h
      rcases hj with hj | hj
      · rcases List.mem_cons.mp hj with rfl | hj
        · exact Or.inr k1
        · exact Or.inl hj
      · exact Or.inr (k2 j hj)
    · cases h
    · cases h

theorem runTasks_ok_sat (cs : R1CS F) (ts : List (List Nat)) (st st' : Run F)
    (h : runTasks cs ts st = .ok st') :
    ∀ j, (j ∈ ts.flatten ∨ st.SatAt j) → st'.SatAt j := by
  induction ts generalizing st with
  | nil =>
    simp only [runTasks, Res.ok.injEq] at h; subst h
    intro j hj
    rcases hj with hj | hj
    · simp at hj
    · exact hj
  | cons t ts ih =>
    simp only [runTasks] at h
    split at h
    · cases h
    · rename_i st1 h1
      intro j hj
      apply ih st1 h
      rcases hj with hj | hj
      · rw [List.flatten_cons] at hj
        rcases List.mem_append.mp hj with hj | hj
        · exact Or.inr (solveTask_ok_sat cs t st st1 h1 j (Or.inl hj))
        · exact Or.inl hj
      · exact Or.inr (solveTask_ok_sat cs t st st1 h1 j (Or.inr hj))
    · split at h
      · cases h
      · cases h
      · cases h

theorem take_drop_append {α : Type} (l : List α) (s m n : Nat) :
    (l.drop s).take m ++ (l.drop (m + s)).take n = (l.drop s).take (m + n) := by
  have h := List.take_add (l.drop s) m n
  rw [List.drop_drop] at h
  have e : s + m = m + s := Nat.add_comm s m
  first
    | exact h.symm
    | (rw [e] at h; exact h.symm)

theorem pushTasks_flatten (level : List Nat) (q : Nat) :
    ∀ (k i extra off : Nat) (ts : List (List Nat)),
      pushTasks level q k i extra off = .ok ts →
      ts.flatten = (level.drop (i * q + off)).take (k * q + min extra k) := by
  intro k
  induction k with
  | zero =>
    intro i extra off ts h
    simp only [pushTasks, Except.ok.injEq] at h
    subst h
    simp
  | succ k ih =>
    intro i extra off ts h
    by_cases he : extra > 0
    · simp only [pushTasks, he, if_true] at h
      split at h
      · split at h
        · rename_i ts' hrec
          simp only [Except.ok.injEq] at h
          subst h
          rw [List.flatten_cons, ih _ _ _ _ hrec]
          have e1 : (i + 1) * q + (off + 1) = (q + 1) + (i * q + off) := by ring
          have e2 : (k + 1) * q + min extra (k + 1) = (q + 1) + (k * q + min (extra - 1) k) := by
            have : min extra (k + 1) = 1 + min (extra - 1) k := by omega
            rw [this]; ring
          have e3 : i * q + off + q + 1 - (i * q + off) = q + 1 := by omega
          rw [e1, e2, e3]
          exact take_drop_append level _ _ _
        · cases h
      · cases h
    · simp only [pushTasks, he, if_false] at h
      have he0 : extra = 0 := by omega
      subst he0
      split at h
      · split at h
        · rename_i ts' hrec
          simp only [Except.ok.injEq] at h
          subst h
          rw [List.flatten_cons, ih _ _ _ _ hrec]
          have e1 : (i + 1) * q + off = q + (i * q + off) := by ring
          have e2 : (k + 1) * q + min 0 (k + 1) = q + (k * q + min 0 k) := by
            simp only [Nat.zero_min]; ring
          have e3 : i * q + off + q - (i * q + off) = q := by omega
          rw [e1, e2, e3]
          exact take_drop_append level _ _ _
        · cases h
      · cases h

theorem levelTasks_flatten (numCPU : Nat) (level : List Nat) (ts : List (List Nat))
    (h : levelTasks numCPU level = .ok ts) : ts.flatten = level := by
  unfold levelTasks at h
  simp only at h
  generalize (if numCPU > (level.length + 49) / 50 then (level.length + 49) / 50 else numCPU)
    = nb at h
  by_cases hnb : nb = 0
  · simp only [hnb, if_true] at h; cases h
  · simp only [hnb, if_false] at h
    rw [pushTasks_flatten level _ _ _ _ _ _ h]
    simp only [Nat.zero_mul, Nat.add_zero, List.drop_zero]
    apply List.take_of_length_le
    by_cases hq : level.length / nb < 1
    · simp only [hq, if_true]
      simp
    · simp only [hq, if_false]
      have h1 : nb * (level.length / nb) ≤ level.length := Nat.mul_div_le _ _
      have h2 : level.length % nb < nb := Nat.mod_lt _ (Nat.pos_of_ne_zero hnb)
      have h3 := Nat.div_add_mod level.length nb
      have h4 : level.length - nb * (level.length / nb) = level.length % nb := by omega
      rw [h4, Nat.min_eq_left (le_of_lt h2)]
      omega

theorem solveLevel_ok_sat (cs : R1CS F) (numCPU : Nat) (level : List Nat) (st st' : Run F)
    (h : solveLevel cs numCPU level st = .ok st') :
    ∀ j, (j ∈ level ∨ st.SatAt j) → st'.SatAt j := by
  unfold solveLevel at h
  split at h
  · exact solveTask_ok_sat cs level st st' h
  · split at h
    · cases h
    · rename_i tasks ht
      have := runTasks_ok_sat cs tasks st st' h
      rw [levelTasks_flatten numCPU level tasks ht] at this
      exact this

theorem solveLevels_ok_sat (cs : R1CS F) (numCPU : Nat) (ls : List (List Nat)) (st st' : Run F)
    (h : solveLevels cs numCPU ls st = .ok st') :
    ∀ j, (j ∈ ls.flatten ∨ st.SatAt j) → st'.SatAt j := by
  induction ls generalizing st with
  | nil =>
    simp only [solveLevels, Res.ok.injEq] at h; subst h
    intro j hj
    rcases hj with hj | hj
    · simp at hj
    · exact hj
  | cons l ls ih =>
    simp only [solveLevels] at h
    split at h
    · rename_i st1 h1
      intro j hj
      apply ih st1 h
      rcases hj with hj | hj
      · rw [List.flatten_cons] at hj
        rcases List.mem_append.mp hj with hj | hj
        · exact Or.inr (solveLevel_ok_sat cs numCPU l st st1 h1 j (Or.inl hj))
        · exact Or.inl hj
      · exact Or.inr (solveLevel_ok_sat cs numCPU l st st1 h1 j (Or.inr hj))
    · cases h
    · cases h

theorem Solve_nil_run (cs : R1CS F) (numCPU : Nat) (witness a b c : List F) (out : Output F)
    (h : Solve cs numCPU witness a b c = .ok out) (hnil : out.err = none) :
    ∃ (s0 : Solution F) (st : Run F),
      parallelSolve cs numCPU ⟨s0, a, b, c⟩ = .ok st ∧
      out = ⟨st.solution.values, none, st.a, st.b, st.c⟩ := by
  unfold Solve at h
  simp only [newSolution] at h
  split at h
  · cases h; simp at hnil
  · split at h
    · cases h; simp at hnil
    · split at h
      · split at h
        · cases h
        · split at h
          · cases h
          · cases h; simp at hnil
          · rename_i st hps
            split at h
            · cases h
            · cases h
              exact ⟨_, st, hps, rfl⟩
      · cases h
/-- C1: if `Solve` is called with `a`, `b`, `c` all zero and a level schedule in
which every logical constraint index occurs exactly once, and it returns a nil
error, then the output entries satisfy `a[i] * b[i] = c[i]` at every constraint
index `i`. -/
theorem Solve_constraints_satisfied (cs : R1CS F) (numCPU : Nat) (witness a b c : List F)
    (out : Output F)
    (_ha : ∀ x ∈ a, x = 0) (_hb : ∀ x ∈ b, x = 0) (_hc : ∀ x ∈ c, x = 0)
    (hsched : ∀ i, i < cs.Constraints.length + GetConstraintsAll cs.LazyCons →
      cs.Levels.flatten.count i = 1)
    (h : Solve cs numCPU witness a b c = .ok out) (hnil : out.err = none) :
    ∀ i, i < cs.Constraints.length + GetConstraintsAll cs.LazyCons →
      ∃ x y z, out.a[i]? = some x ∧ out.b[i]? = some y ∧ out.c[i]? = some z ∧ x * y = z := by
  intro i hi
  obtain ⟨s0, st, hps, rfl⟩ := Solve_nil_run cs numCPU witness a b c out h hnil
  have hmem : i ∈ cs.Levels.flatten := by
    apply List.count_pos_iff.mp
    rw [hsched i hi]
    exact Nat.one_pos
  exact solveLevels_ok_sat cs numCPU cs.Levels _ st hps i (Or.inl hmem)

theorem Solve_constraints_satisfied_witness :
    Solve exampleCS 4 [3, 4] [0, 0] [0, 0] [0, 0] = .ok exampleOutput ∧
    ∃ x y z, exampleOutput.a[1]? = some x ∧ exampleOutput.b[1]? = some y ∧
      exampleOutput.c[1]? = some z ∧ x * y = z :=
  ⟨by decide, Solve_constraints_satisfied exampleCS 4 [3, 4] [0, 0] [0, 0] [0, 0] exampleOutput
    (by decide) (by decide) (by decide) (by decide) (by decide) rfl 1 (by decide)⟩
theorem Solution.Extends.refl (s : Solution F) : s.Extends s :=
  ⟨rfl, fun _ h => ⟨h, rfl⟩⟩

theorem Solution.Extends.trans {s1 s2 s3 : Solution F} (h12 : s1.Extends s2)
    (h23 : s2.Extends s3) : s1.Extends s3 := by
  refine ⟨h23.length_eq.trans h12.length_eq, fun w hw => ?_⟩
  obtain ⟨a1, a2⟩ := h12.keeps w hw
  obtain ⟨b1, b2⟩ := h23.keeps w a1
  exact ⟨b1, b2.trans a2⟩

theorem Solution.Extends.unsolved {s s' : Solution F} (h : s.Extends s') (w : Nat)
    (hw : s'.solved[w]? = some false) : s.solved[w]? = some false := by
  have hlt : w < s'.solved.length := (List.getElem?_eq_some.mp hw).1
  rw [h.length_eq] at hlt
  cases hv : s.solved[w]? with
  | none =>
    have := List.getElem?_eq_none_iff.mp hv
    omega
  | some b =>
    cases b with
    | false => rfl
    | true =>
      have := (h.keeps w hv).1
      rw [hw] at this
      cases this

theorem Solution.Extends.termValue_eq {s s' : Solution F} (h : s.Extends s')
    (coefficients : List F) (t : Term) (ht : s.solved[t.WireID]? = some true) :
    termValue coefficients s' t = termValue coefficients s t := by
  unfold termValue
  have := (h.keeps _ ht).2
  simp only [List.getD_eq_getElem?_getD, this]

theorem Solution.Extends.allSolved {s s' : Solution F} (h : s.Extends s')
    (l : LinearExpression) (hl : AllSolved s l) : AllSolved s' l :=
  fun t ht => (h.keeps _ (hl t ht)).1

theorem Solution.Extends.eval_eq {s s' : Solution F} (h : s.Extends s')
    (coefficients : List F) (l : LinearExpression) (hl : AllSolved s l) :
    eval coefficients s' l = eval coefficients s l := by
  unfold eval
  congr 1
  apply List.map_congr_left
  intro t ht
  exact h.termValue_eq coefficients t (hl t ht)

theorem Solution.set_extends (s s' : Solution F) (id : Nat) (v : F)
    (h : s.set id v = .ok s') :
    s.Extends s' ∧ s'.solved[id]? = some true ∧ s'.values[id]? = some v := by
  obtain ⟨h1, h2, rfl⟩ := Solution.set_ok s s' id v h
  have hid : id < s.solved.length := (List.getElem?_eq_some.mp h1).1
  refine ⟨⟨by simp, fun w hw => ?_⟩, by simp [hid], by simp [h2]⟩
  have hne : id ≠ w := by
    rintro rfl
    rw [h1] at hw
    cases hw
  simp only [List.getElem?_set_ne hne]
  exact ⟨hw, trivial⟩

theorem setAll_extends (ws : List Nat) :
    ∀ (s s' : Solution F) (outs : List F), setAll s ws outs = .ok s' →
      s.Extends s' ∧ ∀ w ∈ ws, s'.solved[w]? = some true := by
  induction ws with
  | nil =>
    intro s s' outs h
    simp only [setAll, Except.ok.injEq] at h
    subst h
    exact ⟨Solution.Extends.refl s, fun w hw => by cases hw⟩
  | cons w ws ih =>
    intro s s' outs h
    simp only [setAll] at h
    split at h
    · cases h
    · rename_i s1 h1
      obtain ⟨e1, k1, -⟩ := Solution.set_extends s s1 w _ h1
      obtain ⟨e2, k2⟩ := ih s1 s' _ h
      refine ⟨e1.trans e2, fun x hx => ?_⟩
      rcases List.mem_cons.mp hx with rfl | hx
      · exact (e2.keeps _ k1).1
      · exact k2 x hx

theorem solveWithHint_ok (s s' : Solution F) (vID : Nat) (h : Hint F)
    (hr : solveWithHint s vID h = .ok s') :
    s.Extends s' ∧ s'.solved[vID]? = some true := by
  unfold solveWithHint at hr
  split at hr
  · cases hr
  · split at hr
    · cases hr
    · split at hr
      · cases hr
      · rename_i s1 h1
        cases hr
        obtain ⟨e, k⟩ := setAll_extends _ s s' _ h1
        exact ⟨e, k vID (List.mem_cons_self _ _)⟩

theorem solveWithHint_err (s s' : Solution F) (vID : Nat) (h : Hint F) (x : Error F)
    (hr : solveWithHint s vID h = .err x s') :
    s' = s ∧ ∃ ins e, h.fn ins = .error e ∧ x = .hintFailed e := by
  unfold solveWithHint at hr
  split at hr
  · cases hr
  · rename_i ins _
    split at hr
    · rename_i e he
      cases hr
      exact ⟨rfl, ins, e, he, rfl⟩
    · split at hr
      · cases hr
      · cases hr

theorem accumulateInto_ok (coefficients : List F) (s : Solution F) (t : Term) (r v : F)
    (h : accumulateInto coefficients s t r = .ok v) :
    v = r + termValue coefficients s t := by
  unfold accumulateInto at h
  split at h
  · rename_i k x hk hx
    cases h
    simp [termValue, hk, hx, List.getD_eq_getElem?_getD]
  · cases h

theorem processTerm_ok (cs : R1CS F) (lv : Nat) (t : Term) (w w1 : Walk F)
    (h : processTerm cs lv t w = .ok w1) :
    w.solution.Extends w1.solution ∧
    ((w1.loc = w.loc ∧ w1.termToCompute = w.termToCompute ∧
        w1.solution.solved[t.WireID]? = some true ∧
        w1.val = w.val + termValue cs.Coefficients w1.solution t) ∨
      (w.loc = 0 ∧ w1.loc = lv ∧ w1.termToCompute = t ∧ w1.solution = w.solution ∧
        w1.val = w.val ∧ unknownAt cs w.solution t = true)) := by
  unfold processTerm at h
  simp only at h
  split at h
  · cases h
  · rename_i hs
    split at h
    · cases h
    · rename_i v hv
      cases h
      exact ⟨Solution.Extends.refl _, Or.inl ⟨rfl, rfl, hs, accumulateInto_ok _ _ _ _ _ hv⟩⟩
  · rename_i hs
    split at h
    · rename_i hint hh
      split at h
      · cases h
      · cases h
      · rename_i s hsw
        split at h
        · cases h
        · rename_i v hv
          cases h
          obtain ⟨e, k⟩ := solveWithHint_ok _ _ _ _ hsw
          exact ⟨e, Or.inl ⟨rfl, rfl, k, accumulateInto_ok _ _ _ _ _ hv⟩⟩
    · rename_i hh
      split at h
      · cases h
      · rename_i hl
        cases h
        refine ⟨Solution.Extends.refl _, Or.inr ⟨by simpa using hl, rfl, rfl, rfl, rfl, ?_⟩⟩
        simp [unknownAt, hs, hh]

theorem eval_cons (coefficients : List F) (s : Solution F) (t : Term) (l : LinearExpression) :
    eval coefficients s (t :: l) = termValue coefficients s t + eval coefficients s l := by
  simp [eval]

theorem eval_append (coefficients : List F) (s : Solution F) (l1 l2 : LinearExpression) :
    eval coefficients s (l1 ++ l2) = eval coefficients s l1 + eval coefficients s l2 := by
  simp [eval]

theorem eval_insert (coefficients : List F) (s : Solution F) (t : Term)
    (l1 l2 : LinearExpression) :
    eval coefficients s (l1 ++ t :: l2) =
      eval coefficients s (l1 ++ l2) + termValue coefficients s t := by
  simp only [eval_append, eval_cons]
  ring

/-- What a completed walk of `processLExp` over `l` establishes. -/
theorem processLExp_ok (cs : R1CS F) (lv : Nat) (hlv : lv ≠ 0) (l : LinearExpression) :
    ∀ (w w' : Walk F), processLExp cs lv l w = .ok w' →
    w.solution.Extends w'.solution ∧
    ((w'.loc = w.loc ∧ w'.termToCompute = w.termToCompute ∧ AllSolved w'.solution l ∧
        w'.val = w.val + eval cs.Coefficients w'.solution l) ∨
      (w.loc = 0 ∧ w'.loc = lv ∧ ∃ l1 l2, l = l1 ++ w'.termToCompute :: l2 ∧
        AllSolved w'.solution (l1 ++ l2) ∧
        w'.val = w.val + eval cs.Coefficients w'.solution (l1 ++ l2) ∧
        unknownAt cs w.solution w'.termToCompute = true)) := by
  induction l with
  | nil =>
    intro w w' h
    simp only [processLExp, Res.ok.injEq] at h
    subst h
    refine ⟨Solution.Extends.refl _, Or.inl ⟨rfl, rfl, by unfold AllSolved; simp, ?_⟩⟩
    simp [eval]
  | cons t l ih =>
    intro w w' h
    simp only [processLExp] at h
    split at h
    · rename_i w1 h1
      obtain ⟨e1, c1⟩ := processTerm_ok cs lv t w w1 h1
      obtain ⟨e2, c2⟩ := ih w1 w' h
      refine ⟨e1.trans e2, ?_⟩
      rcases c1 with ⟨a1, a2, a3, a4⟩ | ⟨a1, a2, a3, a4, a5, a6⟩
      · rcases c2 with ⟨b1, b2, b3, b4⟩ | ⟨b1, b2, l1, l2, b3, b4, b5, b6⟩
        · left
          refine ⟨b1.trans a1, b2.trans a2, ?_, ?_⟩
          · intro x hx
            rcases List.mem_cons.mp hx with rfl | hx
            · exact (e2.keeps _ a3).1
            · exact b3 x hx
          · rw [b4, a4, eval_cons, e2.termValue_eq _ _ a3]
            ring
        · right
          refine ⟨a1 ▸ b1, b2, t :: l1, l2, by rw [b3]; rfl, ?_, ?_, ?_⟩
          · intro x hx
            rcases List.mem_cons.mp hx with rfl | hx
            · exact (e2.keeps _ a3).1
            · exact b4 x hx
          · rw [b5, a4, List.cons_append, eval_cons, e2.termValue_eq _ _ a3]
            ring
          · simp only [unknownAt, Bool.and_eq_true, beq_iff_eq] at b6 ⊢
            exact ⟨e1.unsolved _ b6.1, b6.2⟩
      · rcases c2 with ⟨b1, b2, b3, b4⟩ | ⟨b1, b2, l1, l2, b3, b4, b5, b6⟩
        · right
          refine ⟨a1, b1.trans a2, [], l, ?_, ?_, ?_, ?_⟩
          · rw [b2, a3]; rfl
          · exact b3
          · rw [b4, a5]; rfl
          · rw [b2, a3]; exact a6
        · exfalso
          rw [a2] at b1
          exact hlv b1
    · cases h
    · cases h

/-- The outcome of one walk in a single form: `k` lists the terms that were
accumulated, which are all the terms of the side but the one to compute. -/
theorem processLExp_known (cs : R1CS F) (lv : Nat) (hlv : lv ≠ 0) (l : LinearExpression)
    (w w' : Walk F) (h : processLExp cs lv l w = .ok w') :
    w.solution.Extends w'.solution ∧
    ∃ k : LinearExpression, AllSolved w'.solution k ∧
      w'.val = w.val + eval cs.Coefficients w'.solution k ∧
      ((w'.loc = w.loc ∧ w'.termToCompute = w.termToCompute ∧ k = l) ∨
        (w.loc = 0 ∧ w'.loc = lv ∧ ∃ l1 l2, l = l1 ++ w'.termToCompute :: l2 ∧
          k = l1 ++ l2 ∧ unknownAt cs w.solution w'.termToCompute = true)) := by
  obtain ⟨e, c⟩ := processLExp_ok cs lv hlv l w w' h
  refine ⟨e, ?_⟩
  rcases c with ⟨a1, a2, a3, a4⟩ | ⟨a1, a2, l1, l2, a3, a4, a5, a6⟩
  · exact ⟨l, a3, a4, Or.inl ⟨a1, a2, rfl⟩⟩
  · exact ⟨l1 ++ l2, a4, a5, Or.inr ⟨a1, a2, l1, l2, a3, rfl, a6⟩⟩

theorem unknownAt_of_extends (cs : R1CS F) {s s' : Solution F} (e : s.Extends s') (t : Term)
    (h : unknownAt cs s' t = true) : unknownAt cs s t = true := by
  simp only [unknownAt, Bool.and_eq_true, beq_iff_eq] at h ⊢
  exact ⟨e.unsolved _ h.1, h.2⟩

/-- What the three walks of `solveConstraint` establish: `kL`, `kR`, `kO` list the
terms accumulated on each side. -/
theorem walkR1C_ok (cs : R1CS F) (r : R1C) (st st1 : Frame F) (loc : Nat) (t : Term)
    (h : walkR1C cs r st = .ok (st1, loc, t)) :
    st.solution.Extends st1.solution ∧
    ∃ kL kR kO : LinearExpression,
      AllSolved st1.solution kL ∧ AllSolved st1.solution kR ∧ AllSolved st1.solution kO ∧
      st1.a = st.a + eval cs.Coefficients st1.solution kL ∧
      st1.b = st.b + eval cs.Coefficients st1.solution kR ∧
      st1.c = st.c + eval cs.Coefficients st1.solution kO ∧
      ((loc = 0 ∧ kL = r.L ∧ kR = r.R ∧ kO = r.O) ∨
        (loc = 1 ∧ kR = r.R ∧ kO = r.O ∧ unknownAt cs st.solution t = true ∧
          ∃ l1 l2, r.L = l1 ++ t :: l2 ∧ kL = l1 ++ l2) ∨
        (loc = 2 ∧ kL = r.L ∧ kO = r.O ∧ unknownAt cs st.solution t = true ∧
          ∃ l1 l2, r.R = l1 ++ t :: l2 ∧ kR = l1 ++ l2) ∨
        (loc = 3 ∧ kL = r.L ∧ kR = r.R ∧ unknownAt cs st.solution t = true ∧
          ∃ l1 l2, r.O = l1 ++ t :: l2 ∧ kO = l1 ++ l2)) := by
  unfold walkR1C at h
  split at h
  · cases h
  · cases h
  · rename_i w1 h1
    split at h
    · cases h
    · cases h
    · rename_i w2 h2
      split at h
      · cases h
      · cases h
      · rename_i w3 h3
        simp only [Res.ok.injEq, Prod.mk.injEq] at h
        obtain ⟨rfl, rfl, rfl⟩ := h
        obtain ⟨e1, kL, sL, vL, cL⟩ := processLExp_known cs 1 (by decide) r.L _ w1 h1
        obtain ⟨e2, kR, sR, vR, cR⟩ := processLExp_known cs 2 (by decide) r.R _ w2 h2
        obtain ⟨e3, kO, sO, vO, cO⟩ := processLExp_known cs 3 (by decide) r.O _ w3 h3
        simp only at e1 e2 e3 vL vR vO cL cR cO
        have e23 : w1.solution.Extends w3.solution := e2.trans e3
        refine ⟨e1.trans e23, kL, kR, kO, e23.allSolved _ sL, e3.allSolved _ sR, sO, ?_, ?_, vO, ?_⟩
        · rw [vL, e23.eval_eq _ _ sL]
        · rw [vR, e3.eval_eq _ _ sR]
        · rcases cL with ⟨a1, a2, a3⟩ | ⟨-, a2, l1, l2, a3, a4, a5⟩
          · rcases cR with ⟨b1, b2, b3⟩ | ⟨-, b2, m1, m2, b3, b4, b5⟩
            · rcases cO with ⟨c1, c2, c3⟩ | ⟨-, c2, n1, n2, c3, c4, c5⟩
              · left
                exact ⟨by rw [c1, b1, a1], a3, b3, c3⟩
              · right; right; right
                exact ⟨c2, a3, b3, unknownAt_of_extends cs (e1.trans e2) _ c5, n1, n2, c3, c4⟩
            · rcases cO with ⟨c1, c2, c3⟩ | ⟨c1, c2, n1, n2, c3, c4, c5⟩
              · right; right; left
                refine ⟨by rw [c1, b2], a3, c3, ?_, m1, m2, by rw [c2]; exact b3, b4⟩
                rw [c2]
                exact unknownAt_of_extends cs e1 _ b5
              · exfalso
                rw [b2] at c1
                cases c1
          · rcases cR with ⟨b1, b2, b3⟩ | ⟨b1, b2, m1, m2, b3, b4, b5⟩
            · rcases cO with ⟨c1, c2, c3⟩ | ⟨c1, c2, n1, n2, c3, c4, c5⟩
              · right; left
                refine ⟨by rw [c1, b1, a2], b3, c3, ?_, l1, l2, by rw [c2, b2]; exact a3, a4⟩
                rw [c2, b2]
                exact a5
              · exfalso
                rw [b1, a2] at c1
                cases c1
            · exfalso
              rw [a2] at b1
              cases b1

theorem divByCoeff_ok (cs : R1CS F) (wire wire' : F) (t : Term)
    (h : divByCoeff cs wire t = .ok wire') :
    ∃ k, coeff cs.Coefficients t = some k ∧ wire' = wire / k := by
  unfold divByCoeff at h
  unfold coeff
  by_cases h1 : t.CoeffID = CoeffIdOne
  · simp only [h1, if_true] at h
    cases h
    refine ⟨1, ?_, by simp⟩
    simp [h1, CoeffIdOne, CoeffIdZero]
  · simp only [h1, if_false] at h
    by_cases h2 : t.CoeffID = CoeffIdMinusOne
    · simp only [h2, if_true] at h
      cases h
      refine ⟨-1, ?_, by simp [div_neg]⟩
      simp [h2, CoeffIdOne, CoeffIdZero, CoeffIdMinusOne]
    · simp only [h2, if_false] at h
      by_cases h0 : t.CoeffID = CoeffIdZero
      · simp only [h0, if_true] at h
        cases h
      · simp only [h0, if_false] at h
        split at h
        · cases h
        · rename_i k hk
          cases h
          exact ⟨k, by simp [h0, h1, h2, hk], rfl⟩

theorem computeWire_ok_add (loc : Nat) (st st2 : Frame F) (wire : F)
    (hloc : 1 ≤ loc ∧ loc ≤ 3) (h : computeWire loc st = .ok (st2, wire)) :
    st2.solution = st.solution ∧
    st2.a = st.a + (if loc = 1 then wire else 0) ∧
    st2.b = st.b + (if loc = 2 then wire else 0) ∧
    st2.c = st.c + (if loc = 3 then wire else 0) ∧
    (loc = 1 → st.b ≠ 0 → wire = st.c / st.b - st.a) ∧
    (loc = 2 → st.a ≠ 0 → wire = st.c / st.a - st.b) ∧
    (loc = 3 → wire = st.a * st.b - st.c) ∧
    (loc = 1 → st.b = 0 → wire = 0) ∧
    (loc = 2 → st.a = 0 → wire = 0) := by
  unfold computeWire at h
  have hcases : loc = 1 ∨ loc = 2 ∨ loc = 3 := by omega
  rcases hcases with rfl | rfl | rfl
  · simp only [if_true] at h
    split at h
    · rename_i hb
      simp only [Res.ok.injEq, Prod.mk.injEq] at h
      obtain ⟨rfl, rfl⟩ := h
      simp [hb]
    · rename_i hb
      split at h
      · simp only [Res.ok.injEq, Prod.mk.injEq] at h
        obtain ⟨rfl, rfl⟩ := h
        have hb' : st.b = 0 := not_not.mp hb
        simp [hb']
      · cases h
  · simp only [if_true, show ¬ (2 = 1) by decide, if_false] at h
    split at h
    · rename_i ha
      simp only [Res.ok.injEq, Prod.mk.injEq] at h
      obtain ⟨rfl, rfl⟩ := h
      simp [ha]
    · rename_i ha
      split at h
      · simp only [Res.ok.injEq, Prod.mk.injEq] at h
        obtain ⟨rfl, rfl⟩ := h
        have ha' : st.a = 0 := not_not.mp ha
        simp [ha']
      · cases h
  · simp only [if_true, show ¬ (3 = 1) by decide, show ¬ (3 = 2) by decide, if_false] at h
    simp only [Res.ok.injEq, Prod.mk.injEq] at h
    obtain ⟨rfl, rfl⟩ := h
    simp

theorem instantiate_ok_set (cs : R1CS F) (loc : Nat) (t : Term) (st1 st' : Frame F)
    (hl0 : loc ≠ 0) (h : instantiate cs loc t st1 = .ok st') :
    ∃ st2 wire wire', computeWire loc st1 = .ok (st2, wire) ∧
      divByCoeff cs wire t = .ok wire' ∧
      st2.solution.set t.WireID wire' = .ok st'.solution ∧
      st'.a = st2.a ∧ st'.b = st2.b ∧ st'.c = st2.c := by
  unfold instantiate at h
  simp only [hl0, if_false] at h
  split at h
  · cases h
  · cases h
  · rename_i st2 wire hcw
    split at h
    · cases h
    · rename_i wire' hd
      split at h
      · cases h
      · rename_i s hs
        cases h
        exact ⟨st2, wire, wire', hcw, hd, hs, rfl, rfl, rfl⟩

theorem instantiate_ok_zero (cs : R1CS F) (t : Term) (st1 st' : Frame F)
    (h : instantiate cs 0 t st1 = .ok st') : st' = st1 ∧ st1.a * st1.b = st1.c := by
  unfold instantiate at h
  simp only [if_true] at h
  split at h
  · cases h; exact ⟨rfl, by assumption⟩
  · cases h

/-- The side that holds the term to compute, once the wire is set. -/
theorem eval_unknown_side (coefficients : List F) {s1 s4 : Solution F} (e : s1.Extends s4)
    (t : Term) (l1 l2 : LinearExpression) (wire : F)
    (hk : AllSolved s1 (l1 ++ l2)) (ht : s4.solved[t.WireID]? = some true)
    (hv : termValue coefficients s4 t = wire) :
    eval coefficients s4 (l1 ++ t :: l2) = eval coefficients s1 (l1 ++ l2) + wire ∧
    AllSolved s4 (l1 ++ t :: l2) := by
  refine ⟨by rw [eval_insert, e.eval_eq _ _ hk, hv], ?_⟩
  intro x hx
  rcases List.mem_append.mp hx with hx | hx
  · exact (e.keeps _ (hk x (List.mem_append_left _ hx))).1
  · rcases List.mem_cons.mp hx with rfl | hx
    · exact ht
    · exact (e.keeps _ (hk x (List.mem_append_right _ hx))).1

theorem termValue_set (cs : R1CS F) (s s4 : Solution F) (t : Term) (wire wire' : F)
    (hd : divByCoeff cs wire t = .ok wire') (hs : s.set t.WireID wire' = .ok s4)
    (hk : coeff cs.Coefficients t ≠ some 0 ∨ wire = 0) :
    termValue cs.Coefficients s4 t = wire := by
  obtain ⟨k, hc, rfl⟩ := divByCoeff_ok cs wire wire' t hd
  obtain ⟨-, -, hv⟩ := Solution.set_extends s s4 _ _ hs
  unfold termValue
  simp only [hc, Option.getD_some, List.getD_eq_getElem?_getD, hv]
  rcases hk with hk | hk
  · have : k ≠ 0 := fun h0 => hk (by rw [hc, h0])
    field_simp
  · subst hk
    simp

theorem allSolved_append3 (s : Solution F) (l1 l2 l3 : LinearExpression)
    (h1 : AllSolved s l1) (h2 : AllSolved s l2) (h3 : AllSolved s l3) :
    AllSolved s (l1 ++ l2 ++ l3) := by
  intro x hx
  rcases List.mem_append.mp hx with hx | hx
  · rcases List.mem_append.mp hx with hx | hx
    · exact h1 x hx
    · exact h2 x hx
  · exact h3 x hx

/-- On a nil return of `solveConstraint` from zero accumulators, `a`, `b`, `c` are
the values of `L`, `R`, `O` under the resulting solution, in which every wire of
the constraint is solved. -/
theorem solveR1C_ok_eval (cs : R1CS F) (r : R1C) (st st' : Frame F)
    (hz : st.a = 0 ∧ st.b = 0 ∧ st.c = 0)
    (hk : ∀ st1 loc t, walkR1C cs r st = .ok (st1, loc, t) → loc ≠ 0 →
      coeff cs.Coefficients t ≠ some 0)
    (h : solveR1C cs r st = .ok st') :
    st'.a = eval cs.Coefficients st'.solution r.L ∧
    st'.b = eval cs.Coefficients st'.solution r.R ∧
    st'.c = eval cs.Coefficients st'.solution r.O ∧
    AllSolved st'.solution (r.L ++ r.R ++ r.O) ∧
    st.solution.Extends st'.solution := by
  obtain ⟨hza, hzb, hzc⟩ := hz
  unfold solveR1C at h
  split at h
  · cases h
  · cases h
  · rename_i st1 loc t hw
    have hloc := walkR1C_loc cs r st st1 loc t hw
    obtain ⟨e, kL, kR, kO, sL, sR, sO, vL, vR, vO, cases⟩ := walkR1C_ok cs r st st1 loc t hw
    rw [hza, zero_add] at vL
    rw [hzb, zero_add] at vR
    rw [hzc, zero_add] at vO
    rcases cases with ⟨rfl, rfl, rfl, rfl⟩ | ⟨rfl, rfl, rfl, -, l1, l2, hl, rfl⟩ |
      ⟨rfl, rfl, rfl, -, l1, l2, hl, rfl⟩ | ⟨rfl, rfl, rfl, -, l1, l2, hl, rfl⟩
    · obtain ⟨rfl, -⟩ := instantiate_ok_zero cs t st1 st' h
      exact ⟨vL, vR, vO, allSolved_append3 _ _ _ _ sL sR sO, e⟩
    · obtain ⟨st2, wire, wire', hcw, hd, hs, ea, eb, ec⟩ :=
        instantiate_ok_set cs 1 t st1 st' (by decide) h
      obtain ⟨q0, qa, qb, qc, -⟩ := computeWire_ok_add 1 st1 st2 wire (by decide) hcw
      simp only [if_true, show ¬ (1 = 2) by decide, show ¬ (1 = 3) by decide, if_false,
        add_zero] at qa qb qc
      rw [q0] at hs
      obtain ⟨e4, k4, -⟩ := Solution.set_extends _ _ _ _ hs
      have tv := termValue_set cs _ _ t wire wire' hd hs (Or.inl (hk st1 1 t hw (by decide)))
      obtain ⟨u1, u2⟩ := eval_unknown_side cs.Coefficients e4 t l1 l2 wire sL k4 tv
      refine ⟨?_, ?_, ?_, ?_, e.trans e4⟩
      · rw [ea, qa, vL, hl, u1]
      · rw [eb, qb, vR, e4.eval_eq _ _ sR]
      · rw [ec, qc, vO, e4.eval_eq _ _ sO]
      · rw [hl]
        exact allSolved_append3 _ _ _ _ u2 (e4.allSolved _ sR) (e4.allSolved _ sO)
    · obtain ⟨st2, wire, wire', hcw, hd, hs, ea, eb, ec⟩ :=
        instantiate_ok_set cs 2 t st1 st' (by decide) h
      obtain ⟨q0, qa, qb, qc, -⟩ := computeWire_ok_add 2 st1 st2 wire (by decide) hcw
      simp only [if_true, show ¬ (2 = 1) by decide, show ¬ (2 = 3) by decide, if_false,
        add_zero] at qa qb qc
      rw [q0] at hs
      obtain ⟨e4, k4, -⟩ := Solution.set_extends _ _ _ _ hs
      have tv := termValue_set cs _ _ t wire wire' hd hs (Or.inl (hk st1 2 t hw (by decide)))
      obtain ⟨u1, u2⟩ := eval_unknown_side cs.Coefficients e4 t l1 l2 wire sR k4 tv
      refine ⟨?_, ?_, ?_, ?_, e.trans e4⟩
      · rw [ea, qa, vL, e4.eval_eq _ _ sL]
      · rw [eb, qb, vR, hl, u1]
      · rw [ec, qc, vO, e4.eval_eq _ _ sO]
      · rw [hl]
        exact allSolved_append3 _ _ _ _ (e4.allSolved _ sL) u2 (e4.allSolved _ sO)
    · obtain ⟨st2, wire, wire', hcw, hd, hs, ea, eb, ec⟩ :=
        instantiate_ok_set cs 3 t st1 st' (by decide) h
      obtain ⟨q0, qa, qb, qc, -⟩ := computeWire_ok_add 3 st1 st2 wire (by decide) hcw
      simp only [if_true, show ¬ (3 = 1) by decide, show ¬ (3 = 2) by decide, if_false,
        add_zero] at qa qb qc
      rw [q0] at hs
      obtain ⟨e4, k4, -⟩ := Solution.set_extends _ _ _ _ hs
      have tv := termValue_set cs _ _ t wire wire' hd hs (Or.inl (hk st1 3 t hw (by decide)))
      obtain ⟨u1, u2⟩ := eval_unknown_side cs.Coefficients e4 t l1 l2 wire sO k4 tv
      refine ⟨?_, ?_, ?_, ?_, e.trans e4⟩
      · rw [ea, qa, vL, e4.eval_eq _ _ sL]
      · rw [eb, qb, vR, e4.eval_eq _ _ sR]
      · rw [ec, qc, vO, hl, u1]
      · rw [hl]
        exact allSolved_append3 _ _ _ _ (e4.allSolved _ sL) (e4.allSolved _ sR) u2

theorem walkR1C_unknown_mem (cs : R1CS F) (r : R1C) (st st1 : Frame F) (loc : Nat) (t : Term)
    (h : walkR1C cs r st = .ok (st1, loc, t)) (hl : loc ≠ 0) :
    t ∈ (r.L ++ r.R ++ r.O).filter (unknownAt cs st.solution) := by
  obtain ⟨-, kL, kR, kO, -, -, -, -, -, -, cases⟩ := walkR1C_ok cs r st st1 loc t h
  rw [List.mem_filter]
  rcases cases with ⟨rfl, -⟩ | ⟨-, -, -, hu, l1, l2, hl', -⟩ | ⟨-, -, -, hu, l1, l2, hl', -⟩ |
    ⟨-, -, -, hu, l1, l2, hl', -⟩
  · exact absurd rfl hl
  · refine ⟨?_, hu⟩
    rw [hl']
    simp
  · refine ⟨?_, hu⟩
    rw [hl']
    simp
  · refine ⟨?_, hu⟩
    rw [hl']
    simp

/-- C2: back-substitution correctness. For a constraint in which exactly one term
`t` refers to an unsolved, un-hinted wire `w`, that term having coefficient 1 or
-1, and with `a`, `b`, `c` zero on entry: whenever `solveConstraint` returns nil,
the wire `w` is solved and `eval(L) * eval(R) = eval(O)` holds under the
resulting wire values. -/
theorem solveConstraint_back_substitution (cs : R1CS F) (i : Nat) (r : R1C)
    (st st' : Frame F) (t : Term) (w : Nat)
    (hr : cs.Constraints[i]? = some r)
    (hz : st.a = 0 ∧ st.b = 0 ∧ st.c = 0)
    (huniq : (r.L ++ r.R ++ r.O).filter (unknownAt cs st.solution) = [t])
    (hw : t.WireID = w)
    (hcoef : coeff cs.Coefficients t = some 1 ∨ coeff cs.Coefficients t = some (-1))
    (h : solveConstraint cs i st = .ok st') :
    st'.solution.solved[w]? = some true ∧
    eval cs.Coefficients st'.solution r.L * eval cs.Coefficients st'.solution r.R =
      eval cs.Coefficients st'.solution r.O := by
  unfold solveConstraint at h
  rw [hr] at h
  simp only at h
  have hk : ∀ st1 loc t', walkR1C cs r st = .ok (st1, loc, t') → loc ≠ 0 →
      coeff cs.Coefficients t' ≠ some 0 := by
    intro st1 loc t' hwk hl
    have hm := walkR1C_unknown_mem cs r st st1 loc t' hwk hl
    rw [huniq, List.mem_singleton] at hm
    subst hm
    rcases hcoef with hc | hc
    · rw [hc]; simp
    · rw [hc]; simp
  obtain ⟨ea, eb, ec, hs, -⟩ := solveR1C_ok_eval cs r st st' hz hk h
  have hmul := solveR1C_ok_mul cs r st st' h
  refine ⟨?_, by rw [← ea, ← eb, ← ec]; exact hmul⟩
  have hm : t ∈ (r.L ++ r.R ++ r.O).filter (unknownAt cs st.solution) := by
    rw [huniq]; simp
  rw [← hw]
  exact hs t (List.mem_filter.mp hm).1

theorem solveConstraint_back_substitution_witness :
    solveConstraint exampleCS 0 ⟨exampleSeed, 0, 0, 0⟩ =
      .ok ⟨⟨[1, 3, 4, 12, 0], [true, true, true, true, false], 4⟩, 3, 4, 12⟩ ∧
    (⟨[1, 3, 4, 12, 0], [true, true, true, true, false], 4⟩ : Solution (ZMod 13)).solved[3]?
      = some true ∧
    eval exampleCS.Coefficients ⟨[1, 3, 4, 12, 0], [true, true, true, true, false], 4⟩ [⟨1, 1⟩] *
      eval exampleCS.Coefficients ⟨[1, 3, 4, 12, 0], [true, true, true, true, false], 4⟩ [⟨1, 2⟩] =
      eval exampleCS.Coefficients ⟨[1, 3, 4, 12, 0], [true, true, true, true, false], 4⟩ [⟨1, 3⟩] :=
  ⟨by decide,
    solveConstraint_back_substitution exampleCS 0 ⟨[⟨1, 1⟩], [⟨1, 2⟩], [⟨1, 3⟩]⟩
      ⟨exampleSeed, 0, 0, 0⟩ ⟨⟨[1, 3, 4, 12, 0], [true, true, true, true, false], 4⟩, 3, 4, 12⟩
      ⟨1, 3⟩ 3 (by decide) (by decide) (by decide) rfl (Or.inl (by decide)) (by decide)⟩

/-- C4: if `a`, `b`, `c` are zero on entry and `solveConstraint` returns nil, the
term to compute, if any, having a non-zero coefficient, then on return
`a = eval(L)`, `b = eval(R)` and `c = eval(O)` under the resulting wire values,
the contribution of the wire just solved included. -/
theorem solveConstraint_entries_eval (cs : R1CS F) (i : Nat) (r : R1C) (st st' : Frame F)
    (hr : cs.Constraints[i]? = some r)
    (hz : st.a = 0 ∧ st.b = 0 ∧ st.c = 0)
    (hk : ∀ st1 loc t, walkR1C cs r st = .ok (st1, loc, t) → loc ≠ 0 →
      coeff cs.Coefficients t ≠ some 0)
    (h : solveConstraint cs i st = .ok st') :
    st'.a = eval cs.Coefficients st'.solution r.L ∧
    st'.b = eval cs.Coefficients st'.solution r.R ∧
    st'.c = eval cs.Coefficients st'.solution r.O := by
  unfold solveConstraint at h
  rw [hr] at h
  simp only at h
  obtain ⟨ea, eb, ec, -, -⟩ := solveR1C_ok_eval cs r st st' hz hk h
  exact ⟨ea, eb, ec⟩

theorem solveConstraint_entries_eval_witness :
    (10 : ZMod 13) =
      eval exampleCS.Coefficients ⟨[1, 3, 4, 12, 10], [true, true, true, true, true], 4⟩ [⟨1, 4⟩] :=
  (solveConstraint_entries_eval exampleCS 1 ⟨[⟨1, 3⟩], [⟨1, 1⟩], [⟨1, 4⟩]⟩
    ⟨⟨[1, 3, 4, 12, 0], [true, true, true, true, false], 3⟩, 0, 0, 0⟩
    ⟨⟨[1, 3, 4, 12, 10], [true, true, true, true, true], 4⟩, 12, 3, 10⟩
    (by decide) (by decide)
    (by
      intro st1 loc t hw _
      have hv : walkR1C exampleCS ⟨[⟨1, 3⟩], [⟨1, 1⟩], [⟨1, 4⟩]⟩
          ⟨⟨[1, 3, 4, 12, 0], [true, true, true, true, false], 3⟩, 0, 0, 0⟩ =
          .ok (⟨⟨[1, 3, 4, 12, 0], [true, true, true, true, false], 3⟩, 12, 3, 0⟩, 3, ⟨1, 4⟩) := by
        decide
      rw [hv] at hw
      cases hw
      decide)
    (by decide)).2.2

theorem solveR1C_ok_termValue (cs : R1CS F) (r : R1C) (st st1 st' : Frame F) (loc : Nat)
    (t : Term) (hw : walkR1C cs r st = .ok (st1, loc, t)) (hl : loc ≠ 0)
    (hk : coeff cs.Coefficients t ≠ some 0) (h : solveR1C cs r st = .ok st') :
    ∃ st2 wire, computeWire loc st1 = .ok (st2, wire) ∧
      termValue cs.Coefficients st'.solution t = wire := by
  unfold solveR1C at h
  rw [hw] at h
  simp only at h
  obtain ⟨st2, wire, wire', hcw, hd, hs, -⟩ := instantiate_ok_set cs loc t st1 st' hl h
  exact ⟨st2, wire, hcw, termValue_set cs _ _ t wire wire' hd hs (Or.inl hk)⟩

/-- The formulas of the term to compute, for a non-zero coefficient: in
`solveConstraint`, with `a_acc`, `b_acc`, `c_acc` the accumulators left by the
walks and the term to compute having a non-zero coefficient, the value of that
term (coefficient times wire value) on a nil return is `c_acc / b_acc - a_acc`
when it is in `L` and `b_acc` is non-zero, `c_acc / a_acc - b_acc` when it is in
`R` and `a_acc` is non-zero, and `a_acc * b_acc - c_acc` when it is in `O`. For
`1*pub0 * 1*pub1 = 1*internal0` with `pub0 = 3` and `pub1 = 4`, `internal0` is
set to 12 and `(a, b, c) = (3, 4, 12)`. -/
theorem unknown_term_value :
    (∀ (cs : R1CS F) (i : Nat) (r : R1C) (st st1 st' : Frame F) (loc : Nat) (t : Term),
      cs.Constraints[i]? = some r →
      walkR1C cs r st = .ok (st1, loc, t) →
      coeff cs.Coefficients t ≠ some 0 →
      solveConstraint cs i st = .ok st' →
      (loc = 1 → st1.b ≠ 0 →
        termValue cs.Coefficients st'.solution t = st1.c / st1.b - st1.a) ∧
      (loc = 2 → st1.a ≠ 0 →
        termValue cs.Coefficients st'.solution t = st1.c / st1.a - st1.b) ∧
      (loc = 3 → termValue cs.Coefficients st'.solution t = st1.a * st1.b - st1.c)) ∧
    Solve scenario1CS 1 [3, 4] [0] [0] [0] = .ok ⟨[1, 3, 4, 12], none, [3], [4], [12]⟩ := by
  refine ⟨?_, by decide⟩
  intro cs i r st st1 st' loc t hr hw hk h
  unfold solveConstraint at h
  rw [hr] at h
  simp only at h
  have hloc := walkR1C_loc cs r st st1 loc t hw
  refine ⟨?_, ?_, ?_⟩
  · intro h1 hb
    obtain ⟨st2, wire, hcw, hv⟩ := solveR1C_ok_termValue cs r st st1 st' loc t hw (by omega) hk h
    obtain ⟨-, -, -, -, q, -⟩ := computeWire_ok_add loc st1 st2 wire (by omega) hcw
    rw [hv]
    exact q h1 hb
  · intro h1 ha
    obtain ⟨st2, wire, hcw, hv⟩ := solveR1C_ok_termValue cs r st st1 st' loc t hw (by omega) hk h
    obtain ⟨-, -, -, -, -, q, -⟩ := computeWire_ok_add loc st1 st2 wire (by omega) hcw
    rw [hv]
    exact q h1 ha
  · intro h1
    obtain ⟨st2, wire, hcw, hv⟩ := solveR1C_ok_termValue cs r st st1 st' loc t hw (by omega) hk h
    obtain ⟨-, -, -, -, -, -, q, -⟩ := computeWire_ok_add loc st1 st2 wire (by omega) hcw
    rw [hv]
    exact q h1

theorem unknown_term_value_witness :
    termValue scenario1CS.Coefficients
      (⟨[1, 3, 4, 12], [true, true, true, true], 4⟩ : Solution (ZMod 13)) ⟨1, 3⟩ =
      (3 : ZMod 13) * 4 - 0 :=
  ((unknown_term_value (F := ZMod 13)).1 scenario1CS 0 ⟨[⟨1, 1⟩], [⟨1, 2⟩], [⟨1, 3⟩]⟩
    ⟨⟨[1, 3, 4, 0], [true, true, true, false], 3⟩, 0, 0, 0⟩
    ⟨⟨[1, 3, 4, 0], [true, true, true, false], 3⟩, 3, 4, 0⟩
    ⟨⟨[1, 3, 4, 12], [true, true, true, true], 4⟩, 3, 4, 12⟩ 3 ⟨1, 3⟩
    (by decide) (by decide) (by decide) (by decide)).2.2 rfl

/-- C3, the code at the failing input: the term to compute carries the id 4,
which is not reserved and whose entry in the coefficient table is zero. For
`(0 * w) * 1 = x` with `x = 7` the walks leave
`(a_acc, b_acc, c_acc) = (0, 1, 7)` with the term of `w` to compute in `L` and
`b_acc` non-zero; `solveConstraint` returns nil with `(a, b, c) = (7, 1, 7)` and
sets `w = 0`, so the coefficient times the wire value is 0, not
`c_acc / b_acc - a_acc = 7`. -/
theorem unknown_term_value_zero_coefficient :
    walkR1C zeroEntryCS ⟨[⟨4, 2⟩], [⟨1, 0⟩], [⟨1, 1⟩]⟩
        ⟨⟨[1, 7, 0], [true, true, false], 2⟩, 0, 0, 0⟩ =
      .ok (⟨⟨[1, 7, 0], [true, true, false], 2⟩, 0, 1, 7⟩, 1, ⟨4, 2⟩) ∧
    solveConstraint zeroEntryCS 0 ⟨⟨[1, 7, 0], [true, true, false], 2⟩, 0, 0, 0⟩ =
      .ok ⟨⟨[1, 7, 0], [true, true, true], 3⟩, 7, 1, 7⟩ ∧
    (1 : ZMod 13) ≠ 0 ∧
    termValue zeroEntryCS.Coefficients
        (⟨[1, 7, 0], [true, true, true], 3⟩ : Solution (ZMod 13)) ⟨4, 2⟩ ≠
      (7 : ZMod 13) / 1 - 0 := by
  decide!

/-- C5: when the three walks of `solveConstraint` end with no term left to
compute (every wire was solved, or was solved by a hint during the walk), the
result is the unsatisfied-constraint error exactly when `a_acc * b_acc` differs
from `c_acc`, and a nil error otherwise; in both cases the solution returned is
the one the walks left, no wire being set by back-substitution. -/
theorem solveConstraint_nothing_to_compute (cs : R1CS F) (i : Nat) (r : R1C)
    (st st1 : Frame F) (t : Term)
    (hr : cs.Constraints[i]? = some r)
    (hw : walkR1C cs r st = .ok (st1, 0, t)) :
    (solveConstraint cs i st = .err (.notEqual st1.a st1.b st1.c) st1 ↔
      st1.a * st1.b ≠ st1.c) ∧
    (solveConstraint cs i st = .ok st1 ↔ st1.a * st1.b = st1.c) ∧
    (∀ e st', solveConstraint cs i st = .err e st' →
      e = .notEqual st1.a st1.b st1.c ∧ st' = st1) ∧
    (∀ st', solveConstraint cs i st = .ok st' → st' = st1) := by
  have hv : solveConstraint cs i st =
      if st1.a * st1.b = st1.c then .ok st1 else .err (.notEqual st1.a st1.b st1.c) st1 := by
    unfold solveConstraint
    rw [hr]
    simp only
    unfold solveR1C
    rw [hw]
    simp only
    unfold instantiate
    simp only [if_true]
  rw [hv]
  by_cases hm : st1.a * st1.b = st1.c
  · simp only [hm, if_true]
    refine ⟨?_, ?_, ?_, ?_⟩
    · constructor
      · intro h; cases h
      · intro h; exact absurd rfl h
    · simp
    · intro e st' h; cases h
    · intro st' h; cases h; rfl
  · simp only [hm, if_false]
    refine ⟨?_, ?_, ?_, ?_⟩
    · simp [hm]
    · constructor
      · intro h; cases h
      · intro h; exact absurd h (by simp)
    · intro e st' h; cases h; exact ⟨rfl, rfl⟩
    · intro st' h; cases h

theorem solveConstraint_nothing_to_compute_witness :
    solveConstraint exampleCS 0
        ⟨⟨[1, 3, 4, 12, 10], [true, true, true, true, true], 5⟩, 0, 0, 0⟩ =
      .ok ⟨⟨[1, 3, 4, 12, 10], [true, true, true, true, true], 5⟩, 3, 4, 12⟩ :=
  (solveConstraint_nothing_to_compute exampleCS 0 ⟨[⟨1, 1⟩], [⟨1, 2⟩], [⟨1, 3⟩]⟩
    ⟨⟨[1, 3, 4, 12, 10], [true, true, true, true, true], 5⟩, 0, 0, 0⟩
    ⟨⟨[1, 3, 4, 12, 10], [true, true, true, true, true], 5⟩, 3, 4, 12⟩ default
    (by decide) (by decide)).2.1.mpr (by decide)

/-- C6: for a witness whose length differs from
`NbPublicVariables - 1 + NbSecretVariables`, `Solve` returns the witness size
error; no constraint is resolved and no hint invoked (`a`, `b`, `c` come back as
given), and every entry of the returned array is still zero. -/
theorem Solve_invalid_witness_size (cs : R1CS F) (numCPU : Nat) (witness a b c : List F)
    (h : (witness.length : Int) ≠
      (cs.NbPublicVariables : Int) - 1 + (cs.NbSecretVariables : Int)) :
    Solve cs numCPU witness a b c =
      .ok ⟨List.replicate
          (cs.NbPublicVariables + cs.NbSecretVariables + cs.NbInternalVariables) 0,
        some (.invalidWitnessSize witness.length
          ((cs.NbPublicVariables : Int) - 1 + (cs.NbSecretVariables : Int))), a, b, c⟩ := by
  unfold Solve
  simp only [newSolution]
  rw [if_pos h]

theorem Solve_invalid_witness_size_witness :
    Solve exampleCS 4 [3] [0, 0] [0, 0] [0, 0] =
      .ok ⟨[0, 0, 0, 0, 0], some (.invalidWitnessSize 1 2), [0, 0], [0, 0], [0, 0]⟩ :=
  Solve_invalid_witness_size exampleCS 4 [3] [0, 0] [0, 0] [0, 0] (by decide)

theorem processTerm_err (cs : R1CS F) (lv : Nat) (t : Term) (w w' : Walk F) (x : Error F)
    (h : processTerm cs lv t w = .err x w') : Error.IsCause cs x := by
  unfold processTerm at h
  simp only at h
  split at h
  · cases h
  · split at h
    · cases h
    · cases h
  · split at h
    · rename_i hint hh
      split at h
      · cases h
      · rename_i e s hs
        cases h
        obtain ⟨-, ins, e', he, rfl⟩ := solveWithHint_err _ _ _ _ _ hs
        exact Or.inr ⟨_, hint, ins, e', hh, he, rfl⟩
      · split at h
        · cases h
        · cases h
    · split at h
      · cases h
      · cases h

theorem processLExp_err (cs : R1CS F) (lv : Nat) (l : LinearExpression) :
    ∀ (w w' : Walk F) (x : Error F), processLExp cs lv l w = .err x w' →
      Error.IsCause cs x := by
  induction l with
  | nil => intro w w' x h; simp only [processLExp] at h; cases h
  | cons t l ih =>
    intro w w' x h
    simp only [processLExp] at h
    split at h
    · exact ih _ _ _ h
    · rename_i e w1 h1
      cases h
      exact processTerm_err cs lv t w _ _ h1
    · cases h

theorem lazyLoop_err (cs : R1CS F) (shiftI : Int) (lv : Nat) (l : LinearExpression) :
    ∀ (w w' : Walk F) (x : Error F), lazyLoop cs shiftI lv l w = .err x w' →
      Error.IsCause cs x := by
  induction l with
  | nil => intro w w' x h; simp only [lazyLoop] at h; cases h
  | cons t l ih =>
    intro w w' x h
    simp only [lazyLoop] at h
    split at h
    · cases h
    · split at h
      · exact ih _ _ _ h
      · rename_i e w1 h1
        cases h
        exact processTerm_err cs lv _ w _ _ h1
      · cases h

theorem walkR1C_err (cs : R1CS F) (r : R1C) (st : Frame F) (x : Error F)
    (y : Frame F × Nat × Term) (h : walkR1C cs r st = .err x y) : Error.IsCause cs x := by
  unfold walkR1C at h
  split at h
  · cases h
  · rename_i e w h1
    cases h
    exact processLExp_err cs 1 r.L _ _ _ h1
  · split at h
    · cases h
    · rename_i e w h2
      cases h
      exact processLExp_err cs 2 r.R _ _ _ h2
    · split at h
      · cases h
      · rename_i e w h3
        cases h
        exact processLExp_err cs 3 r.O _ _ _ h3
      · cases h

theorem walkLazy_err (cs : R1CS F) (li : LazyInputs) (j : Nat) (shift : Int) (r : R1C)
    (st : Frame F) (x : Error F) (y : Frame F × Nat × Term)
    (h : walkLazy cs li j shift r st = .err x y) : Error.IsCause cs x := by
  unfold walkLazy processLExpLazy at h
  split at h
  · cases h
  · rename_i e w h1
    cases h
    exact lazyLoop_err cs _ 1 r.L _ _ _ h1
  · split at h
    · cases h
    · rename_i e w h2
      cases h
      exact lazyLoop_err cs _ 2 r.R _ _ _ h2
    · split at h
      · cases h
      · rename_i e w h3
        cases h
        exact lazyLoop_err cs _ 3 r.O _ _ _ h3
      · cases h

theorem computeWire_err (loc : Nat) (st : Frame F) (x : Error F) (y : Frame F × F)
    (h : computeWire loc st = .err x y) : ∃ a b c, x = .notEqual a b c := by
  unfold computeWire at h
  split at h
  · split at h
    · cases h
    · split at h
      · cases h
      · cases h; exact ⟨_, _, _, rfl⟩
  · split at h
    · split at h
      · cases h
      · split at h
        · cases h
        · cases h; exact ⟨_, _, _, rfl⟩
    · split at h
      · cases h
      · cases h

theorem instantiate_err (cs : R1CS F) (loc : Nat) (t : Term) (st st' : Frame F) (x : Error F)
    (h : instantiate cs loc t st = .err x st') : ∃ a b c, x = .notEqual a b c := by
  unfold instantiate at h
  split at h
  · split at h
    · cases h
    · cases h; exact ⟨_, _, _, rfl⟩
  · simp only at h
    split at h
    · cases h
    · rename_i e st2 _ hcw
      cases h
      exact computeWire_err loc st _ _ hcw
    · split at h
      · cases h
      · split at h
        · cases h
        · cases h

theorem solveGeneralConstraint_err (cs : R1CS F) (idx : Nat) (st st' : Frame F) (x : Error F)
    (h : solveGeneralConstraint cs idx st = .err x st') : Error.IsCause cs x := by
  unfold solveGeneralConstraint at h
  simp only at h
  split at h
  · unfold solveConstraint at h
    split at h
    · cases h
    · unfold solveR1C at h
      split at h
      · cases h
      · rename_i e y _ _ hw
        cases h
        exact walkR1C_err cs _ st _ _ hw
      · exact Or.inl (instantiate_err cs _ _ _ _ _ h)
  · split at h
    · cases h
    · unfold solveLazyConstraint at h
      split at h
      · cases h
      · rename_i e y _ _ hw
        cases h
        exact walkLazy_err cs _ _ _ _ st _ _ hw
      · exact Or.inl (instantiate_err cs _ _ _ _ _ h)

theorem solveAt_err (cs : R1CS F) (i : Nat) (st st' : Run F) (x : Error F)
    (h : solveAt cs i st = .err x st') : Error.IsCause cs x := by
  unfold solveAt at h
  split at h
  · split at h
    · cases h
    · rename_i e f hf
      cases h
      exact solveGeneralConstraint_err cs i _ _ _ hf
    · cases h
  · cases h

/-- The errors that `parallelSolve` returns: an `UnsatisfiedConstraintError` whose
`Err` is the error returned by the resolution of constraint `CID`. -/
theorem solveTask_err (cs : R1CS F) (l : List Nat) :
    ∀ (st st' : Run F) (x : Error F), solveTask cs l st = .err x st' →
      ∃ i e0 st0 st1, x = .unsatisfiedConstraint i e0 ∧ i ∈ l ∧
        solveAt cs i st0 = .err e0 st1 := by
  induction l with
  | nil => intro st st' x h; simp only [solveTask] at h; cases h
  | cons i l ih =>
    intro st st' x h
    simp only [solveTask] at h
    split at h
    · obtain ⟨j, e0, st0, st1, hx, hj, hs⟩ := ih _ _ _ h
      exact ⟨j, e0, st0, st1, hx, List.mem_cons_of_mem _ hj, hs⟩
    · rename_i e st1 h1
      cases h
      exact ⟨i, e, st, _, rfl, List.mem_cons_self _ _, h1⟩
    · cases h

theorem runTasks_err (cs : R1CS F) (ts : List (List Nat)) :
    ∀ (st st' : Run F) (x : Error F), runTasks cs ts st = .err x st' →
      ∃ i e0 st0 st1, x = .unsatisfiedConstraint i e0 ∧ i ∈ ts.flatten ∧
        solveAt cs i st0 = .err e0 st1 := by
  induction ts with
  | nil => intro st st' x h; simp only [runTasks] at h; cases h
  | cons t ts ih =>
    intro st st' x h
    simp only [runTasks] at h
    split at h
    · cases h
    · obtain ⟨j, e0, st0, st1, hx, hj, hs⟩ := ih _ _ _ h
      exact ⟨j, e0, st0, st1, hx, by rw [List.flatten_cons]; exact List.mem_append_right _ hj, hs⟩
    · rename_i e st1 h1
      have key : ∃ i e0 st0 st1, e = .unsatisfiedConstraint i e0 ∧ i ∈ (t :: ts).flatten ∧
          solveAt cs i st0 = .err e0 st1 := by
        obtain ⟨j, e0, st0, st1', hx, hj, hs⟩ := solveTask_err cs t _ _ _ h1
        exact ⟨j, e0, st0, st1', hx,
          by rw [List.flatten_cons]; exact List.mem_append_left _ hj, hs⟩
      split at h
      · cases h
      · cases h; exact key
      · cases h; exact key

theorem solveLevels_err (cs : R1CS F) (numCPU : Nat) (ls : List (List Nat)) :
    ∀ (st st' : Run F) (x : Error F), solveLevels cs numCPU ls st = .err x st' →
      ∃ i e0 st0 st1, x = .unsatisfiedConstraint i e0 ∧ i ∈ ls.flatten ∧
        solveAt cs i st0 = .err e0 st1 := by
  induction ls with
  | nil => intro st st' x h; simp only [solveLevels] at h; cases h
  | cons l ls ih =>
    intro st st' x h
    simp only [solveLevels] at h
    split at h
    · obtain ⟨j, e0, st0, st1, hx, hj, hs⟩ := ih _ _ _ h
      exact ⟨j, e0, st0, st1, hx, by rw [List.flatten_cons]; exact List.mem_append_right _ hj, hs⟩
    · rename_i e st1 h1
      cases h
      unfold solveLevel at h1
      split at h1
      · obtain ⟨j, e0, st0, st1', hx, hj, hs⟩ := solveTask_err cs l _ _ _ h1
        exact ⟨j, e0, st0, st1', hx,
          by rw [List.flatten_cons]; exact List.mem_append_left _ hj, hs⟩
      · split at h1
        · cases h1
        · rename_i tasks ht
          obtain ⟨j, e0, st0, st1', hx, hj, hs⟩ := runTasks_err cs tasks _ _ _ h1
          rw [levelTasks_flatten numCPU l tasks ht] at hj
          exact ⟨j, e0, st0, st1', hx,
            by rw [List.flatten_cons]; exact List.mem_append_left _ hj, hs⟩
    · cases h

/-- Past the two size checks, `Solve` returns what `parallelSolve` returns on
the seeded solution: its error, or a nil error. -/
theorem Solve_returns (cs : R1CS F) (numCPU : Nat) (witness a b c : List F) (out : Output F)
    (h : Solve cs numCPU witness a b c = .ok out)
    (hw : (witness.length : Int) =
      (cs.NbPublicVariables : Int) - 1 + (cs.NbSecretVariables : Int))
    (hn : a.length = cs.Constraints.length + GetConstraintsAll cs.LazyCons ∧
      b.length = cs.Constraints.length + GetConstraintsAll cs.LazyCons ∧
      c.length = cs.Constraints.length + GetConstraintsAll cs.LazyCons) :
    ∃ (s0 : Solution F) (st : Run F),
      (parallelSolve cs numCPU ⟨s0, a, b, c⟩ = .ok st ∧ out.err = none ∨
        ∃ x, parallelSolve cs numCPU ⟨s0, a, b, c⟩ = .err x st ∧ out.err = some x) ∧
      out.values = st.solution.values ∧ out.a = st.a ∧ out.b = st.b ∧ out.c = st.c := by
  unfold Solve at h
  simp only [newSolution] at h
  rw [if_neg (not_not.mpr hw)] at h
  rw [if_neg (by simp [hn.1, hn.2.1, hn.2.2])] at h
  split at h
  · split at h
    · cases h
    · split at h
      · cases h
      · rename_i e st hps
        cases h
        exact ⟨_, st, Or.inr ⟨e, hps, rfl⟩, rfl, rfl, rfl, rfl⟩
      · rename_i st hps
        split at h
        · cases h
        · cases h
          exact ⟨_, st, Or.inl ⟨hps, rfl⟩, rfl, rfl, rfl, rfl⟩
  · cases h

/-- C7: for a witness of the correct length, `Solve` returns the input size
error, with nothing solved, whenever one of `len(a)`, `len(b)`, `len(c)` differs
from `len(Constraints) + LazyCons.GetConstraintsAll()`; when all three equal
that count, `Solve` returns no size error. -/
theorem Solve_invalid_input_size (cs : R1CS F) (numCPU : Nat) (witness a b c : List F)
    (hw : (witness.length : Int) =
      (cs.NbPublicVariables : Int) - 1 + (cs.NbSecretVariables : Int)) :
    ((a.length ≠ cs.Constraints.length + GetConstraintsAll cs.LazyCons ∨
        b.length ≠ cs.Constraints.length + GetConstraintsAll cs.LazyCons ∨
        c.length ≠ cs.Constraints.length + GetConstraintsAll cs.LazyCons) →
      Solve cs numCPU witness a b c =
        .ok ⟨List.replicate
            (cs.NbPublicVariables + cs.NbSecretVariables + cs.NbInternalVariables) 0,
          some .invalidInputSize, a, b, c⟩) ∧
    ((a.length = cs.Constraints.length + GetConstraintsAll cs.LazyCons ∧
        b.length = cs.Constraints.length + GetConstraintsAll cs.LazyCons ∧
        c.length = cs.Constraints.length + GetConstraintsAll cs.LazyCons) →
      ∀ out, Solve cs numCPU witness a b c = .ok out →
        out.err ≠ some .invalidInputSize ∧
        ∀ got expected, out.err ≠ some (.invalidWitnessSize got expected)) := by
  constructor
  · intro hn
    unfold Solve
    simp only [newSolution]
    rw [if_neg (not_not.mpr hw), if_pos hn]
  · intro hn out h
    obtain ⟨s0, st, hc, -⟩ := Solve_returns cs numCPU witness a b c out h hw hn
    rcases hc with ⟨-, he⟩ | ⟨x, hx, he⟩
    · rw [he]
      exact ⟨by simp, by simp⟩
    · obtain ⟨i, e0, -, -, rfl, -⟩ := solveLevels_err cs numCPU cs.Levels _ _ _ hx
      rw [he]
      exact ⟨by simp, by simp⟩

theorem Solve_invalid_input_size_witness :
    Solve exampleCS 4 [3, 4] [0] [0, 0] [0, 0] =
      .ok ⟨[0, 0, 0, 0, 0], some .invalidInputSize, [0], [0, 0], [0, 0]⟩ :=
  (Solve_invalid_input_size exampleCS 4 [3, 4] [0] [0, 0] [0, 0] (by decide)).1
    (Or.inl (by decide))

theorem solveTask_append (cs : R1CS F) (l1 l2 : List Nat) :
    ∀ st : Run F, solveTask cs (l1 ++ l2) st =
      match solveTask cs l1 st with
      | .ok st' => solveTask cs l2 st'
      | .err e st' => .err e st'
      | .abort p => .abort p := by
  induction l1 with
  | nil => intro st; simp [solveTask]
  | cons i l1 ih =>
    intro st
    simp only [List.cons_append, solveTask]
    cases solveAt cs i st with
    | ok st' => exact ih st'
    | err e st' => rfl
    | abort p => rfl

theorem solveLevels_sequential (cs : R1CS F) (numCPU : Nat) (ls : List (List Nat))
    (hseq : ∀ level ∈ ls, level.length ≤ 50) :
    ∀ st : Run F, solveLevels cs numCPU ls st = solveTask cs ls.flatten st := by
  induction ls with
  | nil => intro st; simp [solveLevels, solveTask]
  | cons l ls ih =>
    intro st
    have hl : l.length ≤ 50 := hseq l (List.mem_cons_self _ _)
    have ih' := ih (fun level h => hseq level (List.mem_cons_of_mem _ h))
    simp only [solveLevels, solveLevel, hl, if_true, List.flatten_cons, solveTask_append]
    cases solveTask cs l st with
    | ok st' => simp only [ih']
    | err e st' => rfl
    | abort p => rfl

/-- C8: in a schedule whose levels are all run sequentially, when the
constraints before position `i` resolve with a nil error and the resolution of
constraint `i` returns an error `e`, `parallelSolve` returns the
`UnsatisfiedConstraintError` with `CID = i` (and `Err = e`), in the state left by
that resolution: no later constraint is resolved. -/
theorem parallelSolve_first_error (cs : R1CS F) (numCPU : Nat) (st st1 st2 : Run F)
    (pre post : List Nat) (i : Nat) (e : Error F)
    (hseq : ∀ level ∈ cs.Levels, level.length ≤ 50)
    (hsplit : cs.Levels.flatten = pre ++ i :: post)
    (hpre : solveTask cs pre st = .ok st1)
    (hi : solveAt cs i st1 = .err e st2) :
    parallelSolve cs numCPU st = .err (.unsatisfiedConstraint i e) st2 := by
  unfold parallelSolve
  rw [solveLevels_sequential cs numCPU cs.Levels hseq, hsplit, solveTask_append, hpre]
  simp only [solveTask, hi]

theorem parallelSolve_first_error_witness :
    parallelSolve assertCS 4 ⟨assertSeed, [0, 0], [0, 0], [0, 0]⟩ =
      .err (.unsatisfiedConstraint 1 (.notEqual 3 4 11))
        ⟨⟨[1, 3, 4, 11, 3], [true, true, true, true, true], 5⟩, [3, 3], [1, 4], [3, 11]⟩ :=
  parallelSolve_first_error assertCS 4 ⟨assertSeed, [0, 0], [0, 0], [0, 0]⟩
    ⟨⟨[1, 3, 4, 11, 3], [true, true, true, true, true], 5⟩, [3, 0], [1, 0], [3, 0]⟩
    ⟨⟨[1, 3, 4, 11, 3], [true, true, true, true, true], 5⟩, [3, 3], [1, 4], [3, 11]⟩
    [0] [] 1 (.notEqual 3 4 11) (by decide) (by decide) (by decide) (by decide)

/-- C9, amended: when the function of a hint invoked while resolving a
constraint returns an error `e`, the walk of that constraint returns `e` itself;
the loop of `parallelSolve` wraps the error of the resolution of constraint `i`
in an `UnsatisfiedConstraintError` with `CID = i` and `Err = e`; and every error
that `Solve` returns after the size checks is such a wrapper, never `e` itself. -/
theorem hint_error_wrapped (cs : R1CS F) :
    (∀ (lv : Nat) (t : Term) (w : Walk F) (hint : Hint F) (ins : List F) (e : String),
      w.solution.solved[t.WireID]? = some false →
      cs.MHints t.WireID = some hint →
      gatherInputs w.solution hint.Inputs = .ok ins →
      hint.fn ins = .error e →
      processTerm cs lv t w = .err (.hintFailed e) w) ∧
    (∀ (i : Nat) (l : List Nat) (st st' : Run F) (e : String),
      solveAt cs i st = .err (.hintFailed e) st' →
      solveTask cs (i :: l) st = .err (.unsatisfiedConstraint i (.hintFailed e)) st') ∧
    (∀ (numCPU : Nat) (witness a b c : List F) (out : Output F) (x : Error F),
      (witness.length : Int) =
        (cs.NbPublicVariables : Int) - 1 + (cs.NbSecretVariables : Int) →
      (a.length = cs.Constraints.length + GetConstraintsAll cs.LazyCons ∧
        b.length = cs.Constraints.length + GetConstraintsAll cs.LazyCons ∧
        c.length = cs.Constraints.length + GetConstraintsAll cs.LazyCons) →
      Solve cs numCPU witness a b c = .ok out →
      out.err = some x →
      (∀ e, x ≠ .hintFailed e) ∧
      ∃ i e0 st0 st1, x = .unsatisfiedConstraint i e0 ∧ i ∈ cs.Levels.flatten ∧
        solveAt cs i st0 = .err e0 st1 ∧ Error.IsCause cs e0) := by
  refine ⟨?_, ?_, ?_⟩
  · intro lv t w hint ins e hs hh hg hf
    unfold processTerm
    simp only [hs, hh]
    unfold solveWithHint
    simp only [hg, hf]
  · intro i l st st' e h
    simp only [solveTask, h]
  · intro numCPU witness a b c out x hw hn h hx
    obtain ⟨s0, st, hc, -⟩ := Solve_returns cs numCPU witness a b c out h hw hn
    rcases hc with ⟨-, he⟩ | ⟨y, hy, he⟩
    · rw [he] at hx
      cases hx
    · rw [he] at hx
      cases hx
      obtain ⟨i, e0, st0, st1, rfl, hi, hs⟩ := solveLevels_err cs numCPU cs.Levels _ _ _ hy
      exact ⟨fun e h => (by cases h), i, e0, st0, st1, rfl, hi, hs, solveAt_err cs i st0 st1 e0 hs⟩

theorem hint_error_wrapped_witness :
    solveTask hintFailCS [0] ⟨⟨[1, 5, 0], [true, true, false], 2⟩, [0], [0], [0]⟩ =
      .err (.unsatisfiedConstraint 0 (.hintFailed "hint failed"))
        ⟨⟨[1, 5, 0], [true, true, false], 2⟩, [0], [0], [0]⟩ :=
  (hint_error_wrapped hintFailCS).2.1 0 []
    ⟨⟨[1, 5, 0], [true, true, false], 2⟩, [0], [0], [0]⟩
    ⟨⟨[1, 5, 0], [true, true, false], 2⟩, [0], [0], [0]⟩ "hint failed" (by decide)

/-- C9 as stated fails: for a constraint that refers to the wire of a hint
whose function returns the error "hint failed", the error that `Solve` returns
is not that error but the `UnsatisfiedConstraintError` with `CID = 0` that
wraps it. -/
theorem hint_error_not_verbatim :
    Solve hintFailCS 1 [5] [0] [0] [0] =
      .ok ⟨[1, 5, 0], some (.unsatisfiedConstraint 0 (.hintFailed "hint failed")),
        [0], [0], [0]⟩ ∧
    (Error.unsatisfiedConstraint 0 (.hintFailed "hint failed") : Error (ZMod 13)) ≠
      .hintFailed "hint failed" := by
  decide

theorem accumulateInto_error (coefficients : List F) (s : Solution F) (t : Term) (r : F)
    (p : Panic) (h : accumulateInto coefficients s t r = .error p) :
    p = .indexOutOfRange := by
  unfold accumulateInto at h
  split at h
  · cases h
  · cases h; rfl

theorem gatherInputs_error (s : Solution F) (ws : List Nat) (p : Panic)
    (h : gatherInputs s ws = .error p) : p ≠ .moreThanOneWire := by
  induction ws with
  | nil => simp only [gatherInputs] at h; cases h
  | cons w ws ih =>
    simp only [gatherInputs] at h
    split at h
    · split at h
      · cases h
      · rename_i p' hp
        cases h
        exact ih hp
    · cases h; decide
    · cases h; decide

theorem Solution.set_error (s : Solution F) (id : Nat) (v : F) (p : Panic)
    (h : s.set id v = .error p) : p ≠ .moreThanOneWire := by
  unfold Solution.set at h
  split at h
  · cases h; decide
  · cases h; decide
  · split at h
    · cases h
    · cases h; decide

theorem setAll_error (ws : List Nat) :
    ∀ (s : Solution F) (outs : List F) (p : Panic), setAll s ws outs = .error p →
      p ≠ .moreThanOneWire := by
  induction ws with
  | nil => intro s outs p h; simp only [setAll] at h; cases h
  | cons w ws ih =>
    intro s outs p h
    simp only [setAll] at h
    split at h
    · rename_i p' hp
      cases h
      exact Solution.set_error s w _ _ hp
    · exact ih _ _ _ h

theorem solveWithHint_abort (s : Solution F) (vID : Nat) (h : Hint F) (p : Panic)
    (hr : solveWithHint s vID h = .abort p) : p ≠ .moreThanOneWire := by
  unfold solveWithHint at hr
  split at hr
  · rename_i p' hp
    cases hr
    exact gatherInputs_error s _ _ hp
  · split at hr
    · cases hr
    · split at hr
      · rename_i p' hp
        cases hr
        exact setAll_error _ _ _ _ hp
      · cases hr

theorem processTerm_abort_iff (cs : R1CS F) (lv : Nat) (t : Term) (w : Walk F) :
    processTerm cs lv t w = .abort .moreThanOneWire ↔
      (w.loc ≠ 0 ∧ unknownAt cs w.solution t = true) := by
  unfold processTerm unknownAt
  simp only
  cases hs : w.solution.solved[t.WireID]? with
  | none => simp
  | some b =>
    cases b with
    | true =>
      simp only
      cases ha : accumulateInto cs.Coefficients w.solution t w.val with
      | error p =>
        have := accumulateInto_error _ _ _ _ _ ha
        subst this
        simp
      | ok v => simp
    | false =>
      simp only
      cases hh : cs.MHints t.WireID with
      | some hint =>
        simp only
        cases hw : solveWithHint w.solution t.WireID hint with
        | abort p =>
          have := solveWithHint_abort _ _ _ _ hw
          simp only [Res.abort.injEq]
          constructor
          · intro hp; exact absurd hp this
          · intro hp; simp at hp
        | err e s => simp
        | ok s =>
          simp only
          cases ha : accumulateInto cs.Coefficients s t w.val with
          | error p =>
            have := accumulateInto_error _ _ _ _ _ ha
            subst this
            simp
          | ok v => simp
      | none =>
        simp only
        by_cases hl : w.loc = 0
        · simp [hl]
        · simp [hl]

theorem processLExp_append (cs : R1CS F) (lv : Nat) (l1 l2 : LinearExpression) :
    ∀ w : Walk F, processLExp cs lv (l1 ++ l2) w =
      match processLExp cs lv l1 w with
      | .ok w' => processLExp cs lv l2 w'
      | .err e w' => .err e w'
      | .abort p => .abort p := by
  induction l1 with
  | nil => intro w; simp [processLExp]
  | cons t l1 ih =>
    intro w
    simp only [List.cons_append, processLExp]
    cases processTerm cs lv t w with
    | ok w' => exact ih w'
    | err e w' => rfl
    | abort p => rfl

theorem processLExp_abort_iff (cs : R1CS F) (lv : Nat) (l : LinearExpression) :
    ∀ w : Walk F, processLExp cs lv l w = .abort .moreThanOneWire ↔
      MeetsSecondUnknown cs lv l w := by
  induction l with
  | nil =>
    intro w
    simp only [processLExp, MeetsSecondUnknown]
    constructor
    · intro h; cases h
    · rintro ⟨l1, t, l2, w', hl, -⟩
      simp at hl
  | cons t l ih =>
    intro w
    constructor
    · intro h
      simp only [processLExp] at h
      cases h1 : processTerm cs lv t w with
      | ok w1 =>
        rw [h1] at h
        obtain ⟨l1, t', l2, w', hl, hp, hc⟩ := (ih w1).mp h
        refine ⟨t :: l1, t', l2, w', by rw [hl]; rfl, ?_, hc⟩
        simp only [processLExp, h1]
        exact hp
      | err e w1 => rw [h1] at h; cases h
      | abort p =>
        rw [h1] at h
        cases h
        exact ⟨[], t, l, w, rfl, rfl, (processTerm_abort_iff cs lv t w).mp h1⟩
    · rintro ⟨l1, t', l2, w', hl, hp, hc⟩
      rw [hl, processLExp_append, hp]
      simp only [processLExp, (processTerm_abort_iff cs lv t' w').mpr hc]

theorem divByCoeff_error (cs : R1CS F) (wire : F) (t : Term) (p : Panic)
    (h : divByCoeff cs wire t = .error p) : p ≠ .moreThanOneWire := by
  unfold divByCoeff at h
  split at h
  · cases h
  · split at h
    · cases h
    · split at h
      · cases h; decide
      · split at h
        · cases h; decide
        · cases h

theorem computeWire_abort (loc : Nat) (st : Frame F) (p : Panic)
    (h : computeWire loc st = .abort p) : False := by
  unfold computeWire at h
  split at h
  · split at h
    · cases h
    · split at h <;> cases h
  · split at h
    · split at h
      · cases h
      · split at h <;> cases h
    · split at h <;> cases h

theorem instantiate_abort (cs : R1CS F) (loc : Nat) (t : Term) (st : Frame F) (p : Panic)
    (h : instantiate cs loc t st = .abort p) : p ≠ .moreThanOneWire := by
  unfold instantiate at h
  split at h
  · split at h <;> cases h
  · simp only at h
    split at h
    · rename_i p' hc
      exact (computeWire_abort loc st p' hc).elim
    · cases h
    · split at h
      · rename_i p' hp
        cases h
        exact divByCoeff_error cs _ _ _ hp
      · split at h
        · rename_i p' hp
          cases h
          exact Solution.set_error _ _ _ _ hp
        · cases h

theorem solveR1C_abort_iff (cs : R1CS F) (r : R1C) (st : Frame F) :
    solveR1C cs r st = .abort .moreThanOneWire ↔
      MeetsSecondUnknown cs 1 r.L ⟨st.solution, st.a, 0, default⟩ ∨
      ∃ w1, processLExp cs 1 r.L ⟨st.solution, st.a, 0, default⟩ = .ok w1 ∧
        (MeetsSecondUnknown cs 2 r.R ⟨w1.solution, st.b, w1.loc, w1.termToCompute⟩ ∨
          ∃ w2, processLExp cs 2 r.R ⟨w1.solution, st.b, w1.loc, w1.termToCompute⟩ = .ok w2 ∧
            MeetsSecondUnknown cs 3 r.O ⟨w2.solution, st.c, w2.loc, w2.termToCompute⟩) := by
  simp only [← processLExp_abort_iff]
  unfold solveR1C walkR1C
  cases h1 : processLExp cs 1 r.L ⟨st.solution, st.a, 0, default⟩ with
  | abort p => simp
  | err e w => simp
  | ok w1 =>
    simp only [Res.ok.injEq, exists_eq_left', false_or]
    cases h2 : processLExp cs 2 r.R ⟨w1.solution, st.b, w1.loc, w1.termToCompute⟩ with
    | abort p => simp
    | err e w => simp
    | ok w2 =>
      simp only [Res.ok.injEq, exists_eq_left', false_or]
      cases h3 : processLExp cs 3 r.O ⟨w2.solution, st.c, w2.loc, w2.termToCompute⟩ with
      | abort p => simp
      | err e w => simp
      | ok w3 =>
        simp only
        constructor
        · intro h
          exact absurd rfl (instantiate_abort cs _ _ _ _ h)
        · intro h
          rcases h with h | h | h <;> cases h

theorem processLExp_loc_count (cs : R1CS F) (lv : Nat) (hlv : lv ≠ 0) (l : LinearExpression)
    (s0 : Solution F) (w w' : Walk F) (h : processLExp cs lv l w = .ok w')
    (e0 : s0.Extends w.solution) (hl : w'.loc ≠ 0) :
    w.loc ≠ 0 ∨ 1 ≤ l.countP (unknownAt cs s0) := by
  obtain ⟨-, k, -, -, c⟩ := processLExp_known cs lv hlv l w w' h
  rcases c with ⟨a1, -⟩ | ⟨-, -, l1, l2, a3, -, a5⟩
  · left; rw [← a1]; exact hl
  · right
    rw [a3, List.countP_append, List.countP_cons, unknownAt_of_extends cs e0 _ a5]
    simp only [if_true]
    omega

theorem meetsSecondUnknown_count (cs : R1CS F) (lv : Nat) (hlv : lv ≠ 0)
    (l : LinearExpression) (s0 : Solution F) (w0 : Walk F)
    (h : MeetsSecondUnknown cs lv l w0) (e0 : s0.Extends w0.solution) :
    (w0.loc ≠ 0 ∧ 1 ≤ l.countP (unknownAt cs s0)) ∨ 2 ≤ l.countP (unknownAt cs s0) := by
  obtain ⟨l1, t, l2, w, hl, hp, hloc, hu⟩ := h
  obtain ⟨e1, -⟩ := processLExp_known cs lv hlv l1 w0 w hp
  have hu0 := unknownAt_of_extends cs (e0.trans e1) _ hu
  have hc : l.countP (unknownAt cs s0) =
      l1.countP (unknownAt cs s0) + (l2.countP (unknownAt cs s0) + 1) := by
    rw [hl, List.countP_append, List.countP_cons, hu0]
    simp only [if_true]
  rcases processLExp_loc_count cs lv hlv l1 s0 w0 w hp e0 hloc with h0 | h1
  · left; exact ⟨h0, by omega⟩
  · right; omega

/-- C10: walking `L`, then `R`, then `O`, `solveConstraint` panics with "found
more than one wire to instantiate" exactly when it meets a second term whose
wire is unsolved and has no registered hint at the moment it is met (a second
occurrence of the same unknown wire included); when at most one term of the
constraint refers to such a wire it never takes that abort. -/
theorem solveConstraint_second_unknown (cs : R1CS F) (i : Nat) (r : R1C) (st : Frame F)
    (hr : cs.Constraints[i]? = some r) :
    (solveConstraint cs i st = .abort .moreThanOneWire ↔
      MeetsSecondUnknown cs 1 r.L ⟨st.solution, st.a, 0, default⟩ ∨
      ∃ w1, processLExp cs 1 r.L ⟨st.solution, st.a, 0, default⟩ = .ok w1 ∧
        (MeetsSecondUnknown cs 2 r.R ⟨w1.solution, st.b, w1.loc, w1.termToCompute⟩ ∨
          ∃ w2, processLExp cs 2 r.R ⟨w1.solution, st.b, w1.loc, w1.termToCompute⟩ = .ok w2 ∧
            MeetsSecondUnknown cs 3 r.O ⟨w2.solution, st.c, w2.loc, w2.termToCompute⟩)) ∧
    ((r.L ++ r.R ++ r.O).countP (unknownAt cs st.solution) ≤ 1 →
      solveConstraint cs i st ≠ .abort .moreThanOneWire) := by
  have hsc : solveConstraint cs i st = solveR1C cs r st := by
    unfold solveConstraint
    rw [hr]
  rw [hsc]
  refine ⟨solveR1C_abort_iff cs r st, ?_⟩
  intro hcount habort
  rw [List.countP_append, List.countP_append] at hcount
  rcases (solveR1C_abort_iff cs r st).mp habort with hL | ⟨w1, h1, hR | ⟨w2, h2, hO⟩⟩
  · rcases meetsSecondUnknown_count cs 1 (by decide) r.L st.solution _ hL
      (Solution.Extends.refl _) with ⟨h0, -⟩ | h2
    · exact h0 rfl
    · omega
  · obtain ⟨e1, -⟩ := processLExp_known cs 1 (by decide) r.L _ w1 h1
    rcases meetsSecondUnknown_count cs 2 (by decide) r.R st.solution _ hR e1 with ⟨h0, hc⟩ | h2
    · rcases processLExp_loc_count cs 1 (by decide) r.L st.solution _ w1 h1
        (Solution.Extends.refl _) h0 with h00 | hcl
      · exact h00 rfl
      · omega
    · omega
  · obtain ⟨e1, -⟩ := processLExp_known cs 1 (by decide) r.L _ w1 h1
    obtain ⟨e2, -⟩ := processLExp_known cs 2 (by decide) r.R _ w2 h2
    simp only at e1 e2
    rcases meetsSecondUnknown_count cs 3 (by decide) r.O st.solution _ hO (e1.trans e2)
      with ⟨h0, hc⟩ | h2'
    · rcases processLExp_loc_count cs 2 (by decide) r.R st.solution _ w2 h2 e1 h0 with h00 | hcr
      · rcases processLExp_loc_count cs 1 (by decide) r.L st.solution _ w1 h1
          (Solution.Extends.refl _) h00 with h000 | hcl
        · exact h000 rfl
        · omega
      · omega
    · omega

theorem solveConstraint_second_unknown_witness :
    solveConstraint twiceCS 0 ⟨⟨[1, 5, 0], [true, true, false], 2⟩, 0, 0, 0⟩ =
      .abort .moreThanOneWire :=
  (solveConstraint_second_unknown twiceCS 0 ⟨[⟨1, 2⟩], [⟨1, 2⟩], [⟨1, 1⟩]⟩
    ⟨⟨[1, 5, 0], [true, true, false], 2⟩, 0, 0, 0⟩ (by decide)).1.mpr
    (Or.inr ⟨⟨⟨[1, 5, 0], [true, true, false], 2⟩, 0, 1, ⟨1, 2⟩⟩, by decide,
      Or.inl ⟨[], ⟨1, 2⟩, [], ⟨⟨[1, 5, 0], [true, true, false], 2⟩, 0, 1, ⟨1, 2⟩⟩,
        rfl, by decide, by decide, by decide⟩⟩)

/-- C11: `divByCoeff(res, t)` leaves `res` unchanged when `t` carries the reserved
coefficient id for 1, replaces it by its negation when `t` carries the reserved
id for -1, panics with "division by 0" when `t` carries the reserved id for 0,
and otherwise replaces `res` by `res` divided by `Coefficients[t.CoeffID()]`. -/
theorem divByCoeff_cases (cs : R1CS F) (res : F) (t : Term) :
    (t.CoeffID = CoeffIdOne → divByCoeff cs res t = .ok res) ∧
    (t.CoeffID = CoeffIdMinusOne → divByCoeff cs res t = .ok (-res)) ∧
    (t.CoeffID = CoeffIdZero → divByCoeff cs res t = .error .divisionByZero) ∧
    (t.CoeffID ≠ CoeffIdOne → t.CoeffID ≠ CoeffIdMinusOne → t.CoeffID ≠ CoeffIdZero →
      ∀ k, cs.Coefficients[t.CoeffID]? = some k → divByCoeff cs res t = .ok (res / k)) := by
  refine ⟨?_, ?_, ?_, ?_⟩
  · intro h
    simp [divByCoeff, h]
  · intro h
    simp [divByCoeff, h, CoeffIdOne, CoeffIdMinusOne]
  · intro h
    simp [divByCoeff, h, CoeffIdOne, CoeffIdMinusOne, CoeffIdZero]
  · intro h1 h2 h0 k hk
    simp [divByCoeff, h1, h2, h0, hk]

theorem divByCoeff_cases_witness :
    divByCoeff zeroCoeffCS (7 : ZMod 13) ⟨2, 1⟩ = .ok (-7) :=
  (divByCoeff_cases zeroCoeffCS 7 ⟨2, 1⟩).2.1 (by decide)

/-- C12, the code at the failing input: for a term whose id 4 is not reserved
(it differs from the ids of 0, 1 and -1) and whose entry in the coefficient
table is zero, `divByCoeff` does not panic: it returns 0, and the coefficient
times the returned value is not the input value 7. -/
theorem divByCoeff_zero_table_entry :
    (4 ≠ CoeffIdZero ∧ 4 ≠ CoeffIdOne ∧ 4 ≠ CoeffIdMinusOne) ∧
    coeff zeroEntryCS.Coefficients ⟨4, 2⟩ = some 0 ∧
    divByCoeff zeroEntryCS (7 : ZMod 13) ⟨4, 2⟩ = .ok 0 ∧
    (0 : ZMod 13) * 0 ≠ 7 := by
  decide!

/-- Past the two size checks, `Solve` seeds the fresh solution, runs
`parallelSolve` and makes the terminal check. -/
theorem Solve_run (cs : R1CS F) (numCPU : Nat) (witness a b c : List F)
    (hw : (witness.length : Int) =
      (cs.NbPublicVariables : Int) - 1 + (cs.NbSecretVariables : Int))
    (hn : a.length = cs.Constraints.length + GetConstraintsAll cs.LazyCons ∧
      b.length = cs.Constraints.length + GetConstraintsAll cs.LazyCons ∧
      c.length = cs.Constraints.length + GetConstraintsAll cs.LazyCons) :
    Solve cs numCPU witness a b c =
      match seed (newSolution (F := F)
          (cs.NbPublicVariables + cs.NbSecretVariables + cs.NbInternalVariables)).1 witness with
      | .error p => .error p
      | .ok s0 =>
        match parallelSolve cs numCPU ⟨s0, a, b, c⟩ with
        | .abort p => .error p
        | .err err st => .ok ⟨st.solution.values, some err, st.a, st.b, st.c⟩
        | .ok st =>
          if !st.solution.isValid then .error .notAllWiresInstantiated
          else .ok ⟨st.solution.values, none, st.a, st.b, st.c⟩ := by
  unfold Solve seed
  simp only [newSolution]
  rw [if_neg (not_not.mpr hw)]
  rw [if_neg (by simp [hn.1, hn.2.1, hn.2.2])]
  cases hv : List.replicate
      (cs.NbPublicVariables + cs.NbSecretVariables + cs.NbInternalVariables) (0 : F) with
  | nil => rfl
  | cons v vs =>
    cases hs : List.replicate
        (cs.NbPublicVariables + cs.NbSecretVariables + cs.NbInternalVariables) false with
    | nil => rfl
    | cons b sv =>
      simp only
      cases markSolved (true :: sv) witness.length with
      | error p => rfl
      | ok solved => rfl

theorem Solve_size_ok (cs : R1CS F) (numCPU : Nat) (witness a b c : List F) (out : Output F)
    (h : Solve cs numCPU witness a b c = .ok out) (hnil : out.err = none) :
    (witness.length : Int) =
      (cs.NbPublicVariables : Int) - 1 + (cs.NbSecretVariables : Int) ∧
    (a.length = cs.Constraints.length + GetConstraintsAll cs.LazyCons ∧
      b.length = cs.Constraints.length + GetConstraintsAll cs.LazyCons ∧
      c.length = cs.Constraints.length + GetConstraintsAll cs.LazyCons) := by
  by_cases hw : (witness.length : Int) =
      (cs.NbPublicVariables : Int) - 1 + (cs.NbSecretVariables : Int)
  · refine ⟨hw, ?_⟩
    by_contra hn
    have hn' : a.length ≠ cs.Constraints.length + GetConstraintsAll cs.LazyCons ∨
        b.length ≠ cs.Constraints.length + GetConstraintsAll cs.LazyCons ∨
        c.length ≠ cs.Constraints.length + GetConstraintsAll cs.LazyCons := by
      by_contra hx
      push_neg at hx
      exact hn hx
    unfold Solve at h
    simp only [newSolution] at h
    rw [if_neg (not_not.mpr hw), if_pos hn'] at h
    cases h
    simp at hnil
  · unfold Solve at h
    simp only [newSolution] at h
    rw [if_pos hw] at h
    cases h
    simp at hnil

theorem Solution.Step.stay (s : Solution F) : s.Step s :=
  ⟨Solution.Extends.refl s, rfl, rfl⟩

theorem Solution.Step.andThen {s1 s2 s3 : Solution F} (h12 : s1.Step s2) (h23 : s2.Step s3) :
    s1.Step s3 :=
  ⟨h12.extends_.trans h23.extends_, h23.values_length.trans h12.values_length, by
    have := h12.counter
    have := h23.counter
    omega⟩

theorem Solution.set_step (s s' : Solution F) (id : Nat) (v : F) (h : s.set id v = .ok s') :
    s.Step s' := by
  refine ⟨(Solution.set_extends s s' id v h).1, ?_, ?_⟩
  · obtain ⟨-, -, rfl⟩ := Solution.set_ok s s' id v h
    simp
  · obtain ⟨h1, -, rfl⟩ := Solution.set_ok s s' id v h
    obtain ⟨hid, hget⟩ := List.getElem?_eq_some.mp h1
    simp only
    rw [List.count_set _ _ _ _ hid, hget]
    simp
    omega

theorem setAll_step (ws : List Nat) :
    ∀ (s s' : Solution F) (outs : List F), setAll s ws outs = .ok s' → s.Step s' := by
  induction ws with
  | nil =>
    intro s s' outs h
    simp only [setAll, Except.ok.injEq] at h
    subst h
    exact Solution.Step.stay s
  | cons w ws ih =>
    intro s s' outs h
    simp only [setAll] at h
    split at h
    · cases h
    · rename_i s1 h1
      exact (Solution.set_step s s1 w _ h1).andThen (ih s1 s' _ h)

theorem solveWithHint_step (s : Solution F) (vID : Nat) (h : Hint F) :
    (solveWithHint s vID h).Holds (fun s' => s.Step s') := by
  unfold solveWithHint
  split
  · exact trivial
  · split
    · exact Solution.Step.stay s
    · split
      · exact trivial
      · rename_i s' hs
        exact setAll_step _ s s' _ hs

theorem processTerm_step (cs : R1CS F) (lv : Nat) (t : Term) (w : Walk F) :
    (processTerm cs lv t w).Holds (fun w' => w.solution.Step w'.solution) := by
  unfold processTerm
  simp only
  split
  · exact trivial
  · split
    · exact trivial
    · exact Solution.Step.stay _
  · split
    · rename_i hint _
      have hh := solveWithHint_step w.solution t.WireID hint
      split
      · exact trivial
      · rename_i e s hs
        rw [hs] at hh
        exact hh
      · rename_i s hs
        rw [hs] at hh
        split
        · exact trivial
        · exact hh
    · split
      · exact trivial
      · exact Solution.Step.stay _

theorem processLExp_step (cs : R1CS F) (lv : Nat) (l : LinearExpression) :
    ∀ w : Walk F, (processLExp cs lv l w).Holds (fun w' => w.solution.Step w'.solution) := by
  induction l with
  | nil => intro w; exact Solution.Step.stay _
  | cons t l ih =>
    intro w
    simp only [processLExp]
    have h1 := processTerm_step cs lv t w
    cases hp : processTerm cs lv t w with
    | abort p => exact trivial
    | err e w1 => rw [hp] at h1; exact h1
    | ok w1 =>
      rw [hp] at h1
      have h2 := ih w1
      simp only
      cases hq : processLExp cs lv l w1 with
      | abort p => exact trivial
      | err e w2 => rw [hq] at h2; exact Solution.Step.andThen h1 h2
      | ok w2 => rw [hq] at h2; exact Solution.Step.andThen h1 h2

theorem lazyLoop_step (cs : R1CS F) (shiftI : Int) (lv : Nat) (l : LinearExpression) :
    ∀ w : Walk F, (lazyLoop cs shiftI lv l w).Holds (fun w' => w.solution.Step w'.solution) := by
  induction l with
  | nil => intro w; exact Solution.Step.stay _
  | cons t l ih =>
    intro w
    simp only [lazyLoop]
    split
    · exact trivial
    · have h1 := processTerm_step cs lv
        { t with WireID := (shiftedWireID shiftI t).toNat } w
      cases hp : processTerm cs lv { t with WireID := (shiftedWireID shiftI t).toNat } w with
      | abort p => exact trivial
      | err e w1 => rw [hp] at h1; exact h1
      | ok w1 =>
        rw [hp] at h1
        have h2 := ih w1
        simp only
        cases hq : lazyLoop cs shiftI lv l w1 with
        | abort p => exact trivial
        | err e w2 => rw [hq] at h2; exact Solution.Step.andThen h1 h2
        | ok w2 => rw [hq] at h2; exact Solution.Step.andThen h1 h2

theorem walkR1C_step (cs : R1CS F) (r : R1C) (st : Frame F) :
    (walkR1C cs r st).Holds (fun y => st.solution.Step y.1.solution) := by
  unfold walkR1C
  have h1 := processLExp_step cs 1 r.L ⟨st.solution, st.a, 0, default⟩
  cases hp1 : processLExp cs 1 r.L ⟨st.solution, st.a, 0, default⟩ with
  | abort p => exact trivial
  | err e w => rw [hp1] at h1; exact h1
  | ok w1 =>
    rw [hp1] at h1
    simp only
    have h2 := processLExp_step cs 2 r.R ⟨w1.solution, st.b, w1.loc, w1.termToCompute⟩
    cases hp2 : processLExp cs 2 r.R ⟨w1.solution, st.b, w1.loc, w1.termToCompute⟩ with
    | abort p => exact trivial
    | err e w => rw [hp2] at h2; exact Solution.Step.andThen h1 h2
    | ok w2 =>
      rw [hp2] at h2
      simp only
      have h3 := processLExp_step cs 3 r.O ⟨w2.solution, st.c, w2.loc, w2.termToCompute⟩
      cases hp3 : processLExp cs 3 r.O ⟨w2.solution, st.c, w2.loc, w2.termToCompute⟩ with
      | abort p => exact trivial
      | err e w => rw [hp3] at h3; exact (Solution.Step.andThen h1 h2).andThen h3
      | ok w3 => rw [hp3] at h3; exact (Solution.Step.andThen h1 h2).andThen h3

theorem walkLazy_step (cs : R1CS F) (li : LazyInputs) (j : Nat) (shift : Int) (r : R1C)
    (st : Frame F) :
    (walkLazy cs li j shift r st).Holds (fun y => st.solution.Step y.1.solution) := by
  unfold walkLazy processLExpLazy
  have h1 := lazyLoop_step cs (if li.IsInput j 1 then 0 else shift) 1 r.L
    ⟨st.solution, st.a, 0, default⟩
  cases hp1 : lazyLoop cs (if li.IsInput j 1 then 0 else shift) 1 r.L
      ⟨st.solution, st.a, 0, default⟩ with
  | abort p => exact trivial
  | err e w => rw [hp1] at h1; exact h1
  | ok w1 =>
    rw [hp1] at h1
    simp only
    have h2 := lazyLoop_step cs (if li.IsInput j 2 then 0 else shift) 2 r.R
      ⟨w1.solution, st.b, w1.loc, w1.termToCompute⟩
    cases hp2 : lazyLoop cs (if li.IsInput j 2 then 0 else shift) 2 r.R
        ⟨w1.solution, st.b, w1.loc, w1.termToCompute⟩ with
    | abort p => exact trivial
    | err e w => rw [hp2] at h2; exact Solution.Step.andThen h1 h2
    | ok w2 =>
      rw [hp2] at h2
      simp only
      have h3 := lazyLoop_step cs (if li.IsInput j 3 then 0 else shift) 3 r.O
        ⟨w2.solution, st.c, w2.loc, w2.termToCompute⟩
      cases hp3 : lazyLoop cs (if li.IsInput j 3 then 0 else shift) 3 r.O
          ⟨w2.solution, st.c, w2.loc, w2.termToCompute⟩ with
      | abort p => exact trivial
      | err e w => rw [hp3] at h3; exact (Solution.Step.andThen h1 h2).andThen h3
      | ok w3 => rw [hp3] at h3; exact (Solution.Step.andThen h1 h2).andThen h3

theorem computeWire_solution (loc : Nat) (st : Frame F) :
    (computeWire loc st).Holds (fun y => y.1.solution = st.solution) := by
  unfold computeWire
  split
  · split
    · exact rfl
    · split <;> exact rfl
  · split
    · split
      · exact rfl
      · split <;> exact rfl
    · split <;> exact rfl

theorem instantiate_step (cs : R1CS F) (loc : Nat) (t : Term) (st : Frame F) :
    (instantiate cs loc t st).Holds (fun st' => st.solution.Step st'.solution) := by
  unfold instantiate
  split
  · split <;> exact Solution.Step.stay _
  · simp only
    have hc := computeWire_solution loc st
    cases hcw : computeWire loc st with
    | abort p => exact trivial
    | err e y =>
      rw [hcw] at hc
      simp only [Res.Holds] at hc ⊢
      rw [hc]
      exact Solution.Step.stay _
    | ok y =>
      rw [hcw] at hc
      simp only [Res.Holds] at hc
      simp only
      split
      · exact trivial
      · split
        · exact trivial
        · rename_i s hs
          rw [hc] at hs
          exact Solution.set_step _ _ _ _ hs

theorem solveR1C_step (cs : R1CS F) (r : R1C) (st : Frame F) :
    (solveR1C cs r st).Holds (fun st' => st.solution.Step st'.solution) := by
  unfold solveR1C
  have h1 := walkR1C_step cs r st
  cases hw : walkR1C cs r st with
  | abort p => exact trivial
  | err e y => rw [hw] at h1; exact h1
  | ok y =>
    rw [hw] at h1
    obtain ⟨st1, loc, t⟩ := y
    simp only
    have h2 := instantiate_step cs loc t st1
    cases hi : instantiate cs loc t st1 with
    | abort p => exact trivial
    | err e st' => rw [hi] at h2; exact Solution.Step.andThen h1 h2
    | ok st' => rw [hi] at h2; exact Solution.Step.andThen h1 h2

theorem solveLazyConstraint_step (cs : R1CS F) (li : LazyInputs) (j : Nat) (shift : Int)
    (st : Frame F) :
    (solveLazyConstraint cs li j shift st).Holds
      (fun st' => st.solution.Step st'.solution) := by
  unfold solveLazyConstraint
  have h1 := walkLazy_step cs li j shift (li.FetchLazy j) st
  cases hw : walkLazy cs li j shift (li.FetchLazy j) st with
  | abort p => exact trivial
  | err e y => rw [hw] at h1; exact h1
  | ok y =>
    rw [hw] at h1
    obtain ⟨st1, loc, t⟩ := y
    simp only
    have h2 := instantiate_step cs loc t st1
    cases hi : instantiate cs loc t st1 with
    | abort p => exact trivial
    | err e st' => rw [hi] at h2; exact Solution.Step.andThen h1 h2
    | ok st' => rw [hi] at h2; exact Solution.Step.andThen h1 h2

theorem solveConstraint_step (cs : R1CS F) (i : Nat) (st : Frame F) :
    (solveConstraint cs i st).Holds (fun st' => st.solution.Step st'.solution) := by
  unfold solveConstraint
  split
  · exact trivial
  · exact solveR1C_step cs _ st

theorem solveGeneralConstraint_step (cs : R1CS F) (idx : Nat) (st : Frame F) :
    (solveGeneralConstraint cs idx st).Holds
      (fun st' => st.solution.Step st'.solution) := by
  unfold solveGeneralConstraint
  simp only
  split
  · exact solveConstraint_step cs idx st
  · split
    · exact trivial
    · exact solveLazyConstraint_step cs _ _ _ st

theorem solveAt_step (cs : R1CS F) (i : Nat) (st : Run F) :
    (solveAt cs i st).Holds (fun st' => st.solution.Step st'.solution) := by
  unfold solveAt
  split
  · rename_i ai bi ci _ _ _
    have h := solveGeneralConstraint_step cs i ⟨st.solution, ai, bi, ci⟩
    cases hg : solveGeneralConstraint cs i ⟨st.solution, ai, bi, ci⟩ with
    | abort p => exact trivial
    | err e f => rw [hg] at h; exact h
    | ok f => rw [hg] at h; exact h
  · exact trivial

theorem solveTask_step (cs : R1CS F) (l : List Nat) :
    ∀ st : Run F, (solveTask cs l st).Holds (fun st' => st.solution.Step st'.solution) := by
  induction l with
  | nil => intro st; exact Solution.Step.stay _
  | cons i l ih =>
    intro st
    simp only [solveTask]
    have h1 := solveAt_step cs i st
    cases hp : solveAt cs i st with
    | abort p => exact trivial
    | err e st1 => rw [hp] at h1; exact h1
    | ok st1 =>
      rw [hp] at h1
      have h2 := ih st1
      simp only
      cases hq : solveTask cs l st1 with
      | abort p => exact trivial
      | err e st2 => rw [hq] at h2; exact Solution.Step.andThen h1 h2
      | ok st2 => rw [hq] at h2; exact Solution.Step.andThen h1 h2

theorem runTasks_step (cs : R1CS F) (ts : List (List Nat)) :
    ∀ st : Run F, (runTasks cs ts st).Holds (fun st' => st.solution.Step st'.solution) := by
  induction ts with
  | nil => intro st; exact Solution.Step.stay _
  | cons t ts ih =>
    intro st
    simp only [runTasks]
    have h1 := solveTask_step cs t st
    cases hp : solveTask cs t st with
    | abort p => exact trivial
    | err e st1 =>
      rw [hp] at h1
      have h2 := ih st1
      simp only
      cases hq : runTasks cs ts st1 with
      | abort p => exact trivial
      | err e2 st2 => rw [hq] at h2; exact Solution.Step.andThen h1 h2
      | ok st2 => rw [hq] at h2; exact Solution.Step.andThen h1 h2
    | ok st1 =>
      rw [hp] at h1
      have h2 := ih st1
      simp only
      cases hq : runTasks cs ts st1 with
      | abort p => exact trivial
      | err e2 st2 => rw [hq] at h2; exact Solution.Step.andThen h1 h2
      | ok st2 => rw [hq] at h2; exact Solution.Step.andThen h1 h2

theorem solveLevels_step (cs : R1CS F) (numCPU : Nat) (ls : List (List Nat)) :
    ∀ st : Run F,
      (solveLevels cs numCPU ls st).Holds (fun st' => st.solution.Step st'.solution) := by
  induction ls with
  | nil => intro st; exact Solution.Step.stay _
  | cons l ls ih =>
    intro st
    simp only [solveLevels]
    have h1 : (solveLevel cs numCPU l st).Holds
        (fun st' => st.solution.Step st'.solution) := by
      unfold solveLevel
      split
      · exact solveTask_step cs l st
      · split
        · exact trivial
        · exact runTasks_step cs _ st
    cases hp : solveLevel cs numCPU l st with
    | abort p => exact trivial
    | err e st1 => rw [hp] at h1; exact h1
    | ok st1 =>
      rw [hp] at h1
      have h2 := ih st1
      simp only
      cases hq : solveLevels cs numCPU ls st1 with
      | abort p => exact trivial
      | err e st2 => rw [hq] at h2; exact Solution.Step.andThen h1 h2
      | ok st2 => rw [hq] at h2; exact Solution.Step.andThen h1 h2

theorem markSolved_ok (sv : List Bool) :
    ∀ (k : Nat) (sv' : List Bool), markSolved sv k = .ok sv' →
      sv'.length = sv.length ∧ (k = 0 ∨ k < sv.length) ∧
      (∀ i, 1 ≤ i → i ≤ k → sv'[i]? = some true) ∧
      (∀ i, (i = 0 ∨ k < i) → sv'[i]? = sv[i]?) := by
  intro k
  induction k with
  | zero =>
    intro sv' h
    simp only [markSolved, Except.ok.injEq] at h
    subst h
    exact ⟨rfl, Or.inl rfl, fun i h1 h2 => by omega, fun _ _ => rfl⟩
  | succ n ih =>
    intro sv' h
    simp only [markSolved] at h
    split at h
    · cases h
    · rename_i sv1 h1
      obtain ⟨a1, a2, a3, a4⟩ := ih sv1 h1
      split at h
      · rename_i hlt
        cases h
        refine ⟨by simp [a1], Or.inr (by rw [← a1]; exact hlt), ?_, ?_⟩
        · intro i hi1 hi2
          by_cases hi : i = n + 1
          · subst hi
            simp [hlt]
          · rw [List.getElem?_set_ne (Ne.symm hi)]
            exact a3 i hi1 (by omega)
        · intro i hi
          have hne : n + 1 ≠ i := by omega
          rw [List.getElem?_set_ne hne]
          exact a4 i (by omega)
      · cases h

theorem markSolved_count (sv : List Bool)
    (hf : ∀ i, 1 ≤ i → i < sv.length → sv[i]? = some false) :
    ∀ (k : Nat) (sv' : List Bool), markSolved sv k = .ok sv' →
      sv'.count true = sv.count true + k := by
  intro k
  induction k with
  | zero =>
    intro sv' h
    simp only [markSolved, Except.ok.injEq] at h
    subst h
    rfl
  | succ n ih =>
    intro sv' h
    simp only [markSolved] at h
    split at h
    · cases h
    · rename_i sv1 h1
      obtain ⟨a1, -, -, a4⟩ := markSolved_ok sv n sv1 h1
      split at h
      · rename_i hlt
        cases h
        have hget : sv1[n + 1]? = some false := by
          rw [a4 (n + 1) (Or.inr (Nat.lt_succ_self n))]
          exact hf (n + 1) (by omega) (by rw [← a1]; exact hlt)
        obtain ⟨hid, hg⟩ := List.getElem?_eq_some.mp hget
        rw [List.count_set _ _ _ _ hid, hg, ih sv1 h1]
        simp
        omega
      · cases h

/-- The seeded solution: one, then the witness, in an array of `n` values, the
wires `0 .. len(witness)` being the ones marked solved. -/
theorem seed_fresh (n : Nat) (witness : List F) (s0 : Solution F)
    (h : seed (newSolution (F := F) n).1 witness = .ok s0) :
    (newSolution (F := F) n).1.Step s0 ∧ s0.values.length = n ∧ s0.solved.length = n ∧
    s0.values[0]? = some 1 ∧
    (∀ i, i < witness.length → s0.values[i + 1]? = witness[i]?) ∧
    (∀ i, i ≤ witness.length → s0.solved[i]? = some true) := by
  unfold seed at h
  simp only [newSolution] at h
  cases n with
  | zero => simp at h
  | succ m =>
    simp only [List.replicate_succ] at h
    split at h
    · cases h
    · rename_i solved hm
      cases h
      obtain ⟨a1, a2, a3, a4⟩ := markSolved_ok _ _ _ hm
      have hlen : witness.length ≤ m := by
        simp only [List.length_cons, List.length_replicate] at a2
        omega
      have hcount := markSolved_count (true :: List.replicate m false) (by
        intro i hi1 hi2
        cases i with
        | zero => omega
        | succ j =>
          simp only [List.length_cons, List.length_replicate] at hi2
          simp only [List.getElem?_cons_succ]
          rw [List.getElem?_replicate]
          simp
          omega) _ _ hm
      have hvlen : ((1 : F) :: copy (List.replicate m 0) witness).length = m + 1 := by
        simp [copy]
        omega
      have hslen : solved.length = m + 1 := by
        rw [a1]; simp
      have hzero : List.count true (List.replicate m false) = 0 := by
        rw [List.count_replicate]
        simp
      refine ⟨⟨⟨?_, ?_⟩, ?_, ?_⟩, hvlen, hslen, ?_, ?_, ?_⟩
      · show solved.length = (List.replicate (m + 1) false).length
        rw [hslen, List.length_replicate]
      · intro w hw
        exfalso
        have hw' : (List.replicate (m + 1) false)[w]? = some true := hw
        rw [List.getElem?_replicate] at hw'
        split at hw' <;> simp at hw'
      · show ((1 : F) :: copy (List.replicate m 0) witness).length =
          (List.replicate (m + 1) (0 : F)).length
        rw [hvlen, List.length_replicate]
      · show 0 + (witness.length + 1) + List.count true (List.replicate (m + 1) false) =
          0 + List.count true solved
        rw [hcount, List.replicate_succ, List.count_cons, List.count_cons, hzero]
        simp
        omega
      · show ((1 : F) :: copy (List.replicate m 0) witness)[0]? = some 1
        simp
      · intro i hi
        show ((1 : F) :: copy (List.replicate m 0) witness)[i + 1]? = witness[i]?
        simp only [List.getElem?_cons_succ, copy, List.length_replicate]
        rw [List.getElem?_append_left (by simp; omega)]
        rw [List.getElem?_take]
        simp
        omega
      · intro i hi
        show solved[i]? = some true
        cases i with
        | zero =>
          rw [a4 0 (Or.inl rfl)]
          simp
        | succ j => exact a3 (j + 1) (by omega) hi

theorem Res.Holds.imp {ε σ : Type} {P Q : σ → Prop} (hPQ : ∀ s, P s → Q s) :
    ∀ r : Res ε σ, r.Holds P → r.Holds Q
  | .ok s, h => hPQ s h
  | .err _ s, h => hPQ s h
  | .abort _, _ => trivial

theorem parallelSolve_step (cs : R1CS F) (numCPU : Nat) (st : Run F) :
    (parallelSolve cs numCPU st).Holds (fun st' => st.solution.Step st'.solution) :=
  solveLevels_step cs numCPU cs.Levels st

/-- A nil return of `Solve`: the fresh solution was seeded, `parallelSolve`
returned nil from it and the terminal check passed. -/
theorem Solve_nil_seeded (cs : R1CS F) (numCPU : Nat) (witness a b c : List F)
    (out : Output F) (h : Solve cs numCPU witness a b c = .ok out) (hnil : out.err = none) :
    ∃ (s0 : Solution F) (st : Run F),
      seed (newSolution (F := F)
        (cs.NbPublicVariables + cs.NbSecretVariables + cs.NbInternalVariables)).1 witness
          = .ok s0 ∧
      parallelSolve cs numCPU ⟨s0, a, b, c⟩ = .ok st ∧
      st.solution.isValid = true ∧
      out = ⟨st.solution.values, none, st.a, st.b, st.c⟩ := by
  obtain ⟨hw, hn⟩ := Solve_size_ok cs numCPU witness a b c out h hnil
  rw [Solve_run cs numCPU witness a b c hw hn] at h
  split at h
  · cases h
  · rename_i s0 hs
    split at h
    · cases h
    · cases h; simp at hnil
    · rename_i st hps
      split at h
      · cases h
      · rename_i hv
        cases h
        refine ⟨s0, st, hs, hps, ?_, rfl⟩
        simpa using hv

/-- C15: when `Solve` returns nil, the returned array has length
`NbPublicVariables + NbSecretVariables + NbInternalVariables`, its element 0 is
the field element 1 and its elements `1 .. len(witness)` are the supplied
witness in order; the internal wires follow. -/
theorem Solve_returned_array (cs : R1CS F) (numCPU : Nat) (witness a b c : List F)
    (out : Output F) (h : Solve cs numCPU witness a b c = .ok out) (hnil : out.err = none) :
    out.values.length =
      cs.NbPublicVariables + cs.NbSecretVariables + cs.NbInternalVariables ∧
    out.values[0]? = some 1 ∧
    ∀ i, i < witness.length → out.values[i + 1]? = witness[i]? := by
  obtain ⟨s0, st, hs, hps, -, rfl⟩ := Solve_nil_seeded cs numCPU witness a b c out h hnil
  obtain ⟨-, hlen, -, h0, hwit, hsol⟩ := seed_fresh _ witness s0 hs
  have hstep := parallelSolve_step cs numCPU ⟨s0, a, b, c⟩
  rw [hps] at hstep
  simp only [Res.Holds] at hstep
  refine ⟨by rw [hstep.values_length]; exact hlen, ?_, ?_⟩
  · show st.solution.values[0]? = some 1
    rw [(hstep.extends_.keeps 0 (hsol 0 (Nat.zero_le _))).2]
    exact h0
  · intro i hi
    show st.solution.values[i + 1]? = witness[i]?
    rw [(hstep.extends_.keeps (i + 1) (hsol (i + 1) hi)).2]
    exact hwit i hi

theorem Solve_returned_array_witness :
    exampleOutput.values.length = 3 + 0 + 2 ∧ exampleOutput.values[0]? = some 1 ∧
    exampleOutput.values[1 + 1]? = ([3, 4] : List (ZMod 13))[1]? :=
  have h := Solve_returned_array exampleCS 4 [3, 4] [0, 0] [0, 0] [0, 0] exampleOutput
    (by decide) rfl
  ⟨h.1, h.2.1, h.2.2 1 (by decide)⟩

theorem count_true_eq_length (l : List Bool) (h : l.count true = l.length) :
    ∀ i, i < l.length → l[i]? = some true := by
  intro i hi
  have hall := List.count_eq_length.mp h
  have hmem : l[i] ∈ l := List.getElem_mem hi
  rw [List.getElem?_eq_getElem hi, ← hall _ hmem]

/-- The counter of a seeded solution, and of every solution that `parallelSolve`
leaves from it, is the number of true entries of the solved bitmap, and the two
arrays have `n` entries. -/
theorem seeded_counter (cs : R1CS F) (numCPU : Nat) (n : Nat) (witness a b c : List F)
    (s0 : Solution F) (hs : seed (newSolution (F := F) n).1 witness = .ok s0) :
    s0.nbSolved = witness.length + 1 ∧ s0.nbSolved = s0.solved.count true ∧
    (parallelSolve cs numCPU ⟨s0, a, b, c⟩).Holds (fun st =>
      st.solution.nbSolved = st.solution.solved.count true ∧
      st.solution.values.length = n ∧ st.solution.solved.length = n) := by
  obtain ⟨hstep0, hlen, hslen, -⟩ := seed_fresh n witness s0 hs
  have hc0 : s0.nbSolved = s0.solved.count true := by
    have := hstep0.counter
    have hz : List.count true (newSolution (F := F) n).1.solved = 0 := by
      show List.count true (List.replicate n false) = 0
      rw [List.count_replicate]
      simp
    have hn0 : (newSolution (F := F) n).1.nbSolved = 0 := rfl
    omega
  have hnb : s0.nbSolved = witness.length + 1 := by
    unfold seed at hs
    split at hs
    · split at hs
      · cases hs
      · cases hs
        show (newSolution (F := F) n).1.nbSolved + (witness.length + 1) = witness.length + 1
        show 0 + (witness.length + 1) = witness.length + 1
        omega
    · cases hs
  refine ⟨hnb, hc0, ?_⟩
  apply Res.Holds.imp _ _ (parallelSolve_step cs numCPU ⟨s0, a, b, c⟩)
  intro st hst
  have h1 := hst.counter
  have h2 := hst.values_length
  have h3 := hst.extends_.length_eq
  simp only at h1 h2 h3
  exact ⟨by omega, by omega, by omega⟩

/-- C16: `Solve` returns a nil error only if every wire index in `[0, N)` is
marked solved at the end. The counter of solved wires, seeded with
`len(witness) + 1` and incremented at each newly solved wire, always equals the
number of true entries of the solved bitmap, and `Solve` panics instead of
returning when that count is not `N` after all levels finish. -/
theorem Solve_all_wires_solved (cs : R1CS F) (numCPU : Nat) (witness a b c : List F) :
    (∀ out, Solve cs numCPU witness a b c = .ok out → out.err = none →
      ∃ (s0 : Solution F) (st : Run F),
        seed (newSolution (F := F)
          (cs.NbPublicVariables + cs.NbSecretVariables + cs.NbInternalVariables)).1 witness
            = .ok s0 ∧
        parallelSolve cs numCPU ⟨s0, a, b, c⟩ = .ok st ∧
        out.values = st.solution.values ∧
        st.solution.solved.length =
          cs.NbPublicVariables + cs.NbSecretVariables + cs.NbInternalVariables ∧
        ∀ i, i < cs.NbPublicVariables + cs.NbSecretVariables + cs.NbInternalVariables →
          st.solution.solved[i]? = some true) ∧
    (∀ s0, seed (newSolution (F := F)
        (cs.NbPublicVariables + cs.NbSecretVariables + cs.NbInternalVariables)).1 witness
          = .ok s0 →
      s0.nbSolved = witness.length + 1 ∧ s0.nbSolved = s0.solved.count true ∧
      (parallelSolve cs numCPU ⟨s0, a, b, c⟩).Holds (fun st =>
        st.solution.nbSolved = st.solution.solved.count true)) ∧
    (∀ s0 st,
      (witness.length : Int) =
        (cs.NbPublicVariables : Int) - 1 + (cs.NbSecretVariables : Int) →
      (a.length = cs.Constraints.length + GetConstraintsAll cs.LazyCons ∧
        b.length = cs.Constraints.length + GetConstraintsAll cs.LazyCons ∧
        c.length = cs.Constraints.length + GetConstraintsAll cs.LazyCons) →
      seed (newSolution (F := F)
        (cs.NbPublicVariables + cs.NbSecretVariables + cs.NbInternalVariables)).1 witness
          = .ok s0 →
      parallelSolve cs numCPU ⟨s0, a, b, c⟩ = .ok st →
      st.solution.solved.count true ≠
        cs.NbPublicVariables + cs.NbSecretVariables + cs.NbInternalVariables →
      Solve cs numCPU witness a b c = .error .notAllWiresInstantiated) := by
  refine ⟨?_, ?_, ?_⟩
  · intro out h hnil
    obtain ⟨s0, st, hs, hps, hv, rfl⟩ := Solve_nil_seeded cs numCPU witness a b c out h hnil
    obtain ⟨-, -, hh⟩ := seeded_counter cs numCPU _ witness a b c s0 hs
    rw [hps] at hh
    obtain ⟨k1, k2, k3⟩ := hh
    refine ⟨s0, st, hs, hps, rfl, k3, ?_⟩
    have hvalid : st.solution.nbSolved = st.solution.values.length := by
      simpa [Solution.isValid] using hv
    intro i hi
    apply count_true_eq_length
    · omega
    · omega
  · intro s0 hs
    obtain ⟨k1, k2, hh⟩ := seeded_counter cs numCPU _ witness a b c s0 hs
    exact ⟨k1, k2, Res.Holds.imp (fun _ h => h.1) _ hh⟩
  · intro s0 st hw hn hs hps hcount
    obtain ⟨-, -, hh⟩ := seeded_counter cs numCPU _ witness a b c s0 hs
    rw [hps] at hh
    obtain ⟨k1, k2, k3⟩ := hh
    rw [Solve_run cs numCPU witness a b c hw hn, hs]
    simp only [hps]
    have hinv : st.solution.isValid = false := by
      simp only [Solution.isValid, beq_eq_false_iff_ne]
      omega
    simp [hinv]

theorem Solve_all_wires_solved_witness :
    ∃ (s0 : Solution (ZMod 13)) (st : Run (ZMod 13)),
      seed (newSolution (F := ZMod 13) (3 + 0 + 2)).1 [3, 4] = .ok s0 ∧
      parallelSolve exampleCS 4 ⟨s0, [0, 0], [0, 0], [0, 0]⟩ = .ok st ∧
      exampleOutput.values = st.solution.values ∧
      st.solution.solved.length = 3 + 0 + 2 ∧
      ∀ i, i < 3 + 0 + 2 → st.solution.solved[i]? = some true :=
  (Solve_all_wires_solved exampleCS 4 [3, 4] [0, 0] [0, 0] [0, 0]).1 exampleOutput
    (by decide) rfl

/-- C13: the single-writer invariant. Seeding, hint resolution, the resolution of
a constraint and a whole run of `parallelSolve` only extend the solution: a wire
that is solved stays solved with the same value. On a nil return,
`solveConstraint` has written by back-substitution to no wire, or to the one wire
of the term to compute, which was unsolved on entry. -/
theorem single_writer (cs : R1CS F) :
    (∀ (n : Nat) (witness : List F) (s0 : Solution F),
      seed (newSolution (F := F) n).1 witness = .ok s0 →
      (newSolution (F := F) n).1.Extends s0) ∧
    (∀ (s : Solution F) (vID : Nat) (h : Hint F),
      (solveWithHint s vID h).Holds (fun s' => s.Extends s')) ∧
    (∀ (i : Nat) (st : Frame F),
      (solveConstraint cs i st).Holds (fun st' => st.solution.Extends st'.solution)) ∧
    (∀ (numCPU : Nat) (st : Run F),
      (parallelSolve cs numCPU st).Holds (fun st' => st.solution.Extends st'.solution)) ∧
    (∀ (i : Nat) (r : R1C) (st st' : Frame F),
      cs.Constraints[i]? = some r → solveConstraint cs i st = .ok st' →
      ∃ st1 loc t, walkR1C cs r st = .ok (st1, loc, t) ∧
        ((loc = 0 ∧ st'.solution = st1.solution) ∨
          (loc ≠ 0 ∧ st.solution.solved[t.WireID]? = some false ∧
            ∃ v, st1.solution.set t.WireID v = .ok st'.solution))) := by
  refine ⟨?_, ?_, ?_, ?_, ?_⟩
  · intro n witness s0 hs
    exact (seed_fresh n witness s0 hs).1.extends_
  · intro s vID h
    exact Res.Holds.imp (fun _ hs => hs.extends_) _ (solveWithHint_step s vID h)
  · intro i st
    exact Res.Holds.imp (fun _ hs => hs.extends_) _ (solveConstraint_step cs i st)
  · intro numCPU st
    exact Res.Holds.imp (fun _ hs => hs.extends_) _ (parallelSolve_step cs numCPU st)
  · intro i r st st' hr h
    unfold solveConstraint at h
    rw [hr] at h
    simp only at h
    unfold solveR1C at h
    split at h
    · cases h
    · cases h
    · rename_i st1 loc t hw
      refine ⟨st1, loc, t, hw, ?_⟩
      by_cases hl : loc = 0
      · subst hl
        left
        obtain ⟨rfl, -⟩ := instantiate_ok_zero cs t st1 st' h
        exact ⟨rfl, rfl⟩
      · right
        refine ⟨hl, ?_, ?_⟩
        · have hm := walkR1C_unknown_mem cs r st st1 loc t hw hl
          have hu := (List.mem_filter.mp hm).2
          simp only [unknownAt, Bool.and_eq_true, beq_iff_eq] at hu
          exact hu.1
        · obtain ⟨st2, wire, wire', hcw, -, hs, -⟩ := instantiate_ok_set cs loc t st1 st' hl h
          have hsol := computeWire_solution loc st1
          rw [hcw] at hsol
          simp only [Res.Holds] at hsol
          rw [hsol] at hs
          exact ⟨wire', hs⟩

theorem single_writer_witness :
    ∃ st1 loc t, walkR1C exampleCS ⟨[⟨1, 1⟩], [⟨1, 2⟩], [⟨1, 3⟩]⟩
        ⟨exampleSeed, 0, 0, 0⟩ = .ok (st1, loc, t) ∧
      ((loc = 0 ∧ (⟨[1, 3, 4, 12, 0], [true, true, true, true, false], 4⟩ :
          Solution (ZMod 13)) = st1.solution) ∨
        (loc ≠ 0 ∧ exampleSeed.solved[t.WireID]? = some false ∧
          ∃ v, st1.solution.set t.WireID v =
            .ok ⟨[1, 3, 4, 12, 0], [true, true, true, true, false], 4⟩)) :=
  (single_writer exampleCS).2.2.2.2 0 ⟨[⟨1, 1⟩], [⟨1, 2⟩], [⟨1, 3⟩]⟩
    ⟨exampleSeed, 0, 0, 0⟩
    ⟨⟨[1, 3, 4, 12, 0], [true, true, true, true, false], 4⟩, 3, 4, 12⟩ (by decide) (by decide)

/-- C14: for a term whose wire is unsolved and has a registered hint,
`processLExp` invokes the hint, accumulates the value of the wire, now solved,
into the side, and leaves `loc` and `termToCompute` as they were; for a term
whose wire is already solved no hint is invoked, so a hint runs at most once per
wire. A hint for the wire `h` with input `w = 5` returning `w * 2` gives
`h = 10`, and the constraint that refers to `h` is checked with that value. -/
theorem hinted_term (cs : R1CS F) :
    (∀ (lv : Nat) (t : Term) (w w' : Walk F) (hint : Hint F),
      w.solution.solved[t.WireID]? = some false →
      cs.MHints t.WireID = some hint →
      processTerm cs lv t w = .ok w' →
      solveWithHint w.solution t.WireID hint = .ok w'.solution ∧
      w'.solution.solved[t.WireID]? = some true ∧
      w'.val = w.val + termValue cs.Coefficients w'.solution t ∧
      w'.loc = w.loc ∧ w'.termToCompute = w.termToCompute) ∧
    (∀ (lv : Nat) (t : Term) (w w' : Walk F),
      w.solution.solved[t.WireID]? = some true →
      processTerm cs lv t w = .ok w' →
      w'.solution = w.solution ∧
      processTerm { cs with MHints := fun _ => none } lv t w = .ok w') ∧
    Solve doublingCS 1 [5] [0] [0] [0] = .ok ⟨[1, 5, 10], none, [10], [1], [10]⟩ := by
  refine ⟨?_, ?_, by decide⟩
  · intro lv t w w' hint hs hh h
    unfold processTerm at h
    simp only [hs, hh] at h
    split at h
    · cases h
    · cases h
    · rename_i s hsw
      split at h
      · cases h
      · rename_i v hv
        cases h
        exact ⟨hsw, (solveWithHint_ok _ _ _ _ hsw).2, accumulateInto_ok _ _ _ _ _ hv, rfl, rfl⟩
  · intro lv t w w' hs h
    unfold processTerm at h ⊢
    simp only [hs] at h ⊢
    split at h
    · cases h
    · rename_i v hv
      cases h
      exact ⟨rfl, rfl⟩

theorem hinted_term_witness :
    solveWithHint (⟨[1, 5, 0], [true, true, false], 2⟩ : Solution (ZMod 13)) 2 doublingHint =
      .ok ⟨[1, 5, 10], [true, true, true], 3⟩ ∧
    (⟨[1, 5, 10], [true, true, true], 3⟩ : Solution (ZMod 13)).solved[2]? = some true :=
  have h := (hinted_term doublingCS).1 1 ⟨1, 2⟩
    ⟨⟨[1, 5, 0], [true, true, false], 2⟩, 0, 0, default⟩
    ⟨⟨[1, 5, 10], [true, true, true], 3⟩, 10, 0, default⟩ doublingHint
    (by decide) rfl (by decide)
  ⟨h.1, h.2.1⟩

theorem shiftedWireID_eq_expanded (li : LazyInputs) (j : Nat) (shift : Int) (side : Nat)
    (t : Term) :
    shiftedWireID (if li.IsInput j side then 0 else shift) t =
      expandedWireID li j shift side t := by
  unfold shiftedWireID expandedWireID
  by_cases hi : li.IsInput j side = true
  · simp [hi]
  · by_cases h0 : t.WireID = 0
    · simp [hi, h0]
    · simp [hi, h0]

theorem processLExpLazy_cons (cs : R1CS F) (li : LazyInputs) (j : Nat) (shift : Int)
    (lv : Nat) (t : Term) (l : LinearExpression) (w : Walk F) :
    processLExpLazy cs li j shift lv (t :: l) w =
      if expandedWireID li j shift lv t < 0 then .abort .indexOutOfRange
      else
        match processTerm cs lv
            { t with WireID := (expandedWireID li j shift lv t).toNat } w with
        | .ok w' => processLExpLazy cs li j shift lv l w'
        | .err e w' => .err e w'
        | .abort p => .abort p := by
  unfold processLExpLazy
  rw [lazyLoop, shiftedWireID_eq_expanded]

/-- C17, amended: in `solveLazyConstraint` with instance index `j` and shift `s`,
every term on a side that `IsInput(j, side)` reports as a state side and whose
wire id is not 0 has its wire id increased by `s` before it is looked up,
accumulated or solved; a term that refers to the constant wire 0 keeps the id 0,
and every term on a side reported as an input side keeps its wire id. -/
theorem lazy_wire_shift (cs : R1CS F) (li : LazyInputs) (j : Nat) (shift : Int) :
    (∀ (lv : Nat) (t : Term) (l : LinearExpression) (w : Walk F),
      processLExpLazy cs li j shift lv (t :: l) w =
        if expandedWireID li j shift lv t < 0 then .abort .indexOutOfRange
        else
          match processTerm cs lv
              { t with WireID := (expandedWireID li j shift lv t).toNat } w with
          | .ok w' => processLExpLazy cs li j shift lv l w'
          | .err e w' => .err e w'
          | .abort p => .abort p) ∧
    (∀ (lv : Nat) (t : Term), li.IsInput j lv = false → t.WireID ≠ 0 →
      expandedWireID li j shift lv t = (t.WireID : Int) + shift) ∧
    (∀ (lv : Nat) (t : Term), li.IsInput j lv = false → t.WireID = 0 →
      expandedWireID li j shift lv t = 0) ∧
    (∀ (lv : Nat) (t : Term), li.IsInput j lv = true →
      expandedWireID li j shift lv t = (t.WireID : Int)) := by
  refine ⟨fun lv t l w => processLExpLazy_cons cs li j shift lv t l w, ?_, ?_, ?_⟩
  · intro lv t hi h0
    simp [expandedWireID, hi, h0]
  · intro lv t hi h0
    simp [expandedWireID, hi, h0]
  · intro lv t hi
    simp [expandedWireID, hi]

theorem lazy_wire_shift_witness :
    expandedWireID constantLazy 0 1 1 ⟨1, 4⟩ = ((4 : Nat) : Int) + 1 :=
  (lazy_wire_shift constantLazyCS constantLazy 0 1).2.1 1 ⟨1, 4⟩ rfl (by decide)

/-- C17 as stated fails for a term that refers to the constant wire: on a state
side, with the shift 1, the term `1 * wire 0` is accumulated from the wire 0,
whose value is 1, so that `1 * 1 = 1` resolves with `(a, b, c) = (1, 1, 1)`; with
its wire id increased by the shift it would be read from the wire 1, whose value
is 5, and the check would fail. -/
theorem lazy_constant_wire_not_shifted :
    constantLazy.IsInput 0 1 = false ∧
    shiftedWireID 1 ⟨1, 0⟩ = 0 ∧
    solveLazyConstraint constantLazyCS constantLazy 0 1
        ⟨⟨[1, 5], [true, true], 2⟩, 0, 0, 0⟩ =
      .ok ⟨⟨[1, 5], [true, true], 2⟩, 1, 1, 1⟩ ∧
    solveR1C constantLazyCS ⟨[⟨1, 0 + 1⟩], [⟨1, 0 + 1⟩], [⟨1, 0 + 1⟩]⟩
        ⟨⟨[1, 5], [true, true], 2⟩, 0, 0, 0⟩ =
      .err (.notEqual 5 5 5) ⟨⟨[1, 5], [true, true], 2⟩, 5, 5, 5⟩ := by
  decide

theorem lazyLoop_eq_processLExp (cs : R1CS F) (li : LazyInputs) (j : Nat) (shift : Int)
    (lv : Nat) (l : LinearExpression)
    (hnn : ∀ t ∈ l, 0 ≤ expandedWireID li j shift lv t) :
    ∀ w : Walk F, processLExpLazy cs li j shift lv l w =
      processLExp cs lv (unrollSide li j shift lv l) w := by
  induction l with
  | nil =>
    intro w
    simp [processLExpLazy, lazyLoop, unrollSide, processLExp]
  | cons t l ih =>
    intro w
    have h0 : ¬ expandedWireID li j shift lv t < 0 :=
      not_lt.mpr (hnn t (List.mem_cons_self _ _))
    have ih' := ih (fun x hx => hnn x (List.mem_cons_of_mem _ hx))
    rw [processLExpLazy_cons, if_neg h0]
    simp only [unrollSide, List.map_cons, processLExp]
    cases processTerm cs lv { t with WireID := (expandedWireID li j shift lv t).toNat } w with
    | ok w' => exact ih' w'
    | err e w' => rfl
    | abort p => rfl

theorem walkLazy_eq_walkR1C (cs : R1CS F) (li : LazyInputs) (j : Nat) (shift : Int)
    (st : Frame F)
    (hL : ∀ t ∈ (li.FetchLazy j).L, 0 ≤ expandedWireID li j shift 1 t)
    (hR : ∀ t ∈ (li.FetchLazy j).R, 0 ≤ expandedWireID li j shift 2 t)
    (hO : ∀ t ∈ (li.FetchLazy j).O, 0 ≤ expandedWireID li j shift 3 t) :
    walkLazy cs li j shift (li.FetchLazy j) st = walkR1C cs (unroll li j shift) st := by
  unfold walkLazy walkR1C unroll
  simp only [lazyLoop_eq_processLExp cs li j shift 1 _ hL,
    lazyLoop_eq_processLExp cs li j shift 2 _ hR,
    lazyLoop_eq_processLExp cs li j shift 3 _ hO]

theorem expandedWireID_nonneg (li : LazyInputs) (j : Nat) (shift : Int) (side : Nat)
    (t : Term) (hs : 0 ≤ shift) : 0 ≤ expandedWireID li j shift side t := by
  unfold expandedWireID
  split
  · exact Int.ofNat_nonneg _
  · split
    · exact le_refl _
    · have := Int.ofNat_nonneg t.WireID
      omega

theorem unrollSide_zero (li : LazyInputs) (j : Nat) (side : Nat) (l : LinearExpression) :
    unrollSide li j 0 side l = l := by
  unfold unrollSide
  have : (fun t : Term => ({ t with WireID := (expandedWireID li j 0 side t).toNat } : Term))
      = id := by
    funext t
    have h : expandedWireID li j 0 side t = (t.WireID : Int) := by
      unfold expandedWireID
      split
      · rfl
      · split
        · rename_i h0; simp [h0]
        · simp
    simp [h]
  rw [this, List.map_id]

/-- C18: lazy resolution is the plain resolution of the unrolled constraint.
Whenever the wire ids of the unrolled constraint exist (none is negative, as for
every shift `s >= 0`), `solveLazyConstraint` returns what the algorithm of
`solveConstraint` returns on the materialized constraint: the same error result
and the same `a`, `b`, `c` and solution; with `s = 0` that constraint is the
fetched one. -/
theorem lazy_eq_unrolled (cs : R1CS F) (li : LazyInputs) (j : Nat) (st : Frame F) :
    (∀ shift : Int,
      (∀ t ∈ (li.FetchLazy j).L, 0 ≤ expandedWireID li j shift 1 t) →
      (∀ t ∈ (li.FetchLazy j).R, 0 ≤ expandedWireID li j shift 2 t) →
      (∀ t ∈ (li.FetchLazy j).O, 0 ≤ expandedWireID li j shift 3 t) →
      solveLazyConstraint cs li j shift st = solveR1C cs (unroll li j shift) st) ∧
    (∀ shift : Int, 0 ≤ shift →
      solveLazyConstraint cs li j shift st = solveR1C cs (unroll li j shift) st) ∧
    solveLazyConstraint cs li j 0 st = solveR1C cs (li.FetchLazy j) st := by
  have hA : ∀ shift : Int,
      (∀ t ∈ (li.FetchLazy j).L, 0 ≤ expandedWireID li j shift 1 t) →
      (∀ t ∈ (li.FetchLazy j).R, 0 ≤ expandedWireID li j shift 2 t) →
      (∀ t ∈ (li.FetchLazy j).O, 0 ≤ expandedWireID li j shift 3 t) →
      solveLazyConstraint cs li j shift st = solveR1C cs (unroll li j shift) st := by
    intro shift hL hR hO
    unfold solveLazyConstraint solveR1C
    rw [walkLazy_eq_walkR1C cs li j shift st hL hR hO]
  have hB : ∀ shift : Int, 0 ≤ shift →
      solveLazyConstraint cs li j shift st = solveR1C cs (unroll li j shift) st := by
    intro shift hs
    exact hA shift (fun t _ => expandedWireID_nonneg li j shift 1 t hs)
      (fun t _ => expandedWireID_nonneg li j shift 2 t hs)
      (fun t _ => expandedWireID_nonneg li j shift 3 t hs)
  refine ⟨hA, hB, ?_⟩
  have h0 := hB 0 (le_refl _)
  have hu : unroll li j 0 = li.FetchLazy j := by
    unfold unroll
    simp only [unrollSide_zero]
  rw [hu] at h0
  exact h0

theorem lazy_eq_unrolled_witness :
    solveLazyConstraint exampleCS exampleLazy 0 1 ⟨exampleSeed, 0, 0, 0⟩ =
      solveR1C exampleCS ⟨[⟨1, 1⟩], [⟨1, 2⟩], [⟨1, 3⟩]⟩ ⟨exampleSeed, 0, 0, 0⟩ :=
  (lazy_eq_unrolled exampleCS exampleLazy 0 ⟨exampleSeed, 0, 0, 0⟩).2.1 1 (by decide)

/-- C19, amended: whatever the number of processors, a level is resolved
sequentially exactly when it has at most 50 constraints; a level of more than 50
constraints is cut into tasks for the workers, also when it has fewer than 50
constraints per processor. -/
theorem level_sequential_threshold (cs : R1CS F) (numCPU : Nat) (level : List Nat)
    (st : Run F) :
    (level.length ≤ 50 → solveLevel cs numCPU level st = solveTask cs level st) ∧
    (50 < level.length →
      solveLevel cs numCPU level st =
        match levelTasks numCPU level with
        | .error p => .abort p
        | .ok tasks => runTasks cs tasks st) := by
  constructor
  · intro h
    unfold solveLevel
    rw [if_pos h]
  · intro h
    unfold solveLevel
    rw [if_neg (by omega)]

theorem level_sequential_threshold_witness :
    solveLevel exampleCS 4 [0] ⟨exampleSeed, [0, 0], [0, 0], [0, 0]⟩ =
      solveTask exampleCS [0] ⟨exampleSeed, [0, 0], [0, 0], [0, 0]⟩ :=
  (level_sequential_threshold exampleCS 4 [0] ⟨exampleSeed, [0, 0], [0, 0], [0, 0]⟩).1
    (by decide)

/-- C19 as stated fails: a level of 60 constraints on 2 processors has fewer than
50 constraints per processor, yet it is not resolved sequentially but cut into
two tasks of 30 constraints. The first constraint fails: the sequential loop
would stop there, whereas the second task still runs and fills the entries
`30 .. 59` of `a`. -/
theorem level_below_threshold_dispatched :
    (List.range 60).length < 50 * 2 ∧
    levelTasks 2 (List.range 60) = .ok [List.range 30, List.range' 30 30] ∧
    solveLevel sixtyCS 2 (List.range 60) sixtyRun =
      runTasks sixtyCS [List.range 30, List.range' 30 30] sixtyRun ∧
    solveLevel sixtyCS 2 (List.range 60) sixtyRun ≠
      solveTask sixtyCS (List.range 60) sixtyRun := by
  decide!

theorem contiguous_le : ∀ (l : List (Nat × Nat)) (s e : Nat), Contiguous s l e →
    s ≤ e ∧ ∀ p ∈ l, p.1 ≤ p.2 ∧ p.2 ≤ e := by
  intro l
  induction l with
  | nil =>
    intro s e h
    simp only [Contiguous] at h
    subst h
    exact ⟨le_refl _, fun p hp => by cases hp⟩
  | cons p rest ih =>
    intro s e h
    simp only [Contiguous] at h
    obtain ⟨h1, h2, h3⟩ := h
    obtain ⟨a1, a2⟩ := ih p.2 e h3
    refine ⟨by omega, ?_⟩
    intro x hx
    rcases List.mem_cons.mp hx with rfl | hx
    · exact ⟨h2, a1⟩
    · exact a2 x hx

theorem taskBounds_contiguous (q : Nat) :
    ∀ (k i extra off : Nat),
      Contiguous (i * q + off) (taskBounds q k i extra off)
        (i * q + off + (k * q + min extra k)) := by
  intro k
  induction k with
  | zero =>
    intro i extra off
    simp [taskBounds, Contiguous]
  | succ k ih =>
    intro i extra off
    by_cases he : extra > 0
    · simp only [taskBounds, he, if_true, Contiguous]
      refine ⟨trivial, by omega, ?_⟩
      have h := ih (i + 1) (extra - 1) (off + 1)
      have e1 : (i + 1) * q + (off + 1) = i * q + off + q + 1 := by ring
      have e2 : (i + 1) * q + (off + 1) + (k * q + min (extra - 1) k) =
          i * q + off + ((k + 1) * q + min extra (k + 1)) := by
        have : min extra (k + 1) = 1 + min (extra - 1) k := by omega
        rw [this]; ring
      rw [e1] at h
      rw [← e2, e1]
      exact h
    · simp only [taskBounds, he, if_false, Contiguous]
      have he0 : extra = 0 := by omega
      subst he0
      refine ⟨trivial, by omega, ?_⟩
      have h := ih (i + 1) 0 off
      have e1 : (i + 1) * q + off = i * q + off + q := by ring
      have e2 : (i + 1) * q + off + (k * q + min 0 k) =
          i * q + off + ((k + 1) * q + min 0 (k + 1)) := by
        simp only [Nat.zero_min]; ring
      rw [e1] at h
      rw [← e2, e1]
      exact h

theorem pushTasks_eq_bounds (level : List Nat) (q : Nat) :
    ∀ (k i extra off : Nat),
      (∀ p ∈ taskBounds q k i extra off, p.2 ≤ level.length) →
      pushTasks level q k i extra off = .ok ((taskBounds q k i extra off).map (slice level)) := by
  intro k
  induction k with
  | zero =>
    intro i extra off _
    simp [pushTasks, taskBounds]
  | succ k ih =>
    intro i extra off hb
    by_cases he : extra > 0
    · simp only [taskBounds, he, if_true] at hb
      have h1 := hb _ (List.mem_cons_self _ _)
      simp only at h1
      have h2 := ih (i + 1) (extra - 1) (off + 1)
        (fun p hp => hb p (List.mem_cons_of_mem _ hp))
      simp only [pushTasks, taskBounds, he, if_true, h1, h2, List.map_cons, slice]
    · simp only [taskBounds, he, if_false] at hb
      have h1 := hb _ (List.mem_cons_self _ _)
      simp only at h1
      have h2 := ih (i + 1) extra off
        (fun p hp => hb p (List.mem_cons_of_mem _ hp))
      simp only [pushTasks, taskBounds, he, if_false, h1, h2, List.map_cons, slice, if_true]

theorem levelBounds_contiguous (numCPU n : Nat) (hP : 1 ≤ numCPU) (hn : 50 < n) :
    Contiguous 0 (levelBounds numCPU n) n := by
  unfold levelBounds
  simp only
  generalize hnb : (if numCPU > (n + 49) / 50 then (n + 49) / 50 else numCPU) = nb
  have hnb1 : 1 ≤ nb := by
    rw [← hnb]
    split
    · omega
    · exact hP
  have key : ∀ q k extra, k * q + min extra k = n →
      Contiguous 0 (taskBounds q k 0 extra 0) n := by
    intro q k extra hk
    have h := taskBounds_contiguous q k 0 extra 0
    simp only [Nat.zero_mul, Nat.add_zero, Nat.zero_add] at h
    rw [hk] at h
    exact h
  apply key
  by_cases hq : n / nb < 1
  · simp only [hq, if_true]
    simp
  · simp only [hq, if_false]
    have h1 : nb * (n / nb) ≤ n := Nat.mul_div_le _ _
    have h2 : n % nb < nb := Nat.mod_lt _ (by omega)
    have h3 := Nat.div_add_mod n nb
    have h4 : n - nb * (n / nb) = n % nb := by omega
    rw [h4, Nat.min_eq_left (le_of_lt h2)]
    omega

/-- C20: for a level of more than 50 constraints and at least one processor, the
slices `level[_start:_end]` that `parallelSolve` pushes are contiguous and
partition the level: the first starts at 0, each starts where the one before
ends, the last ends at `n`; no slice bound is out of range, and the slices put
end to end are the level. -/
theorem tasks_partition (numCPU : Nat) (level : List Nat) (hP : 1 ≤ numCPU)
    (hn : 50 < level.length) :
    levelTasks numCPU level =
      .ok ((levelBounds numCPU level.length).map (slice level)) ∧
    Contiguous 0 (levelBounds numCPU level.length) level.length ∧
    (∀ p ∈ levelBounds numCPU level.length, p.1 ≤ p.2 ∧ p.2 ≤ level.length) ∧
    ((levelBounds numCPU level.length).map (slice level)).flatten = level := by
  have hc := levelBounds_contiguous numCPU level.length hP hn
  have hle := (contiguous_le _ _ _ hc).2
  have ht : levelTasks numCPU level =
      .ok ((levelBounds numCPU level.length).map (slice level)) := by
    unfold levelTasks
    simp only
    have hnb : (if numCPU > (level.length + 49) / 50 then (level.length + 49) / 50
        else numCPU) ≠ 0 := by
      split
      · omega
      · omega
    rw [if_neg hnb]
    exact pushTasks_eq_bounds level _ _ _ _ _ (fun p hp => (hle p hp).2)
  exact ⟨ht, hc, hle, levelTasks_flatten numCPU level _ ht⟩

theorem tasks_partition_witness :
    levelTasks 2 (List.range 60) = .ok [List.range 30, List.range' 30 30] ∧
    Contiguous 0 [(0, 30), (30, 60)] 60 :=
  have h := tasks_partition 2 (List.range 60) (by decide) (by decide)
  ⟨h.1, h.2.1⟩

theorem taskBounds_length (q : Nat) :
    ∀ (k i extra off : Nat), (taskBounds q k i extra off).length = k := by
  intro k
  induction k with
  | zero => intro i extra off; rfl
  | succ k ih =>
    intro i extra off
    simp only [taskBounds, List.length_cons, ih]

theorem taskBounds_size (q : Nat) :
    ∀ (k i extra off d : Nat), d < k →
      ∃ p, (taskBounds q k i extra off)[d]? = some p ∧
        p.2 = p.1 + q + (if d < extra then 1 else 0) := by
  intro k
  induction k with
  | zero => intro i extra off d hd; omega
  | succ k ih =>
    intro i extra off d hd
    cases d with
    | zero =>
      refine ⟨(i * q + off, if extra > 0 then i * q + off + q + 1 else i * q + off + q),
        by simp only [taskBounds, List.getElem?_cons_zero], ?_⟩
      by_cases he : extra > 0
      · simp [he]
      · simp [he]
    | succ d =>
      simp only [taskBounds, List.getElem?_cons_succ]
      obtain ⟨p, hp, hs⟩ := ih (i + 1) (if extra > 0 then extra - 1 else extra)
        (if extra > 0 then off + 1 else off) d (by omega)
      refine ⟨p, hp, ?_⟩
      rw [hs]
      by_cases he : extra > 0
      · simp only [he, if_true]
        by_cases hd' : d < extra - 1
        · rw [if_pos hd', if_pos (by omega)]
        · rw [if_neg hd', if_neg (by omega)]
      · simp only [he, if_false]
        rw [if_neg (by omega), if_neg (by omega)]

/-- The tasks of a level of more than 50 constraints on at least one processor:
no bound is out of range. -/
theorem levelTasks_ok (numCPU : Nat) (level : List Nat) (hP : 1 ≤ numCPU)
    (hn : 50 < level.length) :
    levelTasks numCPU level =
      .ok ((levelBounds numCPU level.length).map (slice level)) := by
  have hc := levelBounds_contiguous numCPU level.length hP hn
  have hle := (contiguous_le _ _ _ hc).2
  unfold levelTasks
  simp only
  have hnb : (if numCPU > (level.length + 49) / 50 then (level.length + 49) / 50
      else numCPU) ≠ 0 := by
    split
    · omega
    · omega
  rw [if_neg hnb]
  exact pushTasks_eq_bounds level _ _ _ _ _ (fun p hp => (hle p hp).2)

theorem slice_length (level : List Nat) (p : Nat × Nat) (h : p.2 ≤ level.length) :
    (slice level p).length = p.2 - p.1 := by
  unfold slice
  rw [List.length_take, List.length_drop]
  omega

/-- C21: for a level of `n > 50` constraints and `P >= 1` processors, the number
of tasks pushed is `k = min(P, ceil(n / 50))`, which is at most `P`; the fallback
branch `nbIterationsPerCpus < 1` is not taken; the first `n mod k` tasks hold
`floor(n / k) + 1` constraints and the others `floor(n / k)`, so that every task
is non-empty and the sizes differ by at most one. -/
theorem tasks_sizes (numCPU : Nat) (level : List Nat) (hP : 1 ≤ numCPU)
    (hn : 50 < level.length) :
    ∃ tasks, levelTasks numCPU level = .ok tasks ∧
      tasks.length = min numCPU ((level.length + 49) / 50) ∧
      tasks.length ≤ numCPU ∧
      ¬ (level.length / min numCPU ((level.length + 49) / 50) < 1) ∧
      ∀ d, d < tasks.length → ∃ t, tasks[d]? = some t ∧ t ≠ [] ∧
        t.length = level.length / tasks.length +
          (if d < level.length % tasks.length then 1 else 0) := by
  have hc := levelBounds_contiguous numCPU level.length hP hn
  have hle := (contiguous_le _ _ _ hc).2
  refine ⟨_, levelTasks_ok numCPU level hP hn, ?_⟩
  have hk : (if numCPU > (level.length + 49) / 50 then (level.length + 49) / 50
      else numCPU) = min numCPU ((level.length + 49) / 50) := by
    split <;> omega
  generalize hkd : min numCPU ((level.length + 49) / 50) = k at hk
  have hk1 : 1 ≤ k := by omega
  have hkn : k ≤ level.length := by omega
  have hq : ¬ (level.length / k < 1) := by
    have := Nat.div_pos hkn (by omega)
    omega
  have hb : levelBounds numCPU level.length =
      taskBounds (level.length / k) k 0 (level.length - k * (level.length / k)) 0 := by
    unfold levelBounds
    simp only [hk, hq, if_false]
  have hlen : ((levelBounds numCPU level.length).map (slice level)).length = k := by
    rw [List.length_map, hb, taskBounds_length]
  refine ⟨hlen, by rw [hlen]; omega, hq, ?_⟩
  intro d hd
  rw [hlen] at hd ⊢
  obtain ⟨p, hp, hs⟩ := taskBounds_size (level.length / k) k 0
    (level.length - k * (level.length / k)) 0 d hd
  have hmod : level.length - k * (level.length / k) = level.length % k := by
    have h1 : k * (level.length / k) ≤ level.length := Nat.mul_div_le _ _
    have h3 := Nat.div_add_mod level.length k
    omega
  rw [hmod] at hs
  have hpm : p ∈ levelBounds numCPU level.length := by
    rw [hb]
    exact List.mem_iff_getElem?.mpr ⟨d, hp⟩
  have hsl := slice_length level p (hle p hpm).2
  refine ⟨slice level p, ?_, ?_, ?_⟩
  · rw [List.getElem?_map, hb, hp]
    rfl
  · intro he
    rw [he] at hsl
    simp only [List.length_nil] at hsl
    have : 1 ≤ level.length / k := by omega
    split at hs <;> omega
  · rw [hsl, hs]
    omega

theorem tasks_sizes_witness :
    ∃ tasks, levelTasks 2 (List.range 61) = .ok tasks ∧
      tasks.length = min 2 (((List.range 61).length + 49) / 50) ∧
      tasks.length ≤ 2 ∧
      ¬ ((List.range 61).length / min 2 (((List.range 61).length + 49) / 50) < 1) ∧
      ∀ d, d < tasks.length → ∃ t, tasks[d]? = some t ∧ t ≠ [] ∧
        t.length = (List.range 61).length / tasks.length +
          (if d < (List.range 61).length % tasks.length then 1 else 0) :=
  tasks_sizes 2 (List.range 61) (by decide) (by decide)

theorem runTasks_ok_iff (cs : R1CS F) (ts : List (List Nat)) :
    ∀ (st st' : Run F), runTasks cs ts st = .ok st' ↔
      solveTask cs ts.flatten st = .ok st' := by
  induction ts with
  | nil => intro st st'; simp [runTasks, solveTask]
  | cons t ts ih =>
    intro st st'
    rw [List.flatten_cons, solveTask_append]
    simp only [runTasks]
    cases h1 : solveTask cs t st with
    | ok st1 => exact ih st1 st'
    | abort p => simp
    | err e st1 =>
      simp only
      constructor
      · intro h
        split at h <;> cases h
      · intro h
        cases h

theorem solveLevel_ok_iff (cs : R1CS F) (numCPU : Nat) (hP : 1 ≤ numCPU) (level : List Nat)
    (st st' : Run F) :
    solveLevel cs numCPU level st = .ok st' ↔ solveTask cs level st = .ok st' := by
  unfold solveLevel
  split
  · exact Iff.rfl
  · rename_i hn
    have ht := levelTasks_ok numCPU level hP (by omega)
    rw [ht]
    simp only
    rw [runTasks_ok_iff, levelTasks_flatten numCPU level _ ht]

theorem solveLevels_ok_iff (cs : R1CS F) (numCPU : Nat) (hP : 1 ≤ numCPU)
    (ls : List (List Nat)) :
    ∀ (st st' : Run F), solveLevels cs numCPU ls st = .ok st' ↔
      solveTask cs ls.flatten st = .ok st' := by
  induction ls with
  | nil => intro st st'; simp [solveLevels, solveTask]
  | cons l ls ih =>
    intro st st'
    rw [List.flatten_cons, solveTask_append]
    simp only [solveLevels]
    cases h1 : solveLevel cs numCPU l st with
    | ok st1 =>
      rw [(solveLevel_ok_iff cs numCPU hP l st st1).mp h1]
      exact ih st1 st'
    | abort p =>
      simp only
      constructor
      · intro h; cases h
      · intro h
        cases h2 : solveTask cs l st with
        | ok st1 =>
          rw [(solveLevel_ok_iff cs numCPU hP l st st1).mpr h2] at h1
          cases h1
        | abort p' => rw [h2] at h; cases h
        | err e st1 => rw [h2] at h; cases h
    | err e st1 =>
      simp only
      constructor
      · intro h; cases h
      · intro h
        cases h2 : solveTask cs l st with
        | ok st2 =>
          rw [(solveLevel_ok_iff cs numCPU hP l st st2).mpr h2] at h1
          cases h1
        | abort p' => rw [h2] at h; cases h
        | err e' st2 => rw [h2] at h; cases h

/-! ### Independence of the constraints of a level -/

theorem Solution.agree_self (W : List Nat) (s : Solution F) : s.Agree W s :=
  ⟨fun _ _ => rfl, fun _ _ => rfl⟩

theorem Solution.agree_flip {W : List Nat} {s t : Solution F} (h : s.Agree W t) :
    t.Agree W s :=
  ⟨fun w hw => (h.solved w hw).symm, fun w hw => (h.values w hw).symm⟩

theorem Solution.outside_self (W : List Nat) (s : Solution F) : s.Outside W s :=
  ⟨fun _ _ => rfl, fun _ _ => rfl⟩

theorem Solution.outside_trans {W : List Nat} {s s1 s2 : Solution F}
    (h1 : s.Outside W s1) (h2 : s1.Outside W s2) : s.Outside W s2 :=
  ⟨fun w hw => (h2.solved w hw).trans (h1.solved w hw),
    fun w hw => (h2.values w hw).trans (h1.values w hw)⟩

theorem Solution.framed_start {W : List Nat} {s t : Solution F} (h : s.Agree W t) :
    Solution.Framed W s s t :=
  ⟨h, Solution.outside_self W s⟩

theorem Solution.framed_after {W : List Nat} {s s1 t1 s2 t2 : Solution F}
    (h1 : Solution.Framed W s s1 t1) (h2 : Solution.Framed W s1 s2 t2) :
    Solution.Framed W s s2 t2 :=
  ⟨h2.agree, Solution.outside_trans h1.outside h2.outside⟩

theorem Solution.set_framed (W : List Nat) (s t : Solution F) (u : Nat) (v : F)
    (hu : u ∈ W) (h : s.Agree W t) :
    Except.Both (fun s' t' => Solution.Framed W s s' t') (s.set u v) (t.set u v) := by
  unfold Solution.set
  rw [h.solved u hu]
  cases hs : s.solved[u]? with
  | none => exact .error
  | some b =>
    cases b with
    | true => exact .error
    | false =>
      simp only
      have hv := h.values u hu
      by_cases hl : u < s.values.length
      · have hl' : u < t.values.length := by
          rw [List.getElem?_eq_getElem hl] at hv
          by_contra hc
          rw [List.getElem?_eq_none (by omega)] at hv
          cases hv
        rw [if_pos hl, if_pos hl']
        refine .ok ⟨⟨?_, ?_⟩, ⟨?_, ?_⟩⟩
        · intro w hw
          show (t.solved.set u true)[w]? = (s.solved.set u true)[w]?
          rw [List.getElem?_set', List.getElem?_set', h.solved w hw]
        · intro w hw
          show (t.values.set u v)[w]? = (s.values.set u v)[w]?
          rw [List.getElem?_set', List.getElem?_set', h.values w hw]
        · intro w hw
          show (s.solved.set u true)[w]? = s.solved[w]?
          rw [List.getElem?_set_ne (fun e : u = w => hw (e ▸ hu))]
        · intro w hw
          show (s.values.set u v)[w]? = s.values[w]?
          rw [List.getElem?_set_ne (fun e : u = w => hw (e ▸ hu))]
      · have hl' : ¬ u < t.values.length := by
          intro hc
          rw [List.getElem?_eq_getElem hc, List.getElem?_eq_none (by omega)] at hv
          cases hv
        rw [if_neg hl, if_neg hl']
        exact .error

theorem setAll_framed (W : List Nat) (ws : List Nat) :
    ∀ (s t : Solution F) (outs : List F), (∀ w ∈ ws, w ∈ W) → s.Agree W t →
      Except.Both (fun s' t' => Solution.Framed W s s' t') (setAll s ws outs)
        (setAll t ws outs) := by
  induction ws with
  | nil =>
    intro s t outs _ h
    exact .ok (Solution.framed_start h)
  | cons w ws ih =>
    intro s t outs hW h
    unfold setAll
    have h1 := Solution.set_framed W s t w (outs.headD 0) (hW w (List.mem_cons_self _ _)) h
    generalize s.set w (outs.headD 0) = r1 at h1
    generalize t.set w (outs.headD 0) = r2 at h1
    cases h1 with
    | error => exact .error
    | ok hf =>
      rename_i s1 t1
      simp only
      have h2 := ih s1 t1 outs.tail (fun x hx => hW x (List.mem_cons_of_mem _ hx)) hf.agree
      generalize setAll s1 ws outs.tail = r3 at h2
      generalize setAll t1 ws outs.tail = r4 at h2
      cases h2 with
      | error => exact .error
      | ok hf2 => exact .ok (Solution.framed_after hf hf2)

theorem gatherInputs_agree (W : List Nat) (s t : Solution F) (ws : List Nat)
    (hW : ∀ w ∈ ws, w ∈ W) (h : s.Agree W t) : gatherInputs t ws = gatherInputs s ws := by
  induction ws with
  | nil => rfl
  | cons w ws ih =>
    unfold gatherInputs
    rw [h.solved w (hW w (List.mem_cons_self _ _)), h.values w (hW w (List.mem_cons_self _ _)),
      ih (fun x hx => hW x (List.mem_cons_of_mem _ hx))]

theorem accumulateInto_agree (W : List Nat) (coefficients : List F) (s t : Solution F)
    (term : Term) (r : F) (hW : term.WireID ∈ W) (h : s.Agree W t) :
    accumulateInto coefficients t term r = accumulateInto coefficients s term r := by
  unfold accumulateInto
  rw [h.values _ hW]

theorem solveWithHint_framed (W : List Nat) (s t : Solution F) (vID : Nat) (hint : Hint F)
    (hW : ∀ w ∈ vID :: (hint.Inputs ++ hint.Others), w ∈ W) (h : s.Agree W t) :
    Res.Both (fun s' t' => Solution.Framed W s s' t') (solveWithHint s vID hint)
      (solveWithHint t vID hint) := by
  unfold solveWithHint
  rw [gatherInputs_agree W s t hint.Inputs
    (fun w hw => hW w (List.mem_cons_of_mem _ (List.mem_append_left _ hw))) h]
  cases gatherInputs s hint.Inputs with
  | error p => exact .abort
  | ok ins =>
    simp only
    cases hint.fn ins with
    | error e => exact .err (Solution.framed_start h)
    | ok outs =>
      simp only
      have h1 := setAll_framed W (vID :: hint.Others) s t outs (by
        intro w hw
        rcases List.mem_cons.mp hw with rfl | hw
        · exact hW _ (List.mem_cons_self _ _)
        · exact hW _ (List.mem_cons_of_mem _ (List.mem_append_right _ hw))) h
      generalize setAll s (vID :: hint.Others) outs = r1 at h1
      generalize setAll t (vID :: hint.Others) outs = r2 at h1
      cases h1 with
      | error => exact .abort
      | ok hf => exact .ok hf

theorem processTerm_framed (cs : R1CS F) (W : List Nat) (s : Solution F) (locValue : Nat)
    (t : Term) (hW : ∀ w ∈ termWires cs t.WireID, w ∈ W) (x y : Walk F)
    (h : Walk.Framed W s x y) :
    Res.Both (Walk.Framed W s) (processTerm cs locValue t x) (processTerm cs locValue t y) := by
  have ht : t.WireID ∈ W := by
    apply hW
    unfold termWires
    split <;> simp
  unfold processTerm
  simp only
  rw [h.sol.agree.solved _ ht]
  cases hs : x.solution.solved[t.WireID]? with
  | none => exact .abort
  | some b =>
    cases b with
    | true =>
      simp only
      rw [accumulateInto_agree W _ _ _ t _ ht h.sol.agree, h.val]
      cases accumulateInto cs.Coefficients x.solution t x.val with
      | error p => exact .abort
      | ok v => exact .ok ⟨rfl, h.loc, h.term, h.mem, h.sol⟩
    | false =>
      simp only
      cases hh : cs.MHints t.WireID with
      | none =>
        simp only
        rw [h.loc]
        by_cases hx : x.loc ≠ 0
        · rw [if_pos hx, if_pos hx]
          exact .abort
        · rw [if_neg hx, if_neg hx]
          exact .ok ⟨h.val, rfl, rfl, fun _ => ht, h.sol⟩
      | some hint =>
        simp only
        have h1 := solveWithHint_framed W x.solution y.solution t.WireID hint (by
          intro w hw
          apply hW
          unfold termWires
          rw [hh]
          exact hw) h.sol.agree
        generalize solveWithHint x.solution t.WireID hint = r1 at h1
        generalize solveWithHint y.solution t.WireID hint = r2 at h1
        cases h1 with
        | abort => exact .abort
        | err hf => exact .err ⟨h.val, h.loc, h.term, h.mem, Solution.framed_after h.sol hf⟩
        | ok hf =>
          rename_i s1 t1
          simp only
          rw [accumulateInto_agree W _ _ _ t _ ht hf.agree, h.val]
          cases accumulateInto cs.Coefficients s1 t x.val with
          | error p => exact .abort
          | ok v => exact .ok ⟨rfl, h.loc, h.term, h.mem, Solution.framed_after h.sol hf⟩

theorem processLExp_framed (cs : R1CS F) (W : List Nat) (s : Solution F) (locValue : Nat)
    (l : LinearExpression) :
    ∀ (x y : Walk F), (∀ w ∈ sideWires cs l, w ∈ W) → Walk.Framed W s x y →
      Res.Both (Walk.Framed W s) (processLExp cs locValue l x)
        (processLExp cs locValue l y) := by
  induction l with
  | nil => intro x y _ h; exact .ok h
  | cons t l ih =>
    intro x y hW h
    unfold processLExp
    have h1 := processTerm_framed cs W s locValue t (by
      intro w hw
      apply hW
      unfold sideWires
      simp only [List.map_cons, List.flatten_cons]
      exact List.mem_append_left _ hw) x y h
    generalize processTerm cs locValue t x = r1 at h1
    generalize processTerm cs locValue t y = r2 at h1
    cases h1 with
    | abort => exact .abort
    | err hf => exact .err hf
    | ok hf =>
      exact ih _ _ (by
        intro w hw
        apply hW
        unfold sideWires
        simp only [List.map_cons, List.flatten_cons]
        exact List.mem_append_right _ hw) hf

theorem lazyLoop_framed (cs : R1CS F) (W : List Nat) (s : Solution F) (shiftI : Int)
    (locValue : Nat) (l : LinearExpression) :
    ∀ (x y : Walk F), (∀ w ∈ lazySideWires cs shiftI l, w ∈ W) → Walk.Framed W s x y →
      Res.Both (Walk.Framed W s) (lazyLoop cs shiftI locValue l x)
        (lazyLoop cs shiftI locValue l y) := by
  induction l with
  | nil => intro x y _ h; exact .ok h
  | cons t l ih =>
    intro x y hW h
    unfold lazyLoop
    by_cases hn : shiftedWireID shiftI t < 0
    · rw [if_pos hn, if_pos hn]
      exact .abort
    · rw [if_neg hn, if_neg hn]
      have h1 := processTerm_framed cs W s locValue
        { t with WireID := (shiftedWireID shiftI t).toNat } (by
          intro w hw
          apply hW
          unfold lazySideWires
          simp only [List.map_cons, List.flatten_cons, if_neg hn]
          exact List.mem_append_left _ hw) x y h
      generalize processTerm cs locValue { t with WireID := (shiftedWireID shiftI t).toNat } x =
        r1 at h1
      generalize processTerm cs locValue { t with WireID := (shiftedWireID shiftI t).toNat } y =
        r2 at h1
      cases h1 with
      | abort => exact .abort
      | err hf => exact .err hf
      | ok hf =>
        exact ih _ _ (by
          intro w hw
          apply hW
          unfold lazySideWires
          simp only [List.map_cons, List.flatten_cons]
          exact List.mem_append_right _ hw) hf

theorem walkR1C_framed (cs : R1CS F) (W : List Nat) (s : Solution F) (r : R1C)
    (hW : ∀ w ∈ sideWires cs r.L ++ sideWires cs r.R ++ sideWires cs r.O, w ∈ W)
    (x y : Frame F) (h : Frame.Framed W s x y) :
    Res.Both (fun p q => Frame.Framed W s p.1 q.1 ∧ q.2 = p.2 ∧
        (p.2.1 ≠ 0 → p.2.2.WireID ∈ W))
      (walkR1C cs r x) (walkR1C cs r y) := by
  unfold walkR1C
  have h1 := processLExp_framed cs W s 1 r.L ⟨x.solution, x.a, 0, default⟩
    ⟨y.solution, y.a, 0, default⟩
    (fun w hw => hW w (List.mem_append_left _ (List.mem_append_left _ hw)))
    ⟨h.a, rfl, rfl, fun h0 => absurd rfl h0, h.sol⟩
  generalize processLExp cs 1 r.L ⟨x.solution, x.a, 0, default⟩ = r1 at h1
  generalize processLExp cs 1 r.L ⟨y.solution, y.a, 0, default⟩ = r2 at h1
  cases h1 with
  | abort => exact .abort
  | err hf =>
    exact .err ⟨⟨hf.val, h.b, h.c, hf.sol⟩, by simp only [hf.loc, hf.term], hf.mem⟩
  | ok hf =>
    rename_i w1 v1
    simp only
    have h2 := processLExp_framed cs W s 2 r.R ⟨w1.solution, x.b, w1.loc, w1.termToCompute⟩
      ⟨v1.solution, y.b, v1.loc, v1.termToCompute⟩
      (fun w hw => hW w (List.mem_append_left _ (List.mem_append_right _ hw)))
      ⟨h.b, hf.loc, hf.term, hf.mem, hf.sol⟩
    generalize processLExp cs 2 r.R ⟨w1.solution, x.b, w1.loc, w1.termToCompute⟩ = r3 at h2
    generalize processLExp cs 2 r.R ⟨v1.solution, y.b, v1.loc, v1.termToCompute⟩ = r4 at h2
    cases h2 with
    | abort => exact .abort
    | err hf2 =>
      exact .err ⟨⟨hf.val, hf2.val, h.c, hf2.sol⟩, by simp only [hf2.loc, hf2.term], hf2.mem⟩
    | ok hf2 =>
      rename_i w2 v2
      simp only
      have h3 := processLExp_framed cs W s 3 r.O
        ⟨w2.solution, x.c, w2.loc, w2.termToCompute⟩
        ⟨v2.solution, y.c, v2.loc, v2.termToCompute⟩
        (fun w hw => hW w (List.mem_append_right _ hw))
        ⟨h.c, hf2.loc, hf2.term, hf2.mem, hf2.sol⟩
      generalize processLExp cs 3 r.O ⟨w2.solution, x.c, w2.loc, w2.termToCompute⟩ = r5 at h3
      generalize processLExp cs 3 r.O ⟨v2.solution, y.c, v2.loc, v2.termToCompute⟩ = r6 at h3
      cases h3 with
      | abort => exact .abort
      | err hf3 =>
        exact .err ⟨⟨hf.val, hf2.val, hf3.val, hf3.sol⟩, by simp only [hf3.loc, hf3.term],
          hf3.mem⟩
      | ok hf3 =>
        exact .ok ⟨⟨hf.val, hf2.val, hf3.val, hf3.sol⟩, by simp only [hf3.loc, hf3.term],
          hf3.mem⟩

theorem walkLazy_framed (cs : R1CS F) (W : List Nat) (s : Solution F) (li : LazyInputs)
    (j : Nat) (shift : Int) (r : R1C)
    (hW : ∀ w ∈ lazySideWires cs (if li.IsInput j 1 then 0 else shift) r.L ++
      lazySideWires cs (if li.IsInput j 2 then 0 else shift) r.R ++
      lazySideWires cs (if li.IsInput j 3 then 0 else shift) r.O, w ∈ W)
    (x y : Frame F) (h : Frame.Framed W s x y) :
    Res.Both (fun p q => Frame.Framed W s p.1 q.1 ∧ q.2 = p.2 ∧
        (p.2.1 ≠ 0 → p.2.2.WireID ∈ W))
      (walkLazy cs li j shift r x) (walkLazy cs li j shift r y) := by
  unfold walkLazy processLExpLazy
  have h1 := lazyLoop_framed cs W s (if li.IsInput j 1 then 0 else shift) 1 r.L
    ⟨x.solution, x.a, 0, default⟩ ⟨y.solution, y.a, 0, default⟩
    (fun w hw => hW w (List.mem_append_left _ (List.mem_append_left _ hw)))
    ⟨h.a, rfl, rfl, fun h0 => absurd rfl h0, h.sol⟩
  generalize lazyLoop cs (if li.IsInput j 1 then 0 else shift) 1 r.L
    ⟨x.solution, x.a, 0, default⟩ = r1 at h1
  generalize lazyLoop cs (if li.IsInput j 1 then 0 else shift) 1 r.L
    ⟨y.solution, y.a, 0, default⟩ = r2 at h1
  cases h1 with
  | abort => exact .abort
  | err hf =>
    exact .err ⟨⟨hf.val, h.b, h.c, hf.sol⟩, by simp only [hf.loc, hf.term], hf.mem⟩
  | ok hf =>
    rename_i w1 v1
    simp only
    have h2 := lazyLoop_framed cs W s (if li.IsInput j 2 then 0 else shift) 2 r.R
      ⟨w1.solution, x.b, w1.loc, w1.termToCompute⟩
      ⟨v1.solution, y.b, v1.loc, v1.termToCompute⟩
      (fun w hw => hW w (List.mem_append_left _ (List.mem_append_right _ hw)))
      ⟨h.b, hf.loc, hf.term, hf.mem, hf.sol⟩
    generalize lazyLoop cs (if li.IsInput j 2 then 0 else shift) 2 r.R
      ⟨w1.solution, x.b, w1.loc, w1.termToCompute⟩ = r3 at h2
    generalize lazyLoop cs (if li.IsInput j 2 then 0 else shift) 2 r.R
      ⟨v1.solution, y.b, v1.loc, v1.termToCompute⟩ = r4 at h2
    cases h2 with
    | abort => exact .abort
    | err hf2 =>
      exact .err ⟨⟨hf.val, hf2.val, h.c, hf2.sol⟩, by simp only [hf2.loc, hf2.term], hf2.mem⟩
    | ok hf2 =>
      rename_i w2 v2
      simp only
      have h3 := lazyLoop_framed cs W s (if li.IsInput j 3 then 0 else shift) 3 r.O
        ⟨w2.solution, x.c, w2.loc, w2.termToCompute⟩
        ⟨v2.solution, y.c, v2.loc, v2.termToCompute⟩
        (fun w hw => hW w (List.mem_append_right _ hw))
        ⟨h.c, hf2.loc, hf2.term, hf2.mem, hf2.sol⟩
      generalize lazyLoop cs (if li.IsInput j 3 then 0 else shift) 3 r.O
        ⟨w2.solution, x.c, w2.loc, w2.termToCompute⟩ = r5 at h3
      generalize lazyLoop cs (if li.IsInput j 3 then 0 else shift) 3 r.O
        ⟨v2.solution, y.c, v2.loc, v2.termToCompute⟩ = r6 at h3
      cases h3 with
      | abort => exact .abort
      | err hf3 =>
        exact .err ⟨⟨hf.val, hf2.val, hf3.val, hf3.sol⟩, by simp only [hf3.loc, hf3.term],
          hf3.mem⟩
      | ok hf3 =>
        exact .ok ⟨⟨hf.val, hf2.val, hf3.val, hf3.sol⟩, by simp only [hf3.loc, hf3.term],
          hf3.mem⟩

theorem computeWire_framed (W : List Nat) (s : Solution F) (loc : Nat) (x y : Frame F)
    (h : Frame.Framed W s x y) :
    Res.Both (fun p q => Frame.Framed W s p.1 q.1 ∧ q.2 = p.2)
      (computeWire loc x) (computeWire loc y) := by
  obtain ⟨sx, a, b, c⟩ := x
  obtain ⟨sy, a', b', c'⟩ := y
  obtain ⟨ha, hb, hc, hs⟩ := h
  simp only at ha hb hc hs
  subst ha hb hc
  unfold computeWire
  simp only
  split
  · split
    · exact .ok ⟨⟨rfl, rfl, rfl, hs⟩, rfl⟩
    · split
      · exact .ok ⟨⟨rfl, rfl, rfl, hs⟩, rfl⟩
      · exact .err ⟨⟨rfl, rfl, rfl, hs⟩, rfl⟩
  · split
    · split
      · exact .ok ⟨⟨rfl, rfl, rfl, hs⟩, rfl⟩
      · split
        · exact .ok ⟨⟨rfl, rfl, rfl, hs⟩, rfl⟩
        · exact .err ⟨⟨rfl, rfl, rfl, hs⟩, rfl⟩
    · split
      · exact .ok ⟨⟨rfl, rfl, rfl, hs⟩, rfl⟩
      · exact .ok ⟨⟨rfl, rfl, rfl, hs⟩, rfl⟩

theorem instantiate_framed (cs : R1CS F) (W : List Nat) (s : Solution F) (loc : Nat)
    (t : Term) (ht : loc ≠ 0 → t.WireID ∈ W) (x y : Frame F) (h : Frame.Framed W s x y) :
    Res.Both (Frame.Framed W s) (instantiate cs loc t x) (instantiate cs loc t y) := by
  unfold instantiate
  by_cases hl : loc = 0
  · rw [if_pos hl, if_pos hl, h.a, h.b, h.c]
    split
    · exact .ok h
    · exact .err h
  · rw [if_neg hl, if_neg hl]
    simp only
    have h1 := computeWire_framed W s loc x y h
    generalize computeWire loc x = r1 at h1
    generalize computeWire loc y = r2 at h1
    cases h1 with
    | abort => exact .abort
    | err hf => exact .err hf.1
    | ok hf =>
      rename_i p q
      obtain ⟨p1, wire⟩ := p
      obtain ⟨q1, wire'⟩ := q
      obtain ⟨hf1, hf2⟩ := hf
      simp only at hf1 hf2
      subst hf2
      simp only
      cases divByCoeff cs wire' t with
      | error e => exact .abort
      | ok v =>
        simp only
        have h2 := Solution.set_framed W p1.solution q1.solution t.WireID v (ht hl)
          hf1.sol.agree
        generalize p1.solution.set t.WireID v = r3 at h2
        generalize q1.solution.set t.WireID v = r4 at h2
        cases h2 with
        | error => exact .abort
        | ok hf3 => exact .ok ⟨hf1.a, hf1.b, hf1.c, Solution.framed_after hf1.sol hf3⟩

theorem solveGeneralConstraint_framed (cs : R1CS F) (W : List Nat) (s : Solution F)
    (idx : Nat) (hW : ∀ w ∈ constraintWires cs idx, w ∈ W) (x y : Frame F)
    (h : Frame.Framed W s x y) :
    Res.Both (Frame.Framed W s) (solveGeneralConstraint cs idx x)
      (solveGeneralConstraint cs idx y) := by
  unfold solveGeneralConstraint
  unfold constraintWires at hW
  simp only at hW ⊢
  by_cases hi : idx < cs.Constraints.length
  · rw [if_pos hi] at hW ⊢
    rw [if_pos hi]
    unfold solveConstraint
    cases hr : cs.Constraints[idx]? with
    | none => exact .abort
    | some r =>
      rw [hr] at hW
      simp only at hW ⊢
      unfold solveR1C
      have h1 := walkR1C_framed cs W s r hW x y h
      generalize walkR1C cs r x = r1 at h1
      generalize walkR1C cs r y = r2 at h1
      cases h1 with
      | abort => exact .abort
      | err hf => exact .err hf.1
      | ok hf =>
        rename_i p q
        obtain ⟨p1, loc, t⟩ := p
        obtain ⟨q1, loc', t'⟩ := q
        obtain ⟨hf1, hf2, hf3⟩ := hf
        simp only [Prod.mk.injEq] at hf1 hf2 hf3
        obtain ⟨rfl, rfl⟩ := hf2
        exact instantiate_framed cs W s loc' t' hf3 p1 q1 hf1
  · rw [if_neg hi] at hW ⊢
    rw [if_neg hi]
    cases hli : cs.LazyCons[((cs.LazyConsMap idx).getD default).LazyIndex]? with
    | none => exact .abort
    | some li =>
      rw [hli] at hW
      simp only at hW ⊢
      unfold solveLazyConstraint
      have h1 := walkLazy_framed cs W s li ((cs.LazyConsMap idx).getD default).Index
        li.GetShift _ hW x y h
      generalize walkLazy cs li ((cs.LazyConsMap idx).getD default).Index li.GetShift
        (li.FetchLazy ((cs.LazyConsMap idx).getD default).Index) x = r1 at h1
      generalize walkLazy cs li ((cs.LazyConsMap idx).getD default).Index li.GetShift
        (li.FetchLazy ((cs.LazyConsMap idx).getD default).Index) y = r2 at h1
      cases h1 with
      | abort => exact .abort
      | err hf => exact .err hf.1
      | ok hf =>
        rename_i p q
        obtain ⟨p1, loc, t⟩ := p
        obtain ⟨q1, loc', t'⟩ := q
        obtain ⟨hf1, hf2, hf3⟩ := hf
        simp only [Prod.mk.injEq] at hf1 hf2 hf3
        obtain ⟨rfl, rfl⟩ := hf2
        exact instantiate_framed cs W s loc' t' hf3 p1 q1 hf1

theorem solveAt_ok_iff (cs : R1CS F) (i : Nat) (st s1 : Run F) :
    solveAt cs i st = .ok s1 ↔
      ∃ ai bi ci f, st.a[i]? = some ai ∧ st.b[i]? = some bi ∧ st.c[i]? = some ci ∧
        solveGeneralConstraint cs i ⟨st.solution, ai, bi, ci⟩ = .ok f ∧
        s1 = ⟨f.solution, st.a.set i f.a, st.b.set i f.b, st.c.set i f.c⟩ := by
  unfold solveAt
  constructor
  · intro h
    split at h
    · rename_i ai bi ci ha hb hc
      split at h
      · rename_i f hf
        cases h
        exact ⟨ai, bi, ci, f, ha, hb, hc, hf, rfl⟩
      · cases h
      · cases h
    · cases h
  · rintro ⟨ai, bi, ci, f, ha, hb, hc, hf, rfl⟩
    rw [ha, hb, hc]
    simp only [hf]

theorem solveGeneralConstraint_outside (cs : R1CS F) (idx : Nat) (x f : Frame F)
    (h : solveGeneralConstraint cs idx x = .ok f) :
    x.solution.Outside (constraintWires cs idx) f.solution := by
  have h1 := solveGeneralConstraint_framed cs (constraintWires cs idx) x.solution idx
    (fun _ hw => hw) x x ⟨rfl, rfl, rfl, Solution.framed_start (Solution.agree_self _ _)⟩
  rw [h] at h1
  cases h1 with
  | ok hf => exact hf.sol.outside

theorem agree_of_independent (cs : R1CS F) (i j : Nat) (s s' : Solution F)
    (hind : ∀ w ∈ constraintWires cs i, w ∈ constraintWires cs j → s.solved[w]? = some true)
    (hstep : s.Step s') (hout : s.Outside (constraintWires cs i) s') :
    s.Agree (constraintWires cs j) s' := by
  constructor
  · intro w hw
    by_cases hi : w ∈ constraintWires cs i
    · have hs := hind w hi hw
      rw [hs, (hstep.extends_.keeps w hs).1]
    · exact hout.solved w hi
  · intro w hw
    by_cases hi : w ∈ constraintWires cs i
    · have hs := hind w hi hw
      exact (hstep.extends_.keeps w hs).2
    · exact hout.values w hi

theorem solveAt_swap (cs : R1CS F) (i j : Nat) (st s1 s2 : Run F)
    (hind : Independent cs st.solution i j)
    (h1 : solveAt cs i st = .ok s1) (h2 : solveAt cs j s1 = .ok s2) :
    ∃ s1', solveAt cs j st = .ok s1' ∧ solveAt cs i s1' = .ok s2 := by
  obtain ⟨hne, hsh⟩ := hind
  have hsh' : ∀ w ∈ constraintWires cs j, w ∈ constraintWires cs i →
      st.solution.solved[w]? = some true := fun w hj hi => hsh w hi hj
  obtain ⟨ai, bi, ci, fi, hai, hbi, hci, hfi, rfl⟩ := (solveAt_ok_iff cs i st s1).mp h1
  obtain ⟨aj, bj, cj, fij, haj, hbj, hcj, hfij, rfl⟩ := (solveAt_ok_iff cs j _ s2).mp h2
  simp only at haj hbj hcj hfij
  rw [List.getElem?_set_ne hne] at haj hbj hcj
  -- the run of `i` from the start
  have hSi : st.solution.Step fi.solution := by
    have := solveGeneralConstraint_step cs i ⟨st.solution, ai, bi, ci⟩
    rw [hfi] at this
    exact this
  have hOi := solveGeneralConstraint_outside cs i _ fi hfi
  simp only at hOi
  have hAj : st.solution.Agree (constraintWires cs j) fi.solution :=
    agree_of_independent cs i j _ _ hsh hSi hOi
  -- the run of `j` from the start, in step with its run after `i`
  have hB := solveGeneralConstraint_framed cs (constraintWires cs j) fi.solution j
    (fun _ hw => hw) ⟨fi.solution, aj, bj, cj⟩ ⟨st.solution, aj, bj, cj⟩
    ⟨rfl, rfl, rfl, Solution.framed_start (Solution.agree_flip hAj)⟩
  rw [hfij] at hB
  generalize hfj : solveGeneralConstraint cs j ⟨st.solution, aj, bj, cj⟩ = rj at hB
  cases hB with
  | ok hF =>
    rename_i fj
    have hSj : st.solution.Step fj.solution := by
      have := solveGeneralConstraint_step cs j ⟨st.solution, aj, bj, cj⟩
      rw [hfj] at this
      exact this
    have hSij : fi.solution.Step fij.solution := by
      have := solveGeneralConstraint_step cs j ⟨fi.solution, aj, bj, cj⟩
      rw [hfij] at this
      exact this
    have hOj := solveGeneralConstraint_outside cs j _ fj hfj
    simp only at hOj
    have hAi : st.solution.Agree (constraintWires cs i) fj.solution :=
      agree_of_independent cs j i _ _ hsh' hSj hOj
    -- the run of `i` after `j`, in step with its run from the start
    have hB' := solveGeneralConstraint_framed cs (constraintWires cs i) st.solution i
      (fun _ hw => hw) ⟨st.solution, ai, bi, ci⟩ ⟨fj.solution, ai, bi, ci⟩
      ⟨rfl, rfl, rfl, Solution.framed_start hAi⟩
    rw [hfi] at hB'
    generalize hfji : solveGeneralConstraint cs i ⟨fj.solution, ai, bi, ci⟩ = rji at hB'
    cases hB' with
    | ok hF' =>
      rename_i fji
      have hSji : fj.solution.Step fji.solution := by
        have := solveGeneralConstraint_step cs i ⟨fj.solution, ai, bi, ci⟩
        rw [hfji] at this
        exact this
      have hOji := solveGeneralConstraint_outside cs i _ fji hfji
      simp only at hOji
      have hOij := hF.sol.outside
      -- the two final solutions are the same
      have hkeep : ∀ w, w ∈ constraintWires cs i → w ∈ constraintWires cs j →
          (fji.solution.solved[w]? = fij.solution.solved[w]? ∧
            fji.solution.values[w]? = fij.solution.values[w]?) := by
        intro w hi hj
        have hs := hsh w hi hj
        have k1 := (hSi.andThen hSij).extends_.keeps w hs
        have k2 := (hSj.andThen hSji).extends_.keeps w hs
        exact ⟨k2.1.trans k1.1.symm, k2.2.trans k1.2.symm⟩
      have hsolved : fji.solution.solved = fij.solution.solved := by
        apply List.ext_getElem?
        intro w
        by_cases hi : w ∈ constraintWires cs i <;> by_cases hj : w ∈ constraintWires cs j
        · exact (hkeep w hi hj).1
        · rw [hF'.sol.agree.solved w hi, hOij.solved w hj]
        · rw [hOji.solved w hi, hF.sol.agree.solved w hj]
        · rw [hOji.solved w hi, hOj.solved w hj, hOij.solved w hj, hOi.solved w hi]
      have hvalues : fji.solution.values = fij.solution.values := by
        apply List.ext_getElem?
        intro w
        by_cases hi : w ∈ constraintWires cs i <;> by_cases hj : w ∈ constraintWires cs j
        · exact (hkeep w hi hj).2
        · rw [hF'.sol.agree.values w hi, hOij.values w hj]
        · rw [hOji.values w hi, hF.sol.agree.values w hj]
        · rw [hOji.values w hi, hOj.values w hj, hOij.values w hj, hOi.values w hi]
      have hcount : fji.solution.nbSolved = fij.solution.nbSolved := by
        have c1 := (hSi.andThen hSij).counter
        have c2 := (hSj.andThen hSji).counter
        rw [hsolved] at c2
        omega
      have hsol : fji.solution = fij.solution := by
        cases hq : fji.solution
        cases hq' : fij.solution
        rw [hq, hq'] at hsolved hvalues hcount
        simp only at hsolved hvalues hcount
        rw [hsolved, hvalues, hcount]
      refine ⟨⟨fj.solution, st.a.set j fj.a, st.b.set j fj.b, st.c.set j fj.c⟩, ?_, ?_⟩
      · exact (solveAt_ok_iff cs j st _).mpr ⟨aj, bj, cj, fj, haj, hbj, hcj, hfj, rfl⟩
      · apply (solveAt_ok_iff cs i _ _).mpr
        refine ⟨ai, bi, ci, fji, ?_, ?_, ?_, hfji, ?_⟩
        · simp only
          rw [List.getElem?_set_ne (Ne.symm hne)]
          exact hai
        · simp only
          rw [List.getElem?_set_ne (Ne.symm hne)]
          exact hbi
        · simp only
          rw [List.getElem?_set_ne (Ne.symm hne)]
          exact hci
        · simp only
          rw [hsol, hF.a, hF.b, hF.c, hF'.a, hF'.b, hF'.c,
            List.set_comm _ _ _ hne, List.set_comm _ _ st.b hne, List.set_comm _ _ st.c hne]

theorem independent_symm (cs : R1CS F) (s : Solution F) (i j : Nat)
    (h : Independent cs s i j) : Independent cs s j i :=
  ⟨Ne.symm h.1, fun w hj hi => h.2 w hi hj⟩

theorem independent_mono (cs : R1CS F) (s s' : Solution F) (i j : Nat) (hs : s.Step s')
    (h : Independent cs s i j) : Independent cs s' i j :=
  ⟨h.1, fun w hi hj => (hs.extends_.keeps w (h.2 w hi hj)).1⟩

theorem solveAt_ok_step (cs : R1CS F) (i : Nat) (st st' : Run F)
    (h : solveAt cs i st = .ok st') : st.solution.Step st'.solution := by
  have := solveAt_step cs i st
  rw [h] at this
  exact this

theorem solveTask_cons_ok (cs : R1CS F) (i : Nat) (l : List Nat) (st st' : Run F) :
    solveTask cs (i :: l) st = .ok st' ↔
      ∃ s1, solveAt cs i st = .ok s1 ∧ solveTask cs l s1 = .ok st' := by
  constructor
  · intro h
    unfold solveTask at h
    split at h
    · rename_i s1 h1
      exact ⟨s1, h1, h⟩
    · cases h
    · cases h
  · rintro ⟨s1, h1, h2⟩
    unfold solveTask
    rw [h1]
    exact h2

theorem solveTask_move_front (cs : R1CS F) (A : List Nat) :
    ∀ (i : Nat) (B : List Nat) (st st' : Run F),
      (∀ a ∈ A, Independent cs st.solution a i) →
      solveTask cs (A ++ i :: B) st = .ok st' →
      ∃ st1, solveAt cs i st = .ok st1 ∧ solveTask cs (A ++ B) st1 = .ok st' := by
  induction A with
  | nil =>
    intro i B st st' _ h
    exact (solveTask_cons_ok cs i B st st').mp h
  | cons a A ih =>
    intro i B st st' hind h
    rw [List.cons_append] at h
    obtain ⟨sa, ha, h'⟩ := (solveTask_cons_ok cs a _ st st').mp h
    have hstep := solveAt_ok_step cs a st sa ha
    obtain ⟨s1, hi1, hrest⟩ := ih i B sa st'
      (fun x hx => independent_mono cs _ _ x i hstep (hind x (List.mem_cons_of_mem _ hx))) h'
    obtain ⟨si, hi, hai⟩ := solveAt_swap cs a i st sa s1 (hind a (List.mem_cons_self _ _)) ha hi1
    refine ⟨si, hi, ?_⟩
    rw [List.cons_append]
    exact (solveTask_cons_ok cs a _ si st').mpr ⟨s1, hai, hrest⟩

theorem solveTask_move_back (cs : R1CS F) (A : List Nat) :
    ∀ (i : Nat) (B : List Nat) (st st1 st' : Run F),
      (∀ a ∈ A, Independent cs st.solution a i) →
      solveAt cs i st = .ok st1 → solveTask cs (A ++ B) st1 = .ok st' →
      solveTask cs (A ++ i :: B) st = .ok st' := by
  induction A with
  | nil =>
    intro i B st st1 st' _ hi h
    exact (solveTask_cons_ok cs i B st st').mpr ⟨st1, hi, h⟩
  | cons a A ih =>
    intro i B st st1 st' hind hi h
    rw [List.cons_append] at h ⊢
    obtain ⟨s2, ha, h'⟩ := (solveTask_cons_ok cs a _ st1 st').mp h
    obtain ⟨sa, ha0, hi0⟩ := solveAt_swap cs i a st st1 s2
      (independent_symm cs _ a i (hind a (List.mem_cons_self _ _))) hi ha
    have hstep := solveAt_ok_step cs a st sa ha0
    refine (solveTask_cons_ok cs a _ st st').mpr ⟨sa, ha0, ?_⟩
    exact ih i B sa s2 st'
      (fun x hx => independent_mono cs _ _ x i hstep (hind x (List.mem_cons_of_mem _ hx)))
      hi0 h'

theorem flatten_pick (tasks : List (List Nat)) :
    ∀ (k i : Nat) (rest : List Nat), tasks[k]? = some (i :: rest) →
      ∃ A B, tasks.flatten = A ++ i :: B ∧ (tasks.set k rest).flatten = A ++ B := by
  induction tasks with
  | nil => intro k i rest h; simp at h
  | cons t ts ih =>
    intro k i rest h
    cases k with
    | zero =>
      simp only [List.getElem?_cons_zero, Option.some.injEq] at h
      subst h
      exact ⟨[], rest ++ ts.flatten, by simp, by simp⟩
    | succ k =>
      simp only [List.getElem?_cons_succ] at h
      obtain ⟨A, B, h1, h2⟩ := ih k i rest h
      refine ⟨t ++ A, B, ?_, ?_⟩
      · simp only [List.flatten_cons, h1, List.append_assoc]
      · simp only [List.set_cons_succ, List.flatten_cons, h2, List.append_assoc]

theorem keepFirst_some_ne_ok (e : Error F) (r : Res (Error F) (Run F)) (st' : Run F) :
    keepFirst (some e) r ≠ .ok st' := by
  unfold keepFirst
  cases r <;> simp

theorem runScheduled_some_ne_ok (cs : R1CS F) (sched : List Nat) :
    ∀ (tasks : List (List Nat)) (e : Error F) (st st' : Run F),
      runScheduled cs sched tasks (some e) st ≠ .ok st' := by
  induction sched with
  | nil =>
    intro tasks e st st'
    unfold runScheduled
    exact keepFirst_some_ne_ok e _ st'
  | cons k sched ih =>
    intro tasks e st st'
    unfold runScheduled
    split
    · split
      · intro h; cases h
      · exact ih _ _ _ _
      · exact ih _ _ _ _
    · exact ih _ _ _ _

theorem runScheduled_ok_iff (cs : R1CS F) (sched : List Nat) :
    ∀ (tasks : List (List Nat)) (st st' : Run F),
      tasks.flatten.Pairwise (Independent cs st.solution) →
      (runScheduled cs sched tasks none st = .ok st' ↔
        solveTask cs tasks.flatten st = .ok st') := by
  induction sched with
  | nil =>
    intro tasks st st' _
    unfold runScheduled
    exact runTasks_ok_iff cs tasks st st'
  | cons k sched ih =>
    intro tasks st st' hp
    unfold runScheduled
    split
    · rename_i i rest hk
      obtain ⟨A, B, hA, hB⟩ := flatten_pick tasks k i rest hk
      rw [hA] at hp ⊢
      have hAi : ∀ a ∈ A, Independent cs st.solution a i := by
        intro a ha
        exact (List.pairwise_append.mp hp).2.2 a ha i (List.mem_cons_self _ _)
      have hsub : (A ++ B).Pairwise (Independent cs st.solution) :=
        hp.sublist (List.Sublist.append_left (List.sublist_cons_self i B) A)
      constructor
      · intro h
        split at h
        · cases h
        · rename_i st1 h1
          have hstep := solveAt_ok_step cs i st st1 h1
          have := (ih (tasks.set k rest) st1 st' (by
            rw [hB]
            exact hsub.imp (fun hx => independent_mono cs _ _ _ _ hstep hx))).mp h
          rw [hB] at this
          exact solveTask_move_back cs A i B st st1 st' hAi h1 this
        · exact absurd h (runScheduled_some_ne_ok cs sched _ _ _ _)
      · intro h
        obtain ⟨st1, h1, hrest⟩ := solveTask_move_front cs A i B st st' hAi h
        have hstep := solveAt_ok_step cs i st st1 h1
        rw [h1]
        simp only
        apply (ih (tasks.set k rest) st1 st' (by
          rw [hB]
          exact hsub.imp (fun hx => independent_mono cs _ _ _ _ hstep hx))).mpr
        rw [hB]
        exact hrest
    · exact ih tasks st st' hp

theorem solveLevelScheduled_ok_iff (cs : R1CS F) (numCPU : Nat) (hP : 1 ≤ numCPU)
    (sched level : List Nat) (st st' : Run F)
    (hp : level.Pairwise (Independent cs st.solution)) :
    solveLevelScheduled cs numCPU sched level st = .ok st' ↔
      solveTask cs level st = .ok st' := by
  unfold solveLevelScheduled
  split
  · exact Iff.rfl
  · rename_i hn
    have ht := levelTasks_ok numCPU level hP (by omega)
    have hf := levelTasks_flatten numCPU level _ ht
    rw [ht]
    simp only
    rw [runScheduled_ok_iff cs sched _ st st' (by rw [hf]; exact hp), hf]

theorem solveLevelsScheduled_ok_iff (cs : R1CS F) (numCPU : Nat) (hP : 1 ≤ numCPU)
    (ls : List (List Nat)) :
    ∀ (scheds : List (List Nat)) (st st' : Run F), LevelInvariant cs ls st →
      (solveLevelsScheduled cs numCPU scheds ls st = .ok st' ↔
        solveTask cs ls.flatten st = .ok st') := by
  induction ls with
  | nil => intro scheds st st' _; simp [solveLevelsScheduled, solveTask]
  | cons l ls ih =>
    intro scheds st st' hinv
    obtain ⟨hp, hnext⟩ := hinv
    have hl := fun s1 => solveLevelScheduled_ok_iff cs numCPU hP (scheds.headD []) l st s1 hp
    rw [List.flatten_cons, solveTask_append]
    unfold solveLevelsScheduled
    cases h1 : solveLevelScheduled cs numCPU (scheds.headD []) l st with
    | ok st1 =>
      have h2 := (hl st1).mp h1
      rw [h2] at hnext ⊢
      exact ih scheds.tail st1 st' hnext
    | abort p =>
      simp only
      constructor
      · intro h; cases h
      · intro h
        cases h2 : solveTask cs l st with
        | ok st1 =>
          rw [(hl st1).mpr h2] at h1
          cases h1
        | abort p' => rw [h2] at h; cases h
        | err e st1 => rw [h2] at h; cases h
    | err e st1 =>
      simp only
      constructor
      · intro h; cases h
      · intro h
        cases h2 : solveTask cs l st with
        | ok st2 =>
          rw [(hl st2).mpr h2] at h1
          cases h1
        | abort p' => rw [h2] at h; cases h
        | err e' st2 => rw [h2] at h; cases h

theorem SolveScheduled_run (cs : R1CS F) (numCPU : Nat) (scheds : List (List Nat))
    (witness a b c : List F)
    (hw : (witness.length : Int) =
      (cs.NbPublicVariables : Int) - 1 + (cs.NbSecretVariables : Int))
    (hn : a.length = cs.Constraints.length + GetConstraintsAll cs.LazyCons ∧
      b.length = cs.Constraints.length + GetConstraintsAll cs.LazyCons ∧
      c.length = cs.Constraints.length + GetConstraintsAll cs.LazyCons) :
    SolveScheduled cs numCPU scheds witness a b c =
      match seed (newSolution (F := F)
          (cs.NbPublicVariables + cs.NbSecretVariables + cs.NbInternalVariables)).1 witness with
      | .error p => .error p
      | .ok s0 =>
        match parallelSolveScheduled cs numCPU scheds ⟨s0, a, b, c⟩ with
        | .abort p => .error p
        | .err err st => .ok ⟨st.solution.values, some err, st.a, st.b, st.c⟩
        | .ok st =>
          if !st.solution.isValid then .error .notAllWiresInstantiated
          else .ok ⟨st.solution.values, none, st.a, st.b, st.c⟩ := by
  unfold SolveScheduled seed
  simp only [newSolution]
  rw [if_neg (not_not.mpr hw)]
  rw [if_neg (by simp [hn.1, hn.2.1, hn.2.2])]
  cases hv : List.replicate
      (cs.NbPublicVariables + cs.NbSecretVariables + cs.NbInternalVariables) (0 : F) with
  | nil => rfl
  | cons v vs =>
    cases hs : List.replicate
        (cs.NbPublicVariables + cs.NbSecretVariables + cs.NbInternalVariables) false with
    | nil => rfl
    | cons b sv =>
      simp only
      cases markSolved (true :: sv) witness.length with
      | error p => rfl
      | ok solved => rfl

theorem SolveScheduled_size_ok (cs : R1CS F) (numCPU : Nat) (scheds : List (List Nat))
    (witness a b c : List F) (out : Output F)
    (h : SolveScheduled cs numCPU scheds witness a b c = .ok out) (hnil : out.err = none) :
    (witness.length : Int) =
      (cs.NbPublicVariables : Int) - 1 + (cs.NbSecretVariables : Int) ∧
    (a.length = cs.Constraints.length + GetConstraintsAll cs.LazyCons ∧
      b.length = cs.Constraints.length + GetConstraintsAll cs.LazyCons ∧
      c.length = cs.Constraints.length + GetConstraintsAll cs.LazyCons) := by
  by_cases hw : (witness.length : Int) =
      (cs.NbPublicVariables : Int) - 1 + (cs.NbSecretVariables : Int)
  · refine ⟨hw, ?_⟩
    by_contra hn
    have hn' : a.length ≠ cs.Constraints.length + GetConstraintsAll cs.LazyCons ∨
        b.length ≠ cs.Constraints.length + GetConstraintsAll cs.LazyCons ∨
        c.length ≠ cs.Constraints.length + GetConstraintsAll cs.LazyCons := by
      by_contra hx
      push_neg at hx
      exact hn hx
    unfold SolveScheduled at h
    simp only [newSolution] at h
    rw [if_neg (not_not.mpr hw), if_pos hn'] at h
    cases h
    simp at hnil
  · unfold SolveScheduled at h
    simp only [newSolution] at h
    rw [if_pos hw] at h
    cases h
    simp at hnil

theorem SolveScheduled_nil_seeded (cs : R1CS F) (numCPU : Nat) (scheds : List (List Nat))
    (witness a b c : List F) (out : Output F)
    (h : SolveScheduled cs numCPU scheds witness a b c = .ok out) (hnil : out.err = none) :
    ∃ (s0 : Solution F) (st : Run F),
      seed (newSolution (F := F)
        (cs.NbPublicVariables + cs.NbSecretVariables + cs.NbInternalVariables)).1 witness
          = .ok s0 ∧
      parallelSolveScheduled cs numCPU scheds ⟨s0, a, b, c⟩ = .ok st ∧
      st.solution.isValid = true ∧
      out = ⟨st.solution.values, none, st.a, st.b, st.c⟩ := by
  obtain ⟨hw, hn⟩ := SolveScheduled_size_ok cs numCPU scheds witness a b c out h hnil
  rw [SolveScheduled_run cs numCPU scheds witness a b c hw hn] at h
  split at h
  · cases h
  · rename_i s0 hs
    split at h
    · cases h
    · cases h; simp at hnil
    · rename_i st hps
      split at h
      · cases h
      · rename_i hv
        cases h
        refine ⟨s0, st, hs, hps, ?_, rfl⟩
        simpa using hv

theorem SolveScheduled_empty (cs : R1CS F) (numCPU : Nat) (witness a b c : List F) :
    SolveScheduled cs numCPU [] witness a b c = Solve cs numCPU witness a b c := by
  have hl : ∀ (level : List Nat) (st : Run F),
      solveLevelScheduled cs numCPU [] level st = solveLevel cs numCPU level st := by
    intro level st
    unfold solveLevelScheduled solveLevel
    split
    · rfl
    · split
      · rfl
      · unfold runScheduled keepFirst
        rfl
  have hls : ∀ (ls : List (List Nat)) (st : Run F),
      solveLevelsScheduled cs numCPU [] ls st = solveLevels cs numCPU ls st := by
    intro ls
    induction ls with
    | nil => intro st; rfl
    | cons l ls ih =>
      intro st
      unfold solveLevelsScheduled solveLevels
      simp only [List.headD_nil, List.tail_nil, hl]
      cases solveLevel cs numCPU l st with
      | ok st1 => exact ih st1
      | err e st1 => rfl
      | abort p => rfl
  unfold SolveScheduled Solve parallelSolveScheduled parallelSolve
  simp only [hls]

/-- C22, amended: for every constraint system and witness whose levels satisfy
the level invariant (two constraints of a level share only wires that are
solved when the level begins), whenever `Solve` returns a nil error with some
number of workers following some schedule, it returns a nil error with the
same wire values and the same `a`, `b`, `c` for every number of workers and
every schedule, whether a level is run sequentially or cut into tasks. -/
theorem Solve_workers_independent (cs : R1CS F) (numCPU numCPU' : Nat)
    (scheds scheds' : List (List Nat)) (witness a b c : List F) (out : Output F)
    (hP : 1 ≤ numCPU) (hP' : 1 ≤ numCPU')
    (hinv : LevelsIndependent cs witness a b c)
    (h : SolveScheduled cs numCPU scheds witness a b c = .ok out) (hnil : out.err = none) :
    SolveScheduled cs numCPU' scheds' witness a b c = .ok out := by
  obtain ⟨hw, hn⟩ := SolveScheduled_size_ok cs numCPU scheds witness a b c out h hnil
  obtain ⟨s0, st, hs, hps, hv, rfl⟩ :=
    SolveScheduled_nil_seeded cs numCPU scheds witness a b c out h hnil
  unfold LevelsIndependent at hinv
  rw [hs] at hinv
  simp only at hinv
  have hps' : parallelSolveScheduled cs numCPU' scheds' ⟨s0, a, b, c⟩ = .ok st := by
    unfold parallelSolveScheduled at hps ⊢
    rw [solveLevelsScheduled_ok_iff cs numCPU' hP' _ _ _ _ hinv]
    exact (solveLevelsScheduled_ok_iff cs numCPU hP _ _ _ _ hinv).mp hps
  rw [SolveScheduled_run cs numCPU' scheds' witness a b c hw hn, hs]
  simp only [hps', hv]
  rfl

theorem Solve_workers_independent_witness :
    SolveScheduled sixtyOnesCS 2 [[1, 0, 1, 1, 0, 0, 1]] [] (List.replicate 60 0)
        (List.replicate 60 0) (List.replicate 60 0) =
      .ok ⟨[1], none, List.replicate 60 1, List.replicate 60 1, List.replicate 60 1⟩ :=
  Solve_workers_independent sixtyOnesCS 1 2 [] [[1, 0, 1, 1, 0, 0, 1]] []
    (List.replicate 60 0) (List.replicate 60 0) (List.replicate 60 0)
    ⟨[1], none, List.replicate 60 1, List.replicate 60 1, List.replicate 60 1⟩
    (by decide) (by decide) (by decide!) (by decide!) rfl

/-- C22 as stated fails when a constraint is not satisfied: the level of 60
constraints of `sixtyCS`, which refer to the constant wire alone, satisfies the
level invariant, and its first constraint fails. One worker gets the whole
level as its task and stops at the failure, whereas with two workers the
second task is still run and fills the entries `30 .. 59` (here under the
schedule in push order and under another one); the error is the same, the
vectors `a`, `b`, `c` are not. -/
theorem Solve_workers_differ_on_failure :
    LevelsIndependent sixtyCS [] (List.replicate 60 0) (List.replicate 60 0)
      (List.replicate 60 0) ∧
    SolveScheduled sixtyCS 1 [] [] (List.replicate 60 0) (List.replicate 60 0)
        (List.replicate 60 0) =
      .ok ⟨[1], some (.unsatisfiedConstraint 0 (.notEqual 1 1 0)),
        1 :: List.replicate 59 0, 1 :: List.replicate 59 0, List.replicate 60 0⟩ ∧
    SolveScheduled sixtyCS 2 [] [] (List.replicate 60 0) (List.replicate 60 0)
        (List.replicate 60 0) =
      .ok ⟨[1], some (.unsatisfiedConstraint 0 (.notEqual 1 1 0)),
        1 :: (List.replicate 29 0 ++ List.replicate 30 1),
        1 :: (List.replicate 29 0 ++ List.replicate 30 1),
        List.replicate 30 0 ++ List.replicate 30 1⟩ ∧
    SolveScheduled sixtyCS 2 [[1, 1, 0, 1]] [] (List.replicate 60 0) (List.replicate 60 0)
        (List.replicate 60 0) =
      .ok ⟨[1], some (.unsatisfiedConstraint 0 (.notEqual 1 1 0)),
        1 :: (List.replicate 29 0 ++ List.replicate 30 1),
        1 :: (List.replicate 29 0 ++ List.replicate 30 1),
        List.replicate 30 0 ++ List.replicate 30 1⟩ := by
  decide!

theorem computeWire_zero_factor (loc : Nat) (st : Frame F)
    (h : (loc = 1 ∧ st.b = 0) ∨ (loc = 2 ∧ st.a = 0)) :
    computeWire loc st =
      if st.c = 0 then .ok (st, 0) else .err (.notEqual st.a st.b st.c) (st, 0) := by
  unfold computeWire
  rcases h with ⟨rfl, hb⟩ | ⟨rfl, ha⟩
  · simp only [if_true, hb, ne_eq, not_true_eq_false, if_false, mul_zero]
    by_cases hc : st.c = 0
    · simp [hc]
    · rw [if_neg (fun h => hc h.symm), if_neg hc]
  · simp only [show ¬ (2 = 1) by decide, if_false, if_true, ha, ne_eq, not_true_eq_false,
      zero_mul]
    by_cases hc : st.c = 0
    · simp [hc]
    · rw [if_neg (fun h => hc h.symm), if_neg hc]

/-- C25, amended: when the term to compute is in `L` and `b_acc = 0`
(symmetrically: in `R` and `a_acc = 0`), `solveConstraint` returns the
unsatisfied-constraint error in the state the walks left, setting no wire, if
`c_acc` is non-zero. If `c_acc = 0`, the term does not carry the reserved zero
coefficient id, its coefficient id is the reserved id of 1 or of -1 or an index
into the coefficient table, and its wire is still unset after the walks and has
a place in the value array, then `solveConstraint` returns nil, leaves `a`,
`b`, `c` as accumulated and sets the wire of the term to the field element 0.
Whenever it returns nil with `c_acc = 0`, `a`, `b`, `c` are as accumulated and
the wire of the term is solved with the value 0. -/
theorem zero_factor_branch (cs : R1CS F) (i : Nat) (r : R1C) (st st1 : Frame F)
    (loc : Nat) (t : Term)
    (hr : cs.Constraints[i]? = some r)
    (hw : walkR1C cs r st = .ok (st1, loc, t))
    (hz : (loc = 1 ∧ st1.b = 0) ∨ (loc = 2 ∧ st1.a = 0)) :
    (st1.c ≠ 0 →
      solveConstraint cs i st = .err (.notEqual st1.a st1.b st1.c) st1) ∧
    (st1.c = 0 → t.CoeffID ≠ CoeffIdZero →
      (t.CoeffID = CoeffIdOne ∨ t.CoeffID = CoeffIdMinusOne ∨
        t.CoeffID < cs.Coefficients.length) →
      st1.solution.solved[t.WireID]? = some false →
      t.WireID < st1.solution.values.length →
      solveConstraint cs i st =
        .ok { st1 with solution := ⟨st1.solution.values.set t.WireID 0,
          st1.solution.solved.set t.WireID true, st1.solution.nbSolved + 1⟩ }) ∧
    (st1.c = 0 → ∀ st', solveConstraint cs i st = .ok st' →
      st'.a = st1.a ∧ st'.b = st1.b ∧ st'.c = st1.c ∧
      st'.solution.values[t.WireID]? = some 0 ∧
      st'.solution.solved[t.WireID]? = some true) := by
  have hl : loc ≠ 0 := by rcases hz with ⟨rfl, -⟩ | ⟨rfl, -⟩ <;> decide
  have hsc : solveConstraint cs i st = instantiate cs loc t st1 := by
    unfold solveConstraint
    rw [hr]
    simp only
    unfold solveR1C
    rw [hw]
  have hcw := computeWire_zero_factor loc st1 hz
  have hzero : ∀ v, divByCoeff cs 0 t = .ok v → v = 0 := by
    intro v hv
    obtain ⟨k, -, rfl⟩ := divByCoeff_ok cs 0 v t hv
    simp
  refine ⟨?_, ?_, ?_⟩
  · intro hc
    rw [hsc]
    unfold instantiate
    rw [if_neg hl]
    simp only [hcw, if_neg hc]
  · intro hc h0 hid hs hv
    have hd : divByCoeff cs 0 t = .ok 0 := by
      unfold divByCoeff
      by_cases h1 : t.CoeffID = CoeffIdOne
      · rw [if_pos h1]
      · rw [if_neg h1]
        by_cases h2 : t.CoeffID = CoeffIdMinusOne
        · rw [if_pos h2, neg_zero]
        · rw [if_neg h2, if_neg h0]
          have hlt : t.CoeffID < cs.Coefficients.length := by
            rcases hid with h | h | h
            · exact absurd h h1
            · exact absurd h h2
            · exact h
          rw [List.getElem?_eq_getElem hlt]
          simp only [zero_div]
    have hset : st1.solution.set t.WireID 0 =
        .ok ⟨st1.solution.values.set t.WireID 0, st1.solution.solved.set t.WireID true,
          st1.solution.nbSolved + 1⟩ := by
      unfold Solution.set
      rw [hs]
      simp only
      rw [if_pos hv]
    rw [hsc]
    unfold instantiate
    rw [if_neg hl]
    simp only [hcw, if_pos hc, hd, hset]
  · intro hc st' h
    rw [hsc] at h
    obtain ⟨st2, wire, wire', hcw', hd, hs, ea, eb, ec⟩ := instantiate_ok_set cs loc t st1 st' hl h
    rw [hcw, if_pos hc] at hcw'
    simp only [Res.ok.injEq, Prod.mk.injEq] at hcw'
    obtain ⟨rfl, rfl⟩ := hcw'
    have hv0 := hzero wire' hd
    obtain ⟨-, k1, k2⟩ := Solution.set_extends _ _ _ _ hs
    exact ⟨ea, eb, ec, by rw [k2, hv0], k1⟩

theorem zero_factor_branch_witness :
    solveConstraint factorCS 0 ⟨⟨[1, 0, 0, 0], [true, true, true, false], 3⟩, 0, 0, 0⟩ =
      .ok ⟨⟨[1, 0, 0, 0], [true, true, true, true], 4⟩, 0, 0, 0⟩ :=
  (zero_factor_branch factorCS 0 ⟨[⟨1, 3⟩], [⟨1, 1⟩], [⟨1, 2⟩]⟩
    ⟨⟨[1, 0, 0, 0], [true, true, true, false], 3⟩, 0, 0, 0⟩
    ⟨⟨[1, 0, 0, 0], [true, true, true, false], 3⟩, 0, 0, 0⟩ 1 ⟨1, 3⟩
    (by decide) (by decide) (Or.inl ⟨rfl, rfl⟩)).2.1 rfl (by decide) (Or.inl rfl)
    (by decide) (by decide)

/-- C25 as stated fails when the term to compute carries the reserved zero
coefficient id: for `(0 * w) * x = 0` with `x = 0` the walks leave
`b_acc = 0` and `c_acc = 0` with the term of `w` to compute in `L`, and
`solveConstraint` does not return nil but panics with "division by 0". -/
theorem zero_factor_division_panic :
    walkR1C zeroIdCS ⟨[⟨0, 2⟩], [⟨1, 1⟩], []⟩
        ⟨⟨[1, 0, 0], [true, true, false], 2⟩, 0, 0, 0⟩ =
      .ok (⟨⟨[1, 0, 0], [true, true, false], 2⟩, 0, 0, 0⟩, 1, ⟨0, 2⟩) ∧
    solveConstraint zeroIdCS 0 ⟨⟨[1, 0, 0], [true, true, false], 2⟩, 0, 0, 0⟩ =
      .abort .divisionByZero := by
  decide

/-! ### The pairing gadget -/

theorem tripleRound_product {Fp E2 E12 : Type} [Field Fp] [Field E2] [Algebra Fp E2]
    [CommRing E12] (ops : E12Ops E2 E12) (h : ops.IsRing)
    (xOverY yInv : Fin 3 → Fp) (Q : Fin 3 → G2Affine E2) (i : Nat)
    (st : E12 × (Fin 3 → G2Affine E2)) (m : Fin 3 → E12 × G2Affine E2)
    (hres : st.1 = (m 0).1 * (m 1).1 * (m 2).1) (hq : ∀ k, st.2 k = (m k).2) :
    (tripleRound ops xOverY yInv Q st i).1 =
        (millerRound ops (xOverY 0) (yInv 0) (Q 0) (m 0) i).1 *
        (millerRound ops (xOverY 1) (yInv 1) (Q 1) (m 1) i).1 *
        (millerRound ops (xOverY 2) (yInv 2) (Q 2) (m 2) i).1 ∧
      ∀ k, (tripleRound ops xOverY yInv Q st i).2 k =
        (millerRound ops (xOverY k) (yInv k) (Q k) (m k) i).2 := by
  obtain ⟨sp, hsp⟩ : ∃ sp : E2 → E2 → E12, ∀ z c3 c4, ops.MulBy034 z c3 c4 = z * sp c3 c4 :=
    ⟨fun c3 c4 => ops.MulBy034 1 c3 c4, h.mulBy034⟩
  have h10 : (1 : Fin 3) ≠ 0 := by decide
  have h20 : (2 : Fin 3) ≠ 0 := by decide
  have h21 : (2 : Fin 3) ≠ 1 := by decide
  have h01 : (0 : Fin 3) ≠ 1 := by decide
  have h02 : (0 : Fin 3) ≠ 2 := by decide
  have h12 : (1 : Fin 3) ≠ 2 := by decide
  unfold tripleRound millerRound
  by_cases hb : ateLoopBin i = 0
  · simp only [List.foldl_cons, List.foldl_nil, tripleBody, hb, if_true, hsp, h.square,
      Function.update_same, Function.update_noteq h10, Function.update_noteq h20,
      Function.update_noteq h21, hq, hres]
    refine ⟨by ring, ?_⟩
    intro k
    fin_cases k
    · show Function.update _ 2 _ 0 = _
      rw [Function.update_noteq h02, Function.update_noteq h01, Function.update_same]
      rfl
    · show Function.update _ 2 _ 1 = _
      rw [Function.update_noteq h12, Function.update_same]
      rfl
    · show Function.update _ 2 _ 2 = _
      rw [Function.update_same]
      rfl
  · simp only [List.foldl_cons, List.foldl_nil, tripleBody, hb, if_false, hsp, h.square,
      Function.update_same, Function.update_noteq h10, Function.update_noteq h20,
      Function.update_noteq h21, hq, hres]
    refine ⟨by ring, ?_⟩
    intro k
    fin_cases k
    · show Function.update _ 2 _ 0 = _
      rw [Function.update_noteq h02, Function.update_noteq h01, Function.update_same]
      rfl
    · show Function.update _ 2 _ 1 = _
      rw [Function.update_noteq h12, Function.update_same]
      rfl
    · show Function.update _ 2 _ 2 = _
      rw [Function.update_same]
      rfl

theorem tripleRounds_product {Fp E2 E12 : Type} [Field Fp] [Field E2] [Algebra Fp E2]
    [CommRing E12] (ops : E12Ops E2 E12) (h : ops.IsRing)
    (xOverY yInv : Fin 3 → Fp) (Q : Fin 3 → G2Affine E2) (is : List Nat) :
    ∀ (st : E12 × (Fin 3 → G2Affine E2)) (m : Fin 3 → E12 × G2Affine E2),
      st.1 = (m 0).1 * (m 1).1 * (m 2).1 → (∀ k, st.2 k = (m k).2) →
      (is.foldl (tripleRound ops xOverY yInv Q) st).1 =
        (is.foldl (millerRound ops (xOverY 0) (yInv 0) (Q 0)) (m 0)).1 *
        (is.foldl (millerRound ops (xOverY 1) (yInv 1) (Q 1)) (m 1)).1 *
        (is.foldl (millerRound ops (xOverY 2) (yInv 2) (Q 2)) (m 2)).1 := by
  induction is with
  | nil => intro st m hres _; simpa using hres
  | cons i is ih =>
    intro st m hres hq
    obtain ⟨h1, h2⟩ := tripleRound_product ops h xOverY yInv Q i st m hres hq
    simp only [List.foldl_cons]
    exact ih _ (fun k => millerRound ops (xOverY k) (yInv k) (Q k) (m k) i) h1 h2

/-- C23: for all points `P[0..2]` and `Q[0..2]`, when the operations on `E12`
are those of a commutative ring, `TripleMillerLoop(P, Q)` is the product
`MillerLoop(P[0], Q[0]) * MillerLoop(P[1], Q[1]) * MillerLoop(P[2], Q[2])`. -/
theorem TripleMillerLoop_eq_product {Fp E2 E12 : Type} [Field Fp] [Field E2]
    [Algebra Fp E2] [CommRing E12] (ops : E12Ops E2 E12) (h : ops.IsRing)
    (P : Fin 3 → G1Affine Fp) (Q : Fin 3 → G2Affine E2) :
    TripleMillerLoop ops P Q =
      MillerLoop ops (P 0) (Q 0) * MillerLoop ops (P 1) (Q 1) * MillerLoop ops (P 2) (Q 2) := by
  unfold TripleMillerLoop MillerLoop
  exact tripleRounds_product ops h _ _ Q _ (ops.SetOne, Q) (fun k => (ops.SetOne, Q k))
    (by simp [h.one]) (fun _ => rfl)

theorem TripleMillerLoop_eq_product_witness :
    TripleMillerLoop exampleOps exampleP exampleQ =
      MillerLoop exampleOps (exampleP 0) (exampleQ 0) *
        MillerLoop exampleOps (exampleP 1) (exampleQ 1) *
        MillerLoop exampleOps (exampleP 2) (exampleQ 2) :=
  TripleMillerLoop_eq_product exampleOps
    ⟨rfl, fun _ => rfl, fun z c3 c4 => by simp [exampleOps]⟩ exampleP exampleQ

/-! ### The Poseidon gadget -/

theorem tableAt_neg {α : Type} (table : List α) (i : Int) (h : i < 0) :
    tableAt table i = none := by
  unfold tableAt
  rw [if_pos h]

theorem fullInner_neg (c : Constants F) (index : Int) (h : index < 0) (js : List Nat)
    (hjs : js ≠ []) (st : List F × Nat) : fullInner c index js st = none := by
  cases js with
  | nil => exact absurd rfl hjs
  | cons j js =>
    unfold fullInner
    rw [tableAt_neg _ _ h]

theorem fullLoop_nil (c : Constants F) (index : Int) (n rc : Nat) :
    fullLoop c 0 index n (([] : List F), rc) = some ([], rc) := by
  induction n with
  | zero => rfl
  | succ n ih =>
    unfold fullLoop
    simp only [List.range_zero, fullInner, mix, List.length_nil, mixRows]
    exact ih

theorem fullRounds_narrow (c : Constants F) (state : List F) (rc : Nat)
    (h : state.length ≤ 2) :
    fullRounds c state rc = none ∨ fullRounds c state rc = some (state, rc) := by
  unfold fullRounds
  simp only
  cases hrf : c.RF / 2 with
  | zero => right; rfl
  | succ n =>
    cases state with
    | nil => right; exact fullLoop_nil c _ _ rc
    | cons x xs =>
      left
      unfold fullLoop
      rw [fullInner_neg c _ (by omega) _ (by simp)]

theorem partialRounds_narrow (c : Constants F) (state : List F) (rc : Nat)
    (h : state.length ≤ 2) : partialRounds c state rc = none := by
  unfold partialRounds
  simp only
  rw [tableAt_neg _ _ (by omega)]

theorem permutation_narrow (c : Constants F) (state : List F) (h : state.length ≤ 2) :
    permutation c state = none := by
  unfold permutation
  rcases fullRounds_narrow c state 0 h with h1 | h1
  · rw [h1]
  · rw [h1]
    simp only
    rw [partialRounds_narrow c state 0 h]

theorem registerAndPermute_narrow (c : Constants F) (g : List F → Option Nat)
    (l : List (Nat × List F)) (state : List F) (h : state.length ≤ 2) :
    ∃ l' p, registerAndPermute c g l state = .error (l', p) ∧
      (p = .constraintsNum ∨ p = .indexOutOfRange) ∧
      ((∀ s, g s ≠ none) → p = .indexOutOfRange) := by
  unfold registerAndPermute
  cases hg : g state with
  | none => exact ⟨_, _, rfl, Or.inl rfl, fun hs => absurd hg (hs state)⟩
  | some n =>
    simp only [permutation_narrow c state h]
    exact ⟨_, _, rfl, Or.inr rfl, fun _ => rfl⟩

theorem registerAndPermute_error (c : Constants F) (g : List F → Option Nat)
    (l l' : List (Nat × List F)) (state : List F) (p : PoseidonPanic)
    (h : registerAndPermute c g l state = .error (l', p)) :
    (p = .constraintsNum ∨ p = .indexOutOfRange) ∧
      ((∀ s, g s ≠ none) → p = .indexOutOfRange) := by
  unfold registerAndPermute at h
  cases hg : g state with
  | none =>
    rw [hg] at h
    simp only [Except.error.injEq, Prod.mk.injEq] at h
    exact ⟨Or.inl h.2.symm, fun hs => absurd hg (hs state)⟩
  | some n =>
    rw [hg] at h
    simp only at h
    split at h
    · simp only [Except.error.injEq, Prod.mk.injEq] at h
      exact ⟨Or.inr h.2.symm, fun _ => h.2.symm⟩
    · cases h

theorem hashChain_error (c : Constants F) (g : List F → Option Nat) (input : List F)
    (n : Nat) :
    ∀ (i : Nat) (sp : Sponge F) (l : List (Nat × List F)) (p : PoseidonPanic),
      hashChain c g input n i sp = .error (l, p) →
      (p = .constraintsNum ∨ p = .indexOutOfRange) ∧
        ((∀ s, g s ≠ none) → p = .indexOutOfRange) := by
  induction n with
  | zero => intro i sp l p h; cases h
  | succ n ih =>
    intro i sp l p h
    unfold hashChain at h
    simp only at h
    split at h
    · rename_i e he
      cases h
      exact registerAndPermute_error c g _ _ _ _ he
    · exact ih _ _ l p h

theorem hashChain_ok_index (c : Constants F) (g : List F → Option Nat) (input : List F)
    (n : Nat) :
    ∀ (i : Nat) (sp sp' : Sponge F), 0 < n → hashChain c g input n i sp = .ok sp' →
      sp'.startIndex = (i + n) * maxLength ∧ sp'.lastIndex = (i + n) * maxLength := by
  induction n with
  | zero => intro i sp sp' h0; exact absurd h0 (by decide)
  | succ n ih =>
    intro i sp sp' _ h
    unfold hashChain at h
    simp only at h
    split at h
    · cases h
    · cases n with
      | zero =>
        unfold hashChain at h
        cases h
        exact ⟨rfl, rfl⟩
      | succ n =>
        have := ih (i + 1) _ sp' (Nat.succ_pos n) h
        rw [show i + (n + 1 + 1) = i + 1 + (n + 1) by omega]
        exact this

/-- C24, at the inputs where it fails: for every table of constants, whatever
`GetConstraintsNum` does, and for every input of more than 12 elements whose
length leaves the remainder 1 modulo 12, `Poseidon` does not return: it panics
inside `GetConstraintsNum` or on a table index out of range. When
`GetConstraintsNum` returns a count for every state, the permutation of the
last block receives a state of width at most 2 and panics on a table index out
of range. -/
theorem Poseidon_narrow_block_panics (c : Constants F) (g : List F → Option Nat)
    (input : List F) (h12 : 12 < input.length) (hrem : input.length % 12 = 1) :
    ((Poseidon c g input).result = .error .constraintsNum ∨
      (Poseidon c g input).result = .error .indexOutOfRange) ∧
    ((∀ s, g s ≠ none) → (Poseidon c g input).result = .error .indexOutOfRange) := by
  unfold Poseidon
  simp only [preHandleData, maxLength]
  rw [if_neg (by omega), if_pos (show input.length > 12 from h12)]
  cases hc : hashChain c g input (input.length / 12) 0 ⟨_, 0, 0, []⟩ with
  | error e =>
    obtain ⟨l, p⟩ := e
    obtain ⟨h1, h2⟩ := hashChain_error c g input _ 0 _ l p hc
    refine ⟨?_, ?_⟩
    · rcases h1 with rfl | rfl
      · exact Or.inl rfl
      · exact Or.inr rfl
    · intro hs
      rw [h2 hs]
  | ok sp =>
    obtain ⟨hs, hl⟩ := hashChain_ok_index c g input _ 0 _ sp (by omega) hc
    simp only [maxLength, Nat.zero_add] at hs hl
    simp only
    rw [if_pos (by omega)]
    obtain ⟨l', p, hr, h1, h2⟩ := registerAndPermute_narrow c g sp.lazyStates
      ((sp.state.take 1 ++ copy (sp.state.drop 1)
        ((input.drop sp.startIndex).take (input.length - sp.startIndex))).take
          (input.length - sp.startIndex + 1)) (by
        rw [List.length_take]
        omega)
    rw [hr]
    refine ⟨?_, ?_⟩
    · rcases h1 with rfl | rfl
      · exact Or.inl rfl
      · exact Or.inr rfl
    · intro hs'
      rw [h2 hs']

theorem Poseidon_narrow_block_panics_witness :
    ((Poseidon exampleConstants exampleConstraintsNum thirteenInputs).result =
        .error .constraintsNum ∨
      (Poseidon exampleConstants exampleConstraintsNum thirteenInputs).result =
        .error .indexOutOfRange) ∧
    ((∀ s, exampleConstraintsNum s ≠ none) →
      (Poseidon exampleConstants exampleConstraintsNum thirteenInputs).result =
        .error .indexOutOfRange) :=
  Poseidon_narrow_block_panics exampleConstants exampleConstraintsNum thirteenInputs
    (by decide) (by decide)

/-- C28, at the failing input: with 13 inputs, whatever `GetConstraintsNum`
does, at most the first of the `ceil(13 / 12) = 2` permutations completes and
nothing is returned. When `GetConstraintsNum` returns a count for the state of
the first block, the block of 12 inputs is registered and permuted and the
last input is copied behind the carried `state[0] = 9`; then
`GetConstraintsNum` panics on this state of width 2, with one template
registered, or it returns and the permutation of the state panics on a table
index out of range. -/
theorem Poseidon_thirteen_inputs (g : List (ZMod 13) → Option Nat) :
    permutation exampleConstants [0, 1, 2, 3, 4, 5, 6, 7, 8, 9, 10, 11, 12] =
      some [9, 4, 4, 6, 7, 11, 0, 10, 1, 8, 2, 2, 10] ∧
    permutation exampleConstants [9, 7] = none ∧
    Poseidon exampleConstants g thirteenInputs =
      match g [0, 1, 2, 3, 4, 5, 6, 7, 8, 9, 10, 11, 12], g [9, 7] with
      | none, _ => ⟨[], .error .constraintsNum⟩
      | some n, none =>
        ⟨[(n, [0, 1, 2, 3, 4, 5, 6, 7, 8, 9, 10, 11, 12])], .error .constraintsNum⟩
      | some n, some m =>
        ⟨[(n, [0, 1, 2, 3, 4, 5, 6, 7, 8, 9, 10, 11, 12]), (m, [9, 7])],
          .error .indexOutOfRange⟩ := by
  have hp : permutation exampleConstants [0, 1, 2, 3, 4, 5, 6, 7, 8, 9, 10, 11, 12] =
      some [9, 4, 4, 6, 7, 11, 0, 10, 1, 8, 2, 2, 10] := by decide!
  have hq : permutation exampleConstants [9, 7] = none := by decide!
  have hs : ((List.take 1 (([0] : List (ZMod 13)).getD 0 0 ::
      List.replicate maxLength 0)) ++
      copy (List.drop 1 (([0] : List (ZMod 13)).getD 0 0 ::
        List.replicate maxLength 0))
        ((thirteenInputs.drop 0).take ((0 + 1) * maxLength - 0))) =
      [0, 1, 2, 3, 4, 5, 6, 7, 8, 9, 10, 11, 12] := by decide
  have ht : (List.take (13 - 12 + 1)
      (List.take 1 [9, 4, 4, 6, 7, 11, 0, 10, 1, 8, 2, 2, 10] ++
        copy (List.drop 1 [9, 4, 4, 6, 7, 11, 0, 10, 1, 8, 2, 2, 10])
          ((thirteenInputs.drop 12).take (13 - 12)))) = ([9, 7] : List (ZMod 13)) := by decide
  refine ⟨hp, hq, ?_⟩
  unfold Poseidon
  simp only [preHandleData]
  rw [if_neg (by decide), if_pos (by decide)]
  have hlen : thirteenInputs.length / maxLength = 1 := by decide
  rw [hlen]
  unfold hashChain
  simp only [hashChain]
  rw [hs]
  unfold registerAndPermute
  cases h0 : g [0, 1, 2, 3, 4, 5, 6, 7, 8, 9, 10, 11, 12] with
  | none => rfl
  | some n =>
    simp only [hp]
    rw [if_pos (by decide)]
    have hl : thirteenInputs.length = 13 := rfl
    have hm : (0 + 1) * maxLength = 12 := rfl
    simp only [hl, hm, ht]
    cases h1 : g [9, 7] with
    | none => rfl
    | some m =>
      simp only [hq]
      rfl

/-! ### Lazify -/

theorem writeRange_apply (f : Nat → Int) (count : Nat) :
    ∀ (lo : Nat) (m : Nat → Option Int) (x : Nat),
      writeRange f lo count m x = if lo ≤ x ∧ x < lo + count then some (f x) else m x := by
  induction count with
  | zero =>
    intro lo m x
    simp only [writeRange]
    rw [if_neg (by omega)]
  | succ count ih =>
    intro lo m x
    simp only [writeRange]
    rw [ih]
    by_cases h1 : lo + 1 ≤ x ∧ x < lo + 1 + count
    · rw [if_pos h1, if_pos (by omega)]
    · rw [if_neg h1]
      by_cases h2 : x = lo
      · subst h2
        rw [if_pos rfl, if_pos (by omega)]
      · rw [if_neg h2, if_neg (by omega)]

theorem writeLazyIndex_apply (bar : Nat) (lazyIndex count : Nat) :
    ∀ (i lazyIdx : Nat) (m : Nat → Option LazyIndexedInputs) (x : Nat),
      writeLazyIndex (bar : Int) lazyIndex count i lazyIdx m x =
        if bar + lazyIdx ≤ x ∧ x < bar + lazyIdx + count then
          some ⟨i + (x - (bar + lazyIdx)), lazyIndex⟩
        else m x := by
  induction count with
  | zero =>
    intro i lazyIdx m x
    simp only [writeLazyIndex]
    rw [if_neg (by omega)]
  | succ count ih =>
    intro i lazyIdx m x
    simp only [writeLazyIndex]
    rw [ih]
    by_cases h1 : bar + (lazyIdx + 1) ≤ x ∧ x < bar + (lazyIdx + 1) + count
    · rw [if_pos h1, if_pos (by omega)]
      congr 2
      omega
    · rw [if_neg h1]
      by_cases h2 : (x : Int) = (bar : Int) + (lazyIdx : Int)
      · rw [if_pos h2, if_pos (by omega)]
        congr 2
        omega
      · rw [if_neg h2, if_neg (by omega)]

theorem RangesOrdered.le {s n : Nat} {cons : List LazyInputs} (h : RangesOrdered s cons n) :
    s ≤ n := by
  induction cons generalizing s with
  | nil => exact h
  | cons con cons ih =>
    have := ih h.2
    have := h.1
    omega

theorem RangesOrdered.mem {s n : Nat} {cons : List LazyInputs} (h : RangesOrdered s cons n)
    (con : LazyInputs) (hc : con ∈ cons) :
    s ≤ con.GetLoc ∧ con.GetLoc + con.GetConstraintsNum ≤ n := by
  induction cons generalizing s with
  | nil => cases hc
  | cons c cons ih =>
    rcases List.mem_cons.mp hc with rfl | hc
    · exact ⟨h.1, h.2.le⟩
    · have := ih h.2 hc
      have := h.1
      omega

theorem RangesOrdered.not_inTemplate {s n : Nat} {cons : List LazyInputs}
    (h : RangesOrdered s cons n) (j : Nat) (hj : j < s) : ¬ InTemplate cons j := by
  rintro ⟨con, hc, h1, -⟩
  have := (h.mem con hc).1
  omega

theorem RangesOrdered.inTemplate_lt {s n : Nat} {cons : List LazyInputs}
    (h : RangesOrdered s cons n) (j : Nat) (hj : InTemplate cons j) : j < n := by
  obtain ⟨con, hc, -, h2⟩ := hj
  have := (h.mem con hc).2
  omega

theorem insideBelow_zero_of_le {s n : Nat} {cons : List LazyInputs}
    (h : RangesOrdered s cons n) (j : Nat) (hj : j ≤ s) : insideBelow cons j = 0 := by
  induction cons generalizing s with
  | nil => rfl
  | cons c cons ih =>
    have h1 := h.1
    simp only [insideBelow]
    rw [ih h.2 (by omega)]
    omega

theorem insideBelow_total {s n : Nat} {cons : List LazyInputs}
    (h : RangesOrdered s cons n) (j : Nat) (hj : n ≤ j) :
    insideBelow cons j = GetConstraintsAll cons := by
  induction cons generalizing s with
  | nil => rfl
  | cons c cons ih =>
    have h2 := h.2.le
    simp only [insideBelow, GetConstraintsAll, List.map_cons, List.sum_cons]
    have := ih h.2
    simp only [GetConstraintsAll] at this
    rw [this]
    omega

theorem insideBelow_succ_inside {s n : Nat} {cons : List LazyInputs}
    (h : RangesOrdered s cons n) (j : Nat) (hj : InTemplate cons j) :
    insideBelow cons (j + 1) = insideBelow cons j + 1 := by
  induction cons generalizing s with
  | nil => obtain ⟨con, hc, -⟩ := hj; cases hc
  | cons c cons ih =>
    simp only [insideBelow]
    by_cases hin : c.GetLoc ≤ j ∧ j < c.GetLoc + c.GetConstraintsNum
    · rw [insideBelow_zero_of_le h.2 (j + 1) (by omega),
        insideBelow_zero_of_le h.2 j (by omega)]
      omega
    · have hj' : InTemplate cons j := by
        obtain ⟨con, hc, h1, h2⟩ := hj
        rcases List.mem_cons.mp hc with rfl | hc
        · exact absurd ⟨h1, h2⟩ hin
        · exact ⟨con, hc, h1, h2⟩
      rw [ih h.2 hj']
      omega

theorem insideBelow_succ_outside {s n : Nat} {cons : List LazyInputs}
    (h : RangesOrdered s cons n) (j : Nat) (hj : ¬ InTemplate cons j) :
    insideBelow cons (j + 1) = insideBelow cons j := by
  induction cons generalizing s with
  | nil => rfl
  | cons c cons ih =>
    simp only [insideBelow]
    have hin : ¬ (c.GetLoc ≤ j ∧ j < c.GetLoc + c.GetConstraintsNum) :=
      fun hc => hj ⟨c, List.mem_cons_self _ _, hc⟩
    have hj' : ¬ InTemplate cons j := by
      rintro ⟨con, hc, h1, h2⟩
      exact hj ⟨con, List.mem_cons_of_mem _ hc, h1, h2⟩
    rw [ih h.2 hj']
    omega

theorem rank_step (p : Nat → Prop) (c : Nat → Nat)
    (h1 : ∀ j, p j → c (j + 1) = c j + 1) (h0 : ∀ j, ¬ p j → c (j + 1) = c j)
    (j d : Nat) : c j ≤ c (j + d) ∧ c (j + d) ≤ c j + d := by
  induction d with
  | zero => exact ⟨le_refl _, le_refl _⟩
  | succ d ih =>
    rw [← Nat.add_assoc]
    by_cases hp : p (j + d)
    · rw [h1 _ hp]; omega
    · rw [h0 _ hp]; omega

theorem rank_mono (p : Nat → Prop) (c : Nat → Nat)
    (h1 : ∀ j, p j → c (j + 1) = c j + 1) (h0 : ∀ j, ¬ p j → c (j + 1) = c j)
    (j j' : Nat) (h : j ≤ j') : c j ≤ c j' ∧ c j' ≤ c j + (j' - j) := by
  have := rank_step p c h1 h0 j (j' - j)
  rw [show j + (j' - j) = j' by omega] at this
  exact this

theorem rank_le (p : Nat → Prop) (c : Nat → Nat) (hc : c 0 = 0)
    (h1 : ∀ j, p j → c (j + 1) = c j + 1) (h0 : ∀ j, ¬ p j → c (j + 1) = c j)
    (j : Nat) : c j ≤ j := by
  have := (rank_mono p c h1 h0 0 j (Nat.zero_le _)).2
  omega

theorem rank_lt_inside (p : Nat → Prop) (c : Nat → Nat)
    (h1 : ∀ j, p j → c (j + 1) = c j + 1) (h0 : ∀ j, ¬ p j → c (j + 1) = c j)
    (j j' : Nat) (hp : p j) (h : j < j') : c j < c j' := by
  have := (rank_mono p c h1 h0 (j + 1) j' h).1
  have := h1 j hp
  omega

theorem rank_lt_outside (p : Nat → Prop) (c : Nat → Nat) (hc : c 0 = 0)
    (h1 : ∀ j, p j → c (j + 1) = c j + 1) (h0 : ∀ j, ¬ p j → c (j + 1) = c j)
    (j j' : Nat) (hp : ¬ p j) (h : j < j') : j - c j < j' - c j' := by
  have := (rank_mono p c h1 h0 (j + 1) j' h).2
  have := h0 j hp
  have := rank_le p c hc h1 h0 j
  have := rank_le p c hc h1 h0 j'
  omega

theorem rank_surj_inside (p : Nat → Prop) (c : Nat → Nat) (hc : c 0 = 0)
    (h1 : ∀ j, p j → c (j + 1) = c j + 1) (h0 : ∀ j, ¬ p j → c (j + 1) = c j)
    (n k : Nat) (hk : k < c n) : ∃ j, j < n ∧ p j ∧ c j = k := by
  induction n with
  | zero => omega
  | succ n ih =>
    by_cases hp : p n
    · rw [h1 n hp] at hk
      by_cases hkn : k < c n
      · obtain ⟨j, hj, hpj, hcj⟩ := ih hkn
        exact ⟨j, by omega, hpj, hcj⟩
      · exact ⟨n, by omega, hp, by omega⟩
    · rw [h0 n hp] at hk
      obtain ⟨j, hj, hpj, hcj⟩ := ih hk
      exact ⟨j, by omega, hpj, hcj⟩

theorem rank_surj_outside (p : Nat → Prop) (c : Nat → Nat) (hc : c 0 = 0)
    (h1 : ∀ j, p j → c (j + 1) = c j + 1) (h0 : ∀ j, ¬ p j → c (j + 1) = c j)
    (n k : Nat) (hk : k < n - c n) : ∃ j, j < n ∧ ¬ p j ∧ j - c j = k := by
  induction n with
  | zero => omega
  | succ n ih =>
    have hle := rank_le p c hc h1 h0 n
    by_cases hp : p n
    · rw [h1 n hp] at hk
      obtain ⟨j, hj, hpj, hcj⟩ := ih (by omega)
      exact ⟨j, by omega, hpj, hcj⟩
    · rw [h0 n hp] at hk
      by_cases hkn : k < n - c n
      · obtain ⟨j, hj, hpj, hcj⟩ := ih hkn
        exact ⟨j, by omega, hpj, hcj⟩
      · exact ⟨n, by omega, hp, by omega⟩

theorem insideBelow_at_zero (cons : List LazyInputs) : insideBelow cons 0 = 0 := by
  induction cons with
  | nil => rfl
  | cons c cons ih =>
    simp only [insideBelow]
    rw [ih]
    omega

theorem ret_step (ret constraints : List R1C) (lastEnd start : Nat) (h : lastEnd ≤ start)
    (hn : start ≤ constraints.length) :
    (if start > lastEnd then ret ++ (constraints.drop lastEnd).take (start - lastEnd)
      else ret).length = ret.length + (start - lastEnd) ∧
    (∀ p, p < ret.length →
      (if start > lastEnd then ret ++ (constraints.drop lastEnd).take (start - lastEnd)
        else ret)[p]? = ret[p]?) ∧
    (∀ d, d < start - lastEnd →
      (if start > lastEnd then ret ++ (constraints.drop lastEnd).take (start - lastEnd)
        else ret)[ret.length + d]? = constraints[lastEnd + d]?) := by
  by_cases hs : start > lastEnd
  · simp only [if_pos hs]
    refine ⟨?_, ?_, ?_⟩
    · rw [List.length_append, List.length_take, List.length_drop]
      omega
    · intro p hp
      rw [List.getElem?_append_left hp]
    · intro d hd
      rw [List.getElem?_append_right (by omega), show ret.length + d - ret.length = d by omega,
        List.getElem?_take_of_lt hd, List.getElem?_drop]
  · rw [if_neg hs]
    refine ⟨by omega, fun _ _ => rfl, ?_⟩
    intro d hd
    omega

theorem lazifyStep_ok (S : LazyInputs → Option String) (constraints : List R1C) (bar : Int)
    (lazyIndex : Nat) (con : LazyInputs) (v : LazifyVars) (hs : S con = none)
    (hle : con.GetLoc ≤ constraints.length) :
    ∃ v1, lazifyStep S constraints bar lazyIndex con v = .ok v1 ∧
      v1.lastEnd = con.GetLoc + con.GetConstraintsNum ∧
      v1.offset = v.offset + con.GetConstraintsNum ∧
      v1.lazyIdx = v.lazyIdx + con.GetConstraintsNum ∧
      v1.ret = (if con.GetLoc > v.lastEnd then
        v.ret ++ (constraints.drop v.lastEnd).take (con.GetLoc - v.lastEnd) else v.ret) ∧
      v1.mapFromFull =
        writeRange (fun j => bar + v.offset + ((j : Int) - con.GetLoc)) con.GetLoc
          con.GetConstraintsNum
          (writeRange (fun j => (j : Int) - v.offset) v.lastEnd (con.GetLoc - v.lastEnd)
            v.mapFromFull) ∧
      v1.LazyConsMap =
        writeLazyIndex bar lazyIndex con.GetConstraintsNum 0 v.lazyIdx v.LazyConsMap := by
  unfold lazifyStep
  simp only [hs]
  rw [if_neg (by omega)]
  refine ⟨_, rfl, rfl, rfl, rfl, rfl, ?_, rfl⟩
  simp only [Nat.add_sub_cancel_left]

theorem InTemplate.cons_iff (c : LazyInputs) (cons : List LazyInputs) (j : Nat) :
    InTemplate (c :: cons) j ↔
      (c.GetLoc ≤ j ∧ j < c.GetLoc + c.GetConstraintsNum) ∨ InTemplate cons j := by
  constructor
  · rintro ⟨con, hc, h1, h2⟩
    rcases List.mem_cons.mp hc with rfl | hc
    · exact Or.inl ⟨h1, h2⟩
    · exact Or.inr ⟨con, hc, h1, h2⟩
  · rintro (h | ⟨con, hc, h1, h2⟩)
    · exact ⟨c, List.mem_cons_self _ _, h⟩
    · exact ⟨con, List.mem_cons_of_mem _ hc, h1, h2⟩

theorem lazifyLoop_spec (S : LazyInputs → Option String) (constraints : List R1C) (bar : Nat)
    (cons : List LazyInputs) :
    ∀ (li : Nat) (v : LazifyVars),
      RangesOrdered v.lastEnd cons constraints.length → (∀ con ∈ cons, S con = none) →
      v.offset ≤ v.lastEnd → v.ret.length + v.offset = v.lastEnd → v.lazyIdx = v.offset →
      ∃ v', lazifyLoop S constraints (bar : Int) li cons v = .ok v' ∧
        v'.offset = v.offset + GetConstraintsAll cons ∧
        v.lastEnd ≤ v'.lastEnd ∧ v'.lastEnd ≤ constraints.length ∧
        v'.ret.length + v'.offset = v'.lastEnd ∧
        (∀ j, v'.lastEnd ≤ j → ¬ InTemplate cons j) ∧
        (∀ j, j < v.lastEnd ∨ v'.lastEnd ≤ j → v'.mapFromFull j = v.mapFromFull j) ∧
        (∀ j, v.lastEnd ≤ j → j < v'.lastEnd → InTemplate cons j →
          v'.mapFromFull j = some ((bar + v.offset + insideBelow cons j : Nat) : Int)) ∧
        (∀ j, v.lastEnd ≤ j → j < v'.lastEnd → ¬ InTemplate cons j →
          v'.mapFromFull j = some ((j - v.offset - insideBelow cons j : Nat) : Int)) ∧
        (∀ p, p < v.ret.length → v'.ret[p]? = v.ret[p]?) ∧
        (∀ j, v.lastEnd ≤ j → j < v'.lastEnd → ¬ InTemplate cons j →
          v'.ret[j - v.offset - insideBelow cons j]? = constraints[j]?) ∧
        (∀ x, x < bar + v.offset → v'.LazyConsMap x = v.LazyConsMap x) ∧
        (∀ k con i, cons[k]? = some con → i < con.GetConstraintsNum →
          v'.LazyConsMap (bar + v.offset + insideBelow cons (con.GetLoc + i)) =
            some ⟨i, li + k⟩) := by
  induction cons with
  | nil =>
    intro li v ho _ _ hret _
    refine ⟨v, rfl, by simp [GetConstraintsAll], le_refl _, ho, hret, ?_, fun _ _ => rfl, ?_, ?_,
      fun _ _ => rfl, ?_, fun _ _ => rfl, ?_⟩
    · rintro j - ⟨con, hc, -⟩
      cases hc
    · intro j h1 h2
      omega
    · intro j h1 h2
      omega
    · intro j h1 h2
      omega
    · intro k con i hk
      simp at hk
  | cons c cons ih =>
    intro li v ho hS hoff hret hlz
    have hO := ho.2
    have hloc := ho.1
    have hend := hO.le
    obtain ⟨v1, hstep, e1, e2, e3, e4, e5, e6⟩ :=
      lazifyStep_ok S constraints (bar : Int) li c v (hS c (List.mem_cons_self _ _)) (by omega)
    obtain ⟨r1, r2, r3⟩ := ret_step v.ret constraints v.lastEnd c.GetLoc hloc (by omega)
    rw [← e4] at r1 r2 r3
    obtain ⟨v', hv', f1, f2, f3, f4, f5, f6, f7, f8, f9, f10, f11, f12⟩ :=
      ih (li + 1) v1 (by rw [e1]; exact hO) (fun con hc => hS con (List.mem_cons_of_mem _ hc))
        (by omega) (by omega) (by omega)
    have hmap1 : ∀ j, v1.mapFromFull j =
        if c.GetLoc ≤ j ∧ j < c.GetLoc + c.GetConstraintsNum then
          some ((bar : Int) + v.offset + ((j : Int) - c.GetLoc))
        else if v.lastEnd ≤ j ∧ j < v.lastEnd + (c.GetLoc - v.lastEnd) then
          some ((j : Int) - v.offset)
        else v.mapFromFull j := by
      intro j
      rw [e5, writeRange_apply, writeRange_apply]
    have hz : ∀ j, j ≤ c.GetLoc + c.GetConstraintsNum → insideBelow cons j = 0 :=
      fun j hj => insideBelow_zero_of_le hO j hj
    refine ⟨v', ?_, ?_, by omega, f3, f4, ?_, ?_, ?_, ?_, ?_, ?_, ?_, ?_⟩
    · unfold lazifyLoop
      rw [hstep]
      exact hv'
    · rw [f1, e2]
      simp only [GetConstraintsAll, List.map_cons, List.sum_cons]
      omega
    · intro j hj
      rw [InTemplate.cons_iff]
      rintro (h | h)
      · omega
      · exact f5 j hj h
    · intro j hj
      rw [f6 j (by omega), hmap1, if_neg (by omega), if_neg (by omega)]
    · intro j h1 h2 hin
      simp only [insideBelow]
      by_cases hj : j < c.GetLoc + c.GetConstraintsNum
      · have hcj : c.GetLoc ≤ j := by
          rcases (InTemplate.cons_iff c cons j).mp hin with h | h
          · exact h.1
          · exact absurd h (hO.not_inTemplate j hj)
        rw [f6 j (Or.inl (by omega)), hmap1, if_pos ⟨hcj, hj⟩, hz j (by omega)]
        congr 1
        omega
      · have hin' : InTemplate cons j := by
          rcases (InTemplate.cons_iff c cons j).mp hin with h | h
          · omega
          · exact h
        rw [f7 j (by omega) h2 hin']
        congr 1
        omega
    · intro j h1 h2 hout
      simp only [insideBelow]
      have hnc : ¬ (c.GetLoc ≤ j ∧ j < c.GetLoc + c.GetConstraintsNum) :=
        fun h => hout ((InTemplate.cons_iff c cons j).mpr (Or.inl h))
      have hout' : ¬ InTemplate cons j :=
        fun h => hout ((InTemplate.cons_iff c cons j).mpr (Or.inr h))
      by_cases hj : j < c.GetLoc
      · rw [f6 j (Or.inl (by omega)), hmap1, if_neg hnc, if_pos (by omega), hz j (by omega)]
        congr 1
        omega
      · rw [f8 j (by omega) h2 hout']
        congr 1
        omega
    · intro p hp
      rw [f9 p (by omega), r2 p hp]
    · intro j h1 h2 hout
      simp only [insideBelow]
      have hnc : ¬ (c.GetLoc ≤ j ∧ j < c.GetLoc + c.GetConstraintsNum) :=
        fun h => hout ((InTemplate.cons_iff c cons j).mpr (Or.inl h))
      have hout' : ¬ InTemplate cons j :=
        fun h => hout ((InTemplate.cons_iff c cons j).mpr (Or.inr h))
      by_cases hj : j < c.GetLoc
      · rw [hz j (by omega), show j - v.offset - (min c.GetConstraintsNum (j - c.GetLoc) + 0) =
          v.ret.length + (j - v.lastEnd) by omega, f9 _ (by omega), r3 _ (by omega)]
        congr 1
        omega
      · have := f10 j (by omega) h2 hout'
        rw [← this]
        congr 1
        omega
    · intro x hx
      rw [f11 x (by omega), e6, writeLazyIndex_apply, if_neg (by omega)]
    · intro k con i hk hi
      simp only [insideBelow]
      cases k with
      | zero =>
        simp only [List.getElem?_cons_zero, Option.some.injEq] at hk
        subst hk
        rw [hz _ (by omega), f11 _ (by omega), e6, writeLazyIndex_apply, if_pos (by omega)]
        congr 2
        omega
      | succ k =>
        simp only [List.getElem?_cons_succ] at hk
        have hmem := hO.mem con (List.mem_iff_getElem?.mpr ⟨k, hk⟩)
        have := f12 k con i hk hi
        rw [show li + (k + 1) = li + 1 + k by omega, ← this]
        congr 1
        omega

theorem rank_const (p : Nat → Prop) (c : Nat → Nat)
    (h0 : ∀ j, ¬ p j → c (j + 1) = c j) (j d : Nat) (h : ∀ i, j ≤ i → ¬ p i) :
    c (j + d) = c j := by
  induction d with
  | zero => rfl
  | succ d ih =>
    rw [← Nat.add_assoc, h0 _ (h _ (by omega)), ih]

theorem mapRow_ok (m : Nat → Option Int) (g : Nat → Int) (i : Nat) (row : List Nat) :
    ∀ j, (∀ val ∈ row, m val = some (g val)) → mapRow m i j row = .ok (row.map g) := by
  induction row with
  | nil => intro j _; rfl
  | cons val row ih =>
    intro j h
    unfold mapRow
    rw [h val (List.mem_cons_self _ _), ih (j + 1) (fun x hx => h x (List.mem_cons_of_mem _ hx))]
    rfl

theorem mapLevels_ok (m : Nat → Option Int) (g : Nat → Int) (levels : List (List Nat)) :
    ∀ i, (∀ row ∈ levels, ∀ val ∈ row, m val = some (g val)) →
      mapLevels m i levels = .ok (levels.map (fun row => row.map g)) := by
  induction levels with
  | nil => intro i _; rfl
  | cons row levels ih =>
    intro i h
    unfold mapLevels
    rw [mapRow_ok m g i row 0 (h row (List.mem_cons_self _ _)),
      ih (i + 1) (fun r hr => h r (List.mem_cons_of_mem _ hr))]
    rfl

theorem total_le_length {n : Nat} {cons : List LazyInputs} (h : RangesOrdered 0 cons n) :
    GetConstraintsAll cons ≤ n := by
  rw [← insideBelow_total h n (le_refl _)]
  exact rank_le (InTemplate cons) (insideBelow cons) (insideBelow_at_zero cons)
    (fun j hj => insideBelow_succ_inside h j hj) (fun j hj => insideBelow_succ_outside h j hj) n

theorem Lazify_spec (S : LazyInputs → Option String) (cs : R1CS F)
    (hord : RangesOrdered 0 cs.LazyCons cs.Constraints.length)
    (hS : ∀ con ∈ cs.LazyCons, S con = none)
    (hlev : ∀ row ∈ cs.Levels, ∀ val ∈ row, val < cs.Constraints.length) :
    ∃ out, Lazify S cs = .ok out ∧
      out.Constraints.length = cs.Constraints.length - GetConstraintsAll cs.LazyCons ∧
      (∀ j, j < cs.Constraints.length → InTemplate cs.LazyCons j →
        out.mapFromFull j =
          some ((cs.Constraints.length - GetConstraintsAll cs.LazyCons +
            insideBelow cs.LazyCons j : Nat) : Int)) ∧
      (∀ j, j < cs.Constraints.length → ¬ InTemplate cs.LazyCons j →
        out.mapFromFull j = some ((j - insideBelow cs.LazyCons j : Nat) : Int)) ∧
      (∀ j, cs.Constraints.length ≤ j → out.mapFromFull j = none) ∧
      (∀ j, j < cs.Constraints.length → ¬ InTemplate cs.LazyCons j →
        out.Constraints[j - insideBelow cs.LazyCons j]? = cs.Constraints[j]?) ∧
      (∀ k con i, cs.LazyCons[k]? = some con → i < con.GetConstraintsNum →
        out.LazyConsMap (cs.Constraints.length - GetConstraintsAll cs.LazyCons +
          insideBelow cs.LazyCons (con.GetLoc + i)) = some ⟨i, k⟩) ∧
      (∀ g : Nat → Int, (∀ j, j < cs.Constraints.length → out.mapFromFull j = some (g j)) →
        out.Levels = cs.Levels.map (fun row => row.map g)) := by
  have htot := total_le_length hord
  have h1 := fun j hj => insideBelow_succ_inside hord j hj
  have h0 := fun j hj => insideBelow_succ_outside hord j hj
  obtain ⟨v', hv', f1, f2, f3, f4, f5, f6, f7, f8, f9, f10, f11, f12⟩ :=
    lazifyLoop_spec S cs.Constraints (cs.Constraints.length - GetConstraintsAll cs.LazyCons)
      cs.LazyCons 0 ⟨fun _ => none, 0, 0, [], 0, cs.LazyConsMap⟩ hord hS (le_refl _) rfl rfl
  simp only [Nat.zero_add, Nat.add_zero, Nat.sub_zero] at f1 f2 f3 f4 f5 f6 f7 f8 f9 f10 f11 f12
  have hbar : ((cs.Constraints.length : Int) - (GetConstraintsAll cs.LazyCons : Nat)) =
      ((cs.Constraints.length - GetConstraintsAll cs.LazyCons : Nat) : Int) := by
    omega
  have hconst : ∀ j, v'.lastEnd ≤ j →
      insideBelow cs.LazyCons j = GetConstraintsAll cs.LazyCons := by
    intro j hj
    by_cases hjn : cs.Constraints.length ≤ j
    · exact insideBelow_total hord j hjn
    · have := rank_const (InTemplate cs.LazyCons) (insideBelow cs.LazyCons) h0 j
        (cs.Constraints.length - j) (fun i hi => f5 i (by omega))
      rw [show j + (cs.Constraints.length - j) = cs.Constraints.length by omega,
        insideBelow_total hord _ (le_refl _)] at this
      exact this.symm
  have hmap : ∀ j, writeRange (fun j => (j : Int) - v'.offset) v'.lastEnd
      (cs.Constraints.length - v'.lastEnd) v'.mapFromFull j =
        if v'.lastEnd ≤ j ∧ j < cs.Constraints.length then some ((j : Int) - v'.offset)
        else v'.mapFromFull j := by
    intro j
    rw [writeRange_apply]
    by_cases h : v'.lastEnd ≤ j ∧ j < cs.Constraints.length
    · rw [if_pos h, if_pos (by omega)]
    · rw [if_neg h, if_neg (by omega)]
  have hin : ∀ j, j < cs.Constraints.length → InTemplate cs.LazyCons j →
      writeRange (fun j => (j : Int) - v'.offset) v'.lastEnd
        (cs.Constraints.length - v'.lastEnd) v'.mapFromFull j =
        some ((cs.Constraints.length - GetConstraintsAll cs.LazyCons +
            insideBelow cs.LazyCons j : Nat) : Int) := by
    intro j hj hi
    have hlt : j < v'.lastEnd := by
      by_contra hge
      exact f5 j (by omega) hi
    rw [hmap, if_neg (by omega), f7 j (Nat.zero_le _) hlt hi]
  have hout : ∀ j, j < cs.Constraints.length → ¬ InTemplate cs.LazyCons j →
      writeRange (fun j => (j : Int) - v'.offset) v'.lastEnd
        (cs.Constraints.length - v'.lastEnd) v'.mapFromFull j =
        some ((j - insideBelow cs.LazyCons j : Nat) : Int) := by
    intro j hj ho
    rw [hmap]
    by_cases hlt : j < v'.lastEnd
    · rw [if_neg (by omega), f8 j (Nat.zero_le _) hlt ho]
    · rw [if_pos (by omega), hconst j (by omega), f1]
      congr 1
      omega
  have hnone : ∀ j, cs.Constraints.length ≤ j →
      writeRange (fun j => (j : Int) - v'.offset) v'.lastEnd
        (cs.Constraints.length - v'.lastEnd) v'.mapFromFull j = none := by
    intro j hj
    rw [hmap, if_neg (by omega), f6 j (Or.inr (by omega))]
  have hsome : ∀ j, j < cs.Constraints.length → ∃ g : Int,
      writeRange (fun j => (j : Int) - v'.offset) v'.lastEnd
        (cs.Constraints.length - v'.lastEnd) v'.mapFromFull j = some g := by
    intro j hj
    by_cases hi : InTemplate cs.LazyCons j
    · exact ⟨_, hin j hj hi⟩
    · exact ⟨_, hout j hj hi⟩
  have hlevels : mapLevels (writeRange (fun j => (j : Int) - v'.offset) v'.lastEnd
      (cs.Constraints.length - v'.lastEnd) v'.mapFromFull) 0 cs.Levels =
      .ok (cs.Levels.map (fun row => row.map (fun val =>
        ((writeRange (fun j => (j : Int) - v'.offset) v'.lastEnd
          (cs.Constraints.length - v'.lastEnd) v'.mapFromFull) val).getD 0))) := by
    apply mapLevels_ok
    intro row hrow val hval
    obtain ⟨g, hg⟩ := hsome val (hlev row hrow val hval)
    rw [hg]
    rfl
  refine ⟨⟨if v'.lastEnd < cs.Constraints.length then
      v'.ret ++ cs.Constraints.drop v'.lastEnd else v'.ret,
    cs.Levels.map (fun row => row.map (fun val =>
      ((writeRange (fun j => (j : Int) - v'.offset) v'.lastEnd
        (cs.Constraints.length - v'.lastEnd) v'.mapFromFull) val).getD 0)),
    v'.LazyConsMap,
    writeRange (fun j => (j : Int) - v'.offset) v'.lastEnd
      (cs.Constraints.length - v'.lastEnd) v'.mapFromFull⟩, ?_, ?_, hin, hout, hnone, ?_, ?_, ?_⟩
  · unfold Lazify
    simp only [hbar, hv', hlevels]
  · show (if v'.lastEnd < cs.Constraints.length then v'.ret ++ cs.Constraints.drop v'.lastEnd
      else v'.ret).length = _
    by_cases h : v'.lastEnd < cs.Constraints.length
    · rw [if_pos h, List.length_append, List.length_drop]
      omega
    · rw [if_neg h]
      omega
  · intro j hj ho
    show (if v'.lastEnd < cs.Constraints.length then v'.ret ++ cs.Constraints.drop v'.lastEnd
      else v'.ret)[_]? = _
    by_cases hlt : j < v'.lastEnd
    · have := f10 j (Nat.zero_le _) hlt ho
      by_cases h : v'.lastEnd < cs.Constraints.length
      · rw [if_pos h, List.getElem?_append_left, this]
        have := rank_lt_outside (InTemplate cs.LazyCons) (insideBelow cs.LazyCons)
          (insideBelow_at_zero _) h1 h0 j v'.lastEnd ho hlt
        rw [hconst _ (le_refl _)] at this
        omega
      · rw [if_neg h, this]
    · rw [if_pos (by omega), hconst j (by omega),
        List.getElem?_append_right (by omega), List.getElem?_drop]
      congr 1
      omega
  · intro k con i hk hi
    exact f12 k con i hk hi
  · intro g hg
    show (cs.Levels.map _) = _
    apply List.map_congr_left
    intro row hrow
    apply List.map_congr_left
    intro val hval
    have hgv : writeRange (fun j => (j : Int) - v'.offset) v'.lastEnd
        (cs.Constraints.length - v'.lastEnd) v'.mapFromFull val = some (g val) :=
      hg val (hlev row hrow val hval)
    simp only [hgv, Option.getD_some]

/-- C26: for a constraint list of length `n` and lazy templates whose ranges
come in increasing order, do not overlap and lie in `[0, n)`, when no level
entry is `n` or more and no template fails to register, `Lazify` returns: the
returned map is defined exactly on `[0, n)` and is a bijection `m` of `[0, n)`
onto itself that sends the indices outside every template range, in their
order, onto `[0, bar)` with `bar = n - (total template constraint count)`;
`Constraints` then has length `bar` with `newConstraints[m j] = oldConstraints[j]`
for these `j`, and every entry of `Levels` is replaced by its image. -/
theorem Lazify_renumbers (S : LazyInputs → Option String) (cs : R1CS F)
    (hord : RangesOrdered 0 cs.LazyCons cs.Constraints.length)
    (hS : ∀ con ∈ cs.LazyCons, S con = none)
    (hlev : ∀ row ∈ cs.Levels, ∀ val ∈ row, val < cs.Constraints.length) :
    ∃ (out : Lazified) (m : Nat → Nat) (bar : Nat),
      Lazify S cs = .ok out ∧
      bar + GetConstraintsAll cs.LazyCons = cs.Constraints.length ∧
      (∀ j, out.mapFromFull j = if j < cs.Constraints.length then some (m j : Int) else none) ∧
      (∀ j, j < cs.Constraints.length → m j < cs.Constraints.length) ∧
      (∀ j j', j < cs.Constraints.length → j' < cs.Constraints.length → m j = m j' → j = j') ∧
      (∀ k, k < cs.Constraints.length → ∃ j, j < cs.Constraints.length ∧ m j = k) ∧
      (∀ j, j < cs.Constraints.length → ¬ InTemplate cs.LazyCons j → m j < bar) ∧
      (∀ k, k < bar → ∃ j, j < cs.Constraints.length ∧ ¬ InTemplate cs.LazyCons j ∧ m j = k) ∧
      (∀ j j', j < j' → j' < cs.Constraints.length → ¬ InTemplate cs.LazyCons j →
        ¬ InTemplate cs.LazyCons j' → m j < m j') ∧
      out.Constraints.length = bar ∧
      (∀ j, j < cs.Constraints.length → ¬ InTemplate cs.LazyCons j →
        out.Constraints[m j]? = cs.Constraints[j]?) ∧
      out.Levels = cs.Levels.map (fun row => row.map (fun val => (m val : Int))) := by
  classical
  have htot := total_le_length hord
  have hc := insideBelow_at_zero cs.LazyCons
  have h1 := fun j hj => insideBelow_succ_inside hord j hj
  have h0 := fun j hj => insideBelow_succ_outside hord j hj
  have hn := insideBelow_total hord cs.Constraints.length (le_refl _)
  obtain ⟨out, hout, g1, g2, g3, g4, g5, -, g7⟩ := Lazify_spec S cs hord hS hlev
  have hmap : ∀ j, out.mapFromFull j = if j < cs.Constraints.length then
      some (((if InTemplate cs.LazyCons j then
        cs.Constraints.length - GetConstraintsAll cs.LazyCons + insideBelow cs.LazyCons j
        else j - insideBelow cs.LazyCons j : Nat)) : Int) else none := by
    intro j
    by_cases hj : j < cs.Constraints.length
    · rw [if_pos hj]
      by_cases hi : InTemplate cs.LazyCons j
      · rw [if_pos hi, g2 j hj hi]
      · rw [if_neg hi, g3 j hj hi]
    · rw [if_neg hj, g4 j (by omega)]
  have hlt_in : ∀ j, j < cs.Constraints.length → InTemplate cs.LazyCons j →
      insideBelow cs.LazyCons j < GetConstraintsAll cs.LazyCons := by
    intro j hj hi
    rw [← hn]
    exact rank_lt_inside _ _ h1 h0 j _ hi hj
  have hlt_out : ∀ j, j < cs.Constraints.length → ¬ InTemplate cs.LazyCons j →
      j - insideBelow cs.LazyCons j < cs.Constraints.length - GetConstraintsAll cs.LazyCons := by
    intro j hj hi
    rw [← hn]
    exact rank_lt_outside _ _ hc h1 h0 j _ hi hj
  refine ⟨out, fun j => if InTemplate cs.LazyCons j then
      cs.Constraints.length - GetConstraintsAll cs.LazyCons + insideBelow cs.LazyCons j
      else j - insideBelow cs.LazyCons j,
    cs.Constraints.length - GetConstraintsAll cs.LazyCons, hout, by omega, hmap,
    ?_, ?_, ?_, ?_, ?_, ?_, g1, ?_, ?_⟩
  · intro j hj
    by_cases hi : InTemplate cs.LazyCons j
    · simp only [if_pos hi]
      have := hlt_in j hj hi
      omega
    · simp only [if_neg hi]
      have := hlt_out j hj hi
      omega
  · intro j j' hj hj' he
    by_cases hi : InTemplate cs.LazyCons j <;> by_cases hi' : InTemplate cs.LazyCons j'
    · simp only [if_pos hi, if_pos hi'] at he
      rcases Nat.lt_trichotomy j j' with h | h | h
      · have := rank_lt_inside _ _ h1 h0 j j' hi h
        omega
      · exact h
      · have := rank_lt_inside _ _ h1 h0 j' j hi' h
        omega
    · simp only [if_pos hi, if_neg hi'] at he
      have := hlt_out j' hj' hi'
      omega
    · simp only [if_neg hi, if_pos hi'] at he
      have := hlt_out j hj hi
      omega
    · simp only [if_neg hi, if_neg hi'] at he
      rcases Nat.lt_trichotomy j j' with h | h | h
      · have := rank_lt_outside _ _ hc h1 h0 j j' hi h
        omega
      · exact h
      · have := rank_lt_outside _ _ hc h1 h0 j' j hi' h
        omega
  · intro k hk
    by_cases hkb : k < cs.Constraints.length - GetConstraintsAll cs.LazyCons
    · obtain ⟨j, hj, hp, hv⟩ := rank_surj_outside _ _ hc h1 h0 cs.Constraints.length k
        (by rw [hn]; exact hkb)
      exact ⟨j, hj, by simp only [if_neg hp]; exact hv⟩
    · obtain ⟨j, hj, hp, hv⟩ := rank_surj_inside _ _ hc h1 h0 cs.Constraints.length
        (k - (cs.Constraints.length - GetConstraintsAll cs.LazyCons)) (by rw [hn]; omega)
      exact ⟨j, hj, by simp only [if_pos hp]; omega⟩
  · intro j hj hi
    simp only [if_neg hi]
    exact hlt_out j hj hi
  · intro k hk
    obtain ⟨j, hj, hp, hv⟩ := rank_surj_outside _ _ hc h1 h0 cs.Constraints.length k
      (by rw [hn]; exact hk)
    exact ⟨j, hj, hp, by simp only [if_neg hp]; exact hv⟩
  · intro j j' hjj hj' hi hi'
    simp only [if_neg hi, if_neg hi']
    exact rank_lt_outside _ _ hc h1 h0 j j' hi hjj
  · intro j hj hi
    simp only [if_neg hi]
    exact g5 j hj hi
  · apply g7
    intro j hj
    rw [hmap j, if_pos hj]

theorem Lazify_renumbers_witness :
    ∃ (out : Lazified) (m : Nat → Nat) (bar : Nat),
      Lazify (fun _ => none) lazifyCS = .ok out ∧
      bar + GetConstraintsAll lazifyCS.LazyCons = lazifyCS.Constraints.length ∧
      (∀ j, out.mapFromFull j =
        if j < lazifyCS.Constraints.length then some (m j : Int) else none) ∧
      (∀ j, j < lazifyCS.Constraints.length → m j < lazifyCS.Constraints.length) ∧
      (∀ j j', j < lazifyCS.Constraints.length → j' < lazifyCS.Constraints.length →
        m j = m j' → j = j') ∧
      (∀ k, k < lazifyCS.Constraints.length → ∃ j, j < lazifyCS.Constraints.length ∧ m j = k) ∧
      (∀ j, j < lazifyCS.Constraints.length → ¬ InTemplate lazifyCS.LazyCons j → m j < bar) ∧
      (∀ k, k < bar →
        ∃ j, j < lazifyCS.Constraints.length ∧ ¬ InTemplate lazifyCS.LazyCons j ∧ m j = k) ∧
      (∀ j j', j < j' → j' < lazifyCS.Constraints.length → ¬ InTemplate lazifyCS.LazyCons j →
        ¬ InTemplate lazifyCS.LazyCons j' → m j < m j') ∧
      out.Constraints.length = bar ∧
      (∀ j, j < lazifyCS.Constraints.length → ¬ InTemplate lazifyCS.LazyCons j →
        out.Constraints[m j]? = lazifyCS.Constraints[j]?) ∧
      out.Levels = lazifyCS.Levels.map (fun row => row.map (fun val => (m val : Int))) :=
  Lazify_renumbers (fun _ => none) lazifyCS
    (show (0 ≤ 1 ∧ 3 ≤ 4 ∧ 5 ≤ 6) from by decide) (fun _ _ => rfl) (by decide)

/-- C27: after `Lazify`, under the same preconditions, the images of the
indices in template ranges are exactly the logical indices `[bar, n)`, which
follow the `bar` materialized constraints; for every template `k` and local
index `i < ConstraintsNum(k)` the original index `Loc(k) + i` is mapped to an
index `idx` with `bar <= idx < n` and `LazyConsMap[idx] = {Index: i,
LazyIndex: k}`, and `solveGeneralConstraint` runs `solveLazyConstraint` on
instance `i` of template `k` for `idx`. -/
theorem Lazify_lazy_dispatch (S : LazyInputs → Option String) (cs : R1CS F)
    (hord : RangesOrdered 0 cs.LazyCons cs.Constraints.length)
    (hS : ∀ con ∈ cs.LazyCons, S con = none)
    (hlev : ∀ row ∈ cs.Levels, ∀ val ∈ row, val < cs.Constraints.length) :
    ∃ (out : Lazified) (bar : Nat),
      Lazify S cs = .ok out ∧
      bar + GetConstraintsAll cs.LazyCons = cs.Constraints.length ∧
      (out.system cs).Constraints.length = bar ∧
      (∀ j, j < cs.Constraints.length → InTemplate cs.LazyCons j →
        ∃ idx : Nat, out.mapFromFull j = some (idx : Int) ∧ bar ≤ idx ∧
          idx < cs.Constraints.length) ∧
      (∀ j, j < cs.Constraints.length → ¬ InTemplate cs.LazyCons j →
        ∃ idx : Nat, out.mapFromFull j = some (idx : Int) ∧ idx < bar) ∧
      (∀ idx, bar ≤ idx → idx < cs.Constraints.length →
        ∃ j, j < cs.Constraints.length ∧ InTemplate cs.LazyCons j ∧
          out.mapFromFull j = some (idx : Int)) ∧
      (∀ k con i, cs.LazyCons[k]? = some con → i < con.GetConstraintsNum →
        ∃ idx : Nat, out.mapFromFull (con.GetLoc + i) = some (idx : Int) ∧
          bar ≤ idx ∧ idx < cs.Constraints.length ∧
          out.LazyConsMap idx = some ⟨i, k⟩ ∧
          ∀ st : Frame F, solveGeneralConstraint (out.system cs) idx st =
            solveLazyConstraint (out.system cs) con i con.GetShift st) := by
  have htot := total_le_length hord
  have hc := insideBelow_at_zero cs.LazyCons
  have h1 := fun j hj => insideBelow_succ_inside hord j hj
  have h0 := fun j hj => insideBelow_succ_outside hord j hj
  have hn := insideBelow_total hord cs.Constraints.length (le_refl _)
  obtain ⟨out, hout, g1, g2, g3, g4, g5, g6, g7⟩ := Lazify_spec S cs hord hS hlev
  have hlt_in : ∀ j, j < cs.Constraints.length → InTemplate cs.LazyCons j →
      insideBelow cs.LazyCons j < GetConstraintsAll cs.LazyCons := by
    intro j hj hi
    rw [← hn]
    exact rank_lt_inside _ _ h1 h0 j _ hi hj
  refine ⟨out, cs.Constraints.length - GetConstraintsAll cs.LazyCons, hout, by omega, g1,
    ?_, ?_, ?_, ?_⟩
  · intro j hj hi
    have := hlt_in j hj hi
    exact ⟨_, g2 j hj hi, by omega, by omega⟩
  · intro j hj hi
    refine ⟨_, g3 j hj hi, ?_⟩
    rw [← hn]
    exact rank_lt_outside _ _ hc h1 h0 j _ hi hj
  · intro idx hb hidx
    obtain ⟨j, hj, hp, hv⟩ := rank_surj_inside _ _ hc h1 h0 cs.Constraints.length
      (idx - (cs.Constraints.length - GetConstraintsAll cs.LazyCons)) (by rw [hn]; omega)
    refine ⟨j, hj, hp, ?_⟩
    rw [g2 j hj hp, hv]
    congr 2
    omega
  · intro k con i hk hi
    have hmem : con ∈ cs.LazyCons := List.mem_iff_getElem?.mpr ⟨k, hk⟩
    have hin : InTemplate cs.LazyCons (con.GetLoc + i) := ⟨con, hmem, by omega, by omega⟩
    have hj := hord.inTemplate_lt _ hin
    have hlt := hlt_in _ hj hin
    refine ⟨_, g2 _ hj hin, by omega, by omega, g6 k con i hk hi, ?_⟩
    intro st
    unfold solveGeneralConstraint
    simp only
    have hc' : (out.system cs).Constraints.length =
        cs.Constraints.length - GetConstraintsAll cs.LazyCons := g1
    rw [if_neg (by rw [hc']; omega)]
    have hl : (out.system cs).LazyConsMap = out.LazyConsMap := rfl
    have hl' : (out.system cs).LazyCons = cs.LazyCons := rfl
    rw [hl, hl', g6 k con i hk hi]
    simp only [Option.getD_some, hk]

theorem Lazify_lazy_dispatch_witness :
    ∃ (out : Lazified) (bar : Nat),
      Lazify (fun _ => none) lazifyCS = .ok out ∧
      bar + GetConstraintsAll lazifyCS.LazyCons = lazifyCS.Constraints.length ∧
      (out.system lazifyCS).Constraints.length = bar ∧
      (∀ j, j < lazifyCS.Constraints.length → InTemplate lazifyCS.LazyCons j →
        ∃ idx : Nat, out.mapFromFull j = some (idx : Int) ∧ bar ≤ idx ∧
          idx < lazifyCS.Constraints.length) ∧
      (∀ j, j < lazifyCS.Constraints.length → ¬ InTemplate lazifyCS.LazyCons j →
        ∃ idx : Nat, out.mapFromFull j = some (idx : Int) ∧ idx < bar) ∧
      (∀ idx, bar ≤ idx → idx < lazifyCS.Constraints.length →
        ∃ j, j < lazifyCS.Constraints.length ∧ InTemplate lazifyCS.LazyCons j ∧
          out.mapFromFull j = some (idx : Int)) ∧
      (∀ k con i, lazifyCS.LazyCons[k]? = some con → i < con.GetConstraintsNum →
        ∃ idx : Nat, out.mapFromFull (con.GetLoc + i) = some (idx : Int) ∧
          bar ≤ idx ∧ idx < lazifyCS.Constraints.length ∧
          out.LazyConsMap idx = some ⟨i, k⟩ ∧
          ∀ st : Frame (ZMod 13), solveGeneralConstraint (out.system lazifyCS) idx st =
            solveLazyConstraint (out.system lazifyCS) con i con.GetShift st) :=
  Lazify_lazy_dispatch (fun _ => none) lazifyCS
    (show (0 ≤ 1 ∧ 3 ≤ 4 ∧ 5 ≤ 6) from by decide) (fun _ _ => rfl) (by decide)

end R1CSSolver
